import Mathlib

/-!
# Plasma side-chain operator: ledger core

A shallow embedding of the mempool (`node/mempool.go`), the storage engine
(`db/storage.go`) and the ledger types (`chain/input.go`, `chain/output.go`)
together with the properties established about them.

Conventions of the embedding

* Go's `(T, error)` results are `Except Err T`; a run-time panic (nil
  dereference, explicit `panic`) is the error `Err.panic`, which propagates
  like any other error through the `if err != nil { return ..., err }` chains.
* `uint64`, `uint32`, `uint8` are `Nat` (reduced with `%` where the code
  casts or may wrap); `*big.Int` is a present `Int`.
* `common.Address`, `util.Hash` and `chain.Signature` are byte lists.
* The LevelDB handle is an ordered association list from keys to values.
  Byte encodings produced by external codecs (RLP, `MarshalBinary`) are
  tagged values that decode to what was encoded.
-/

namespace Plasma

/-! ## Ledger types -/

/-- A `common.Address`: 20 bytes. -/
abbrev Address := List Nat

/-- A `util.Hash`: a byte slice. -/
abbrev Hash := List Nat

/-- A `chain.Signature`: 65 bytes. -/
abbrev Signature := List Nat

/-- Errors travelling in Go's `error` results, and run-time panics. -/
inductive Err where
  /-- The value `errors.New(s)`. -/
  | msg (s : String)
  /-- The value `leveldb.ErrNotFound`. -/
  | notFound
  /-- A failure of `rlp.DecodeBytes`. -/
  | decode
  /-- An error reported by `eth.ValidateSignature`. -/
  | badSig (why : String)
  /-- A run-time panic. -/
  | panic (why : String)
  deriving DecidableEq, Repr

/-- The struct `chain.Input`. -/
structure Input where
  BlkNum : Nat
  TxIdx : Nat
  OutIdx : Nat
  DepositNonce : Int
  Owner : Address
  deriving DecidableEq, Repr

/-- The struct `chain.Output`. -/
structure Output where
  Owner : Address
  Denom : Int
  DepositNonce : Int
  deriving DecidableEq, Repr

/-- The struct `chain.Transaction`; the four pointers are present. -/
structure Transaction where
  Input0 : Input
  Sig0 : Signature
  Input1 : Input
  Sig1 : Signature
  Output0 : Output
  Output1 : Output
  Fee : Int
  BlkNum : Nat
  TxIdx : Nat
  deriving DecidableEq, Repr

/-- The struct `chain.ConfirmedTransaction`; `Signatures` is the array of two
confirmation signatures. -/
structure ConfirmedTransaction where
  Transaction : Transaction
  Signatures : Signature × Signature
  deriving DecidableEq, Repr

/-- The struct `chain.BlockHeader`. -/
structure BlockHeader where
  MerkleRoot : Hash
  RLPMerkleRoot : Hash
  PrevHash : Hash
  Number : Nat
  deriving DecidableEq, Repr

/-- The struct `chain.Block`. -/
structure Block where
  Header : BlockHeader
  BlockHash : Hash
  deriving DecidableEq, Repr

/-- The struct `chain.BlockMetadata`. -/
structure BlockMetadata where
  CreatedAt : Nat
  TransactionCount : Nat
  Fees : Int
  deriving DecidableEq, Repr

/-- The struct `chain.SpendIdentifier`. -/
structure SpendIdentifier where
  BlockNumber : Nat
  TransactionIndex : Nat
  InputIndex : Nat
  deriving DecidableEq, Repr

/-- The struct `db.BlockResult`. -/
structure BlockResult where
  MerkleRoot : Hash
  NumberTransactions : Nat
  BlockFees : Int
  BlockNumber : Int
  deriving DecidableEq, Repr

/-- Collaborators that are called by the sources but defined elsewhere:
cryptography, canonical hashing, the Merkle tree and the exit sentinel. -/
structure Ext where
  /-- The owner of `chain.ExitOutput()`, the reserved exit address. -/
  exitOwner : Address
  /-- The function `eth.ValidateSignature(hash, sig, owner)`. -/
  ValidateSignature : Hash → Signature → Address → Except Err Unit
  /-- The method `Input.SignatureHash`: keccak256 of the RLP form of the input. -/
  inputSignatureHash : Input → Hash
  /-- The method `Transaction.SignatureHash`. -/
  txSignatureHash : Transaction → Hash
  /-- The method `ConfirmedTransaction.RLPHash(util.Sha256)`, applied to the
  encoded form, which leaves out `BlkNum` and `TxIdx`. -/
  confirmedRLPHash : ConfirmedTransaction → Hash
  /-- The method `BlockHeader.Hash`. -/
  headerHash : BlockHeader → Hash
  /-- The function `merkle.Root` on the hashable leaves. -/
  merkleRoot : List ConfirmedTransaction → Hash

/-! ## chain/input.go, chain/output.go -/

/-- The function `chain.Zero()`. -/
def Zero : Int := 0

/-- The constructor `chain.NewInput`. -/
def NewInput (blkNum txIdx outIdx : Nat) (depositNonce : Int) (owner : Address) : Input :=
  { DepositNonce := depositNonce, Owner := owner, BlkNum := blkNum, TxIdx := txIdx,
    OutIdx := outIdx }

/-- The function `chain.ZeroInput`; the zero value of `common.Address` is 20 zero bytes. -/
def ZeroInput : Input :=
  NewInput 0 0 0 Zero (List.replicate 20 0)

/-- The method `(*Input).IsZeroInput`; the receiver may be nil. -/
def IsZeroInput (inp : Option Input) : Bool :=
  match inp with
  | none => true
  | some i => i.BlkNum == 0 && i.TxIdx == 0 && i.OutIdx == 0 && i.DepositNonce == Zero

/-- The function `chain.ZeroOutput`. -/
def ZeroOutput : Output :=
  { Owner := List.replicate 20 0, Denom := 0, DepositNonce := 0 }

/-- The method `(*Output).IsExit`: the 20 owner bytes are compared one by one
with those of the exit output. -/
def IsExit (E : Ext) (out : Option Output) : Bool :=
  match out with
  | none => false
  | some o => (List.range 20).all fun i => o.Owner.getD i 0 == E.exitOwner.getD i 0

/-- The method `(*Output).IsDeposit`. -/
def Output.IsDeposit (out : Option Output) : Bool :=
  match out with
  | none => false
  | some o => o.DepositNonce != Zero

/-- The method `(*Output).IsZeroOutput`. -/
def IsZeroOutput (out : Option Output) : Bool :=
  match out with
  | none => true
  | some o =>
    if o.Owner.any (fun v => v != 0) then false
    else o.Denom == Zero && o.DepositNonce == Zero

/-- Modelled from the spec: `Transaction.IsDeposit` (chain/transaction.go is not among
the sources). A transaction is a deposit transaction iff its first output is a
deposit and its first input is the zero input. -/
def Transaction.IsDeposit (tx : Transaction) : Bool :=
  Output.IsDeposit (some tx.Output0) && IsZeroInput (some tx.Input0)

/-- Modelled from the spec: `Transaction.OutputAt` (chain/transaction.go is not among
the sources). Index 0 selects `Output0` and index 1 selects `Output1`; the spec
names no output at any other index, which is a panic here. -/
def Transaction.OutputAt (tx : Transaction) (idx : Nat) : Except Err Output :=
  if idx = 0 then .ok tx.Output0
  else if idx = 1 then .ok tx.Output1
  else .error (.panic "invalid output index")

/-- Modelled from the spec: `Transaction.InputAt` (chain/transaction.go is not among
the sources), the counterpart of `OutputAt` for inputs. -/
def Transaction.InputAt (tx : Transaction) (idx : Nat) : Except Err Input :=
  if idx = 0 then .ok tx.Input0
  else if idx = 1 then .ok tx.Input1
  else .error (.panic "invalid input index")

/-! ## Keys of the store

The file `db/keys.go` is not among the sources; the key builders follow the
keyspace of the spec, with `::` as separator and unpadded decimal numbers
(`strconv.FormatUint(blkNum, 10)` in `FindTransactionsByBlockNum`). -/

/-- The function `hexutil.Encode`: `0x` followed by two lowercase hex digits per byte. -/
def hexEncode (b : List Nat) : String :=
  "0x" ++ String.mk (b.flatMap fun x => [Nat.digitChar (x / 16 % 16), Nat.digitChar (x % 16)])

/-- Modelled from the spec: the separator `keyPartsSeparator` of db/keys.go. -/
def keyPartsSeparator : String := "::"

/-- Modelled from the spec: `prefixKey(main, parts...)` of db/keys.go joins its
arguments with the separator. -/
def prefixKey (main : String) (parts : List String) : String :=
  parts.foldl (fun acc p => acc ++ keyPartsSeparator ++ p) main

/-- Modelled from the spec: `txPrefixKey(parts...)` of db/keys.go, the keys `tx::...`. -/
def txPrefixKey (parts : List String) : String := prefixKey "tx" parts

/-- Modelled from the spec: `merklePrefixKey` of db/keys.go, the key `merkle::<hex>`. -/
def merklePrefixKey (hex : String) : String := prefixKey "merkle" [hex]

/-- Modelled from the spec: `latestKey` of db/keys.go, as in `block::latest`. -/
def latestKey : String := "latest"

/-- Modelled from the spec: `blockPrefixKey` of db/keys.go, the keys `block::<hex>`
and `block::latest`. -/
def blockPrefixKey (part : String) : String := prefixKey "block" [part]

/-- Modelled from the spec: `blockNumKey` of db/keys.go, the key `blockNum::<n>`. -/
def blockNumKey (num : Nat) : String := prefixKey "blockNum" [toString num]

/-- Modelled from the spec: `blockMetaPrefixKey` of db/keys.go, the key `blockMeta::<n>`. -/
def blockMetaPrefixKey (num : Nat) : String := prefixKey "blockMeta" [toString num]

/-- Modelled from the spec: `blockFeesKey` of db/keys.go, the key `blockFees::<n>`. -/
def blockFeesKey (num : Nat) : String := prefixKey "blockFees" [toString num]

/-- Modelled from the spec: `blkNumHashkey` of db/keys.go, the key
`tx::blkNum::<n>::hash::<hex>`. -/
def blkNumHashkey (blkNum : Nat) (hexHash : String) : String :=
  txPrefixKey ["blkNum", toString blkNum, "hash", hexHash]

/-- Modelled from the spec: `blkNumTxIdxKey` of db/keys.go, the key
`tx::blkNum::<n>::txIdx::<i>`. -/
def blkNumTxIdxKey (blkNum txIdx : Nat) : String :=
  txPrefixKey ["blkNum", toString blkNum, "txIdx", toString txIdx]

/-- Modelled from the spec: `depositPrefixKey` of db/keys.go, the prefix
`tx::deposit::<nonce>::`. -/
def depositPrefixKey (nonce : Int) : String :=
  txPrefixKey ["deposit", toString nonce] ++ keyPartsSeparator

/-- Modelled from the spec: `depositKey` of db/keys.go, the key
`tx::deposit::<nonce>::<blkNum>::<txIdx>` of a stamped deposit transaction. -/
def depositKey (confirmed : ConfirmedTransaction) : String :=
  txPrefixKey ["deposit", toString confirmed.Transaction.Output0.DepositNonce,
    toString confirmed.Transaction.BlkNum, toString confirmed.Transaction.TxIdx]

/-- Modelled from the spec: `earnKeyPrefix` of db/keys.go. -/
def earnKeyPrefix : String := "earn"

/-- Modelled from the spec: `spendKeyPrefix` of db/keys.go. -/
def spendKeyPrefix : String := "spend"

/-- Modelled from the spec: `spendExitKeyPrefix` of db/keys.go. -/
def spendExitKeyPrefix : String := "spendExit"

/-- Modelled from the spec: `earn` of db/keys.go, the key
`earn::<owner>::<blkNum>::<txIdx>::<outIdx>` of an output of a stamped transaction. -/
def earn (addr : Address) (confirmed : ConfirmedTransaction) (outIdx : Nat) : String :=
  prefixKey earnKeyPrefix [hexEncode addr, toString confirmed.Transaction.BlkNum,
    toString confirmed.Transaction.TxIdx, toString outIdx]

/-- Modelled from the spec: `rawSpend` of db/keys.go, the key
`spend::<owner>::<blkNum>::<txIdx>::<outIdx>::<nonce>::`. -/
def rawSpend (addr : Address) (blkNum txIdx outIdx : Nat) (depositNonce : Int) : String :=
  prefixKey spendKeyPrefix [hexEncode addr, toString blkNum, toString txIdx, toString outIdx,
    toString depositNonce] ++ keyPartsSeparator

/-- Modelled from the spec: `spend` of db/keys.go, the spend key of an input:
its coordinates and its deposit nonce under the owner of the output it consumes. -/
def spend (addr : Address) (input : Input) : String :=
  rawSpend addr input.BlkNum input.TxIdx input.OutIdx input.DepositNonce

/-- Modelled from the spec: `spendExit` of db/keys.go, the key
`spendExit::<owner>::<input-coords>`, the coordinates being `blkNum`, `txIdx`, `outIdx`. -/
def spendExit (addr : Address) (input : Input) : String :=
  prefixKey spendExitKeyPrefix [hexEncode addr, toString input.BlkNum, toString input.TxIdx,
    toString input.OutIdx]

/-- The value of a string of decimal digits. -/
def digitsValue (l : List Char) : Nat :=
  l.foldl (fun acc c => acc * 10 + (c.toNat - 48)) 0

/-! ## The key-value store -/

/-- The byte strings held in the store, by the codec that produced them. -/
inductive Value where
  /-- The bytes `rlp.EncodeToBytes(&confirmed)`; the encoded form does not contain
  `BlkNum` and `TxIdx`. -/
  | tx (c : ConfirmedTransaction)
  /-- The bytes `rlp.EncodeToBytes(block)`. -/
  | block (b : Block)
  /-- The bytes `rlp.EncodeToBytes(merkleRoot)`. -/
  | root (h : Hash)
  /-- The bytes of a key, as stored under `block::latest` and `blockNum::<n>`. -/
  | key (k : String)
  /-- The bytes `outpointIdent.MarshalBinary()`. -/
  | ident (i : SpendIdentifier)
  /-- The bytes `currentFees.Bytes()`: the big-endian magnitude. -/
  | bigBytes (n : Nat)
  /-- The bytes `meta.RLP()`. -/
  | meta (m : BlockMetadata)
  /-- The bytes `rlp.EncodeToBytes(sigs)` of a pair of signatures. -/
  | sigs (s0 s1 : Signature)
  /-- The bytes `uint64ToBytes(idx)`. -/
  | u64 (n : Nat)
  /-- The empty byte string. -/
  | empty
  deriving DecidableEq, Repr

/-- The LevelDB database: entries in ascending byte order of their keys. -/
abbrev Store := List (String × Value)

/-- A `leveldb.Batch`: the recorded puts, oldest first. -/
abbrev Batch := List (String × Value)

/-- The call `db.Get(key, nil)`; `none` stands for `leveldb.ErrNotFound`. -/
def dbGet : Store → String → Option Value
  | [], _ => none
  | (k', v) :: s, k => if k = k' then some v else dbGet s k

/-- The call `db.Has(key, nil)`. -/
def dbHas (s : Store) (k : String) : Bool := (dbGet s k).isSome

/-- The call `db.Put(key, value, nil)`: insert in key order, replacing an equal key. -/
def dbPut : Store → String → Value → Store
  | [], k, v => [(k, v)]
  | (k', v') :: s, k, v =>
    if k = k' then (k, v) :: s
    else if k.data < k'.data then (k, v) :: (k', v') :: s
    else (k', v') :: dbPut s k v

/-- The call `batch.Put(key, value)`. -/
def batchPut (batch : Batch) (k : String) (v : Value) : Batch := batch ++ [(k, v)]

/-- The call `db.Write(batch, nil)`, and equally `batch.Replay(ps)`, whose
`Put` handler is `ps.db.Put`: every recorded put is applied in order. -/
def dbWrite (s : Store) (batch : Batch) : Store :=
  batch.foldl (fun acc p => dbPut acc p.1 p.2) s

/-- The encoder `rlp.EncodeToBytes(&confirmed)`: `BlkNum` and `TxIdx` are not encoded. -/
def encodeConfirmed (c : ConfirmedTransaction) : Value :=
  .tx { c with Transaction := { c.Transaction with BlkNum := 0, TxIdx := 0 } }

/-- The decoder `rlp.DecodeBytes(data, &tx)` for a confirmed transaction. -/
def decodeConfirmed : Value → Except Err ConfirmedTransaction
  | .tx c => .ok c
  | _ => .error .decode

/-- The decoder `rlp.DecodeBytes(data, &blk)` for a block. -/
def decodeBlock : Value → Except Err Block
  | .block b => .ok b
  | _ => .error .decode

/-- The read `db.Get(key, nil)` whose key is a stored value: only the bytes of a
key name an entry. -/
def dbGetRef (s : Store) : Value → Option Value
  | .key k => dbGet s k
  | _ => none

/-! ## db/storage.go -/

/-- The method `Storage.BlockAtHeight`. -/
def BlockAtHeight (s : Store) (num : Nat) : Except Err Block :=
  match dbGet s (blockNumKey num) with
  | none => .error .notFound
  | some key =>
    match dbGetRef s key with
    | none => .error .notFound
    | some data => decodeBlock data

/-- The method `Storage.LatestBlock`; `none` is the nil block of an empty chain. -/
def LatestBlock (s : Store) : Except Err (Option Block) :=
  let key := blockPrefixKey latestKey
  if !dbHas s key then .ok none
  else
    match dbGet s key with
    | none => .error .notFound
    | some topKey =>
      match dbGetRef s topKey with
      | none => .error .notFound
      | some data => (decodeBlock data).map some

/-- The method `Storage.findTransactionByBlockNumTxIdx`: the transaction stamped with
the position asked for, and the hash of its block; `none` is the nil transaction. -/
def findTransactionByBlockNumTxIdx (s : Store) (blkNum txIdx : Nat) :
    Except Err (Option (ConfirmedTransaction × Hash)) := do
  let key := blkNumTxIdxKey blkNum txIdx
  let block ← BlockAtHeight s blkNum
  if !dbHas s key then return none
  match dbGet s key with
  | none => throw .notFound
  | some data =>
    let tx ← decodeConfirmed data
    let tx := { tx with Transaction := { tx.Transaction with BlkNum := blkNum, TxIdx := txIdx } }
    return some (tx, block.BlockHash)

/-- The method `Storage.FindTransactionByBlockNumTxIdx`. -/
def FindTransactionByBlockNumTxIdx (s : Store) (blkNum txIdx : Nat) :
    Except Err (Option ConfirmedTransaction) :=
  (findTransactionByBlockNumTxIdx s blkNum txIdx).map (Option.map Prod.fst)

/-- The method `Storage.findPreviousTx`. -/
def findPreviousTx (s : Store) (tx : ConfirmedTransaction) (inputIdx : Nat) :
    Except Err (Option (ConfirmedTransaction × Hash)) :=
  if inputIdx ≠ 0 ∧ inputIdx ≠ 1 then .error (.panic "inputIdx must be 0 or 1")
  else
    let input := if inputIdx = 0 then tx.Transaction.Input0 else tx.Transaction.Input1
    findTransactionByBlockNumTxIdx s input.BlkNum input.TxIdx

/-- Dereferencing a transaction pointer as in `prevTx0.Transaction`: nil panics. -/
def derefTx (p : Option (ConfirmedTransaction × Hash)) : Except Err ConfirmedTransaction :=
  match p with
  | none => .error (.panic "nil pointer dereference")
  | some q => .ok q.1

/-- The first block under `// Recording spends` of `saveTransaction`: the spend record of
`Input0` of the stamped transaction, put under the exit-spend key when `Output0` is an
exit output and under the spend key otherwise. -/
def recordSpend0 (E : Ext) (s : Store) (blkNum txIdx : Nat) (confirmed : ConfirmedTransaction)
    (batch : Batch) : Except Err Batch :=
  if !IsZeroInput (some confirmed.Transaction.Input0) then do
    let outpointIdent : SpendIdentifier :=
      { BlockNumber := blkNum, TransactionIndex := txIdx, InputIndex := 1 }
    let identBytes := Value.ident outpointIdent
    let prevTx0 ← findPreviousTx s confirmed 0
    let input := confirmed.Transaction.Input0
    let prevOutput ← (← derefTx prevTx0).Transaction.OutputAt input.OutIdx
    let outputOwner := prevOutput.Owner
    if IsExit E (some confirmed.Transaction.Output0) then
      pure (batchPut batch (spendExit outputOwner confirmed.Transaction.Input0) identBytes)
    else
      pure (batchPut batch (spend outputOwner confirmed.Transaction.Input0) identBytes)
  else pure batch

/-- The second block under `// Recording spends` of `saveTransaction`: the spend record of
`Input1` of the stamped transaction. -/
def recordSpend1 (s : Store) (blkNum txIdx : Nat) (confirmed : ConfirmedTransaction)
    (batch : Batch) : Except Err Batch :=
  if !IsZeroInput (some confirmed.Transaction.Input1) then do
    let outpointIdent : SpendIdentifier :=
      { BlockNumber := blkNum, TransactionIndex := txIdx, InputIndex := 1 }
    let identBytes := Value.ident outpointIdent
    let prevTx1 ← findPreviousTx s confirmed 1
    let input ← confirmed.Transaction.InputAt 1
    let outputOwner := (← (← derefTx prevTx1).Transaction.OutputAt input.OutIdx).Owner
    pure (batchPut batch (spend outputOwner confirmed.Transaction.Input1) identBytes)
  else pure batch

/-- The blocks under `// Recording earns` of `saveTransaction`: the earn records of the
non-zero outputs of the stamped transaction, and the deposit key of a deposit. -/
def recordEarns (confirmed : ConfirmedTransaction) (txEnc : Value) (batch : Batch) :
    Except Err Batch := do
  let batch ←
    if !IsZeroOutput (some confirmed.Transaction.Output0) then do
      let batch :=
        if Output.IsDeposit (some confirmed.Transaction.Output0) then
          batchPut batch (depositKey confirmed) txEnc
        else batch
      let output ← confirmed.Transaction.OutputAt 0
      pure (batchPut batch (earn output.Owner confirmed 0) Value.empty)
    else pure batch
  if !IsZeroOutput (some confirmed.Transaction.Output1) then do
    let output ← confirmed.Transaction.OutputAt 1
    pure (batchPut batch (earn output.Owner confirmed 1) Value.empty)
  else pure batch

/-- The method `Storage.saveTransaction`. The transaction is stamped, its index, spend and
earn records are put into the batch, and the whole batch is then replayed into the
database. The result is the stamped transaction, the database and the batch. -/
def saveTransaction (E : Ext) (s : Store) (blkNum txIdx : Nat) (confirmed : ConfirmedTransaction)
    (batch : Batch) : Except Err (ConfirmedTransaction × Store × Batch) := do
  let confirmed : ConfirmedTransaction :=
    { confirmed with Transaction := { confirmed.Transaction with TxIdx := txIdx, BlkNum := blkNum } }
  let txEnc := encodeConfirmed confirmed
  let hash := E.confirmedRLPHash
    { confirmed with Transaction := { confirmed.Transaction with BlkNum := 0, TxIdx := 0 } }
  let hexHash := hexEncode hash
  let hashKey := txPrefixKey ["hash", hexHash]
  let batch := batchPut batch hashKey txEnc
  let batch := batchPut batch (blkNumHashkey confirmed.Transaction.BlkNum hexHash) txEnc
  let batch := batchPut batch
    (blkNumTxIdxKey confirmed.Transaction.BlkNum confirmed.Transaction.TxIdx) txEnc
  let batch ← recordSpend0 E s blkNum txIdx confirmed batch
  let batch ← recordSpend1 s blkNum txIdx confirmed batch
  let batch ← recordEarns confirmed txEnc batch
  return (confirmed, dbWrite s batch, batch)

/-- The method `Storage.IsDoubleSpent`. -/
def IsDoubleSpent (s : Store) (confirmed : ConfirmedTransaction) : Except Err Bool := do
  let tx := confirmed.Transaction
  let prevTx0 ← findPreviousTx s confirmed 0
  let spendKeys : List String := []
  let addr0 := (← (← derefTx prevTx0).Transaction.OutputAt tx.Input0.OutIdx).Owner
  let spendKeys := spendKeys ++ [spend addr0 tx.Input0]
  let spendKeys := spendKeys ++ [spendExit addr0 tx.Input0]
  let spendKeys ←
    if !IsZeroInput (some tx.Input1) then do
      let prevTx1 ← findPreviousTx s confirmed 1
      let addr1 := (← (← derefTx prevTx1).Transaction.OutputAt tx.Input1.OutIdx).Owner
      let spendKeys := spendKeys ++ [spend addr1 tx.Input1]
      pure (spendKeys ++ [spendExit addr1 tx.Input1])
    else pure spendKeys
  return spendKeys.any fun spendKey => dbHas s spendKey

/-- The conversion `int64(x)` of a `uint64`. -/
def toInt64 (x : Nat) : Int :=
  if x % 2 ^ 64 < 2 ^ 63 then (x % 2 ^ 64 : Nat) else ((x % 2 ^ 64 : Nat) : Int) - 2 ^ 64

/-- The leaves handed to `merkle.Root` in `doPackageBlock`. The loop
`for i, tx := range txs { hashables[i] = &tx }` stores the address of its one
loop variable in every slot, so that after the loop each leaf is the last
element of `txs`. -/
def packageHashables (txs : List ConfirmedTransaction) : List ConfirmedTransaction :=
  match txs.getLast? with
  | none => []
  | some last => List.replicate txs.length last

/-- The number `blkNum` that `doPackageBlock` gives the new block: 1 when there is no
latest block, the number of the latest block plus one otherwise. -/
def nextBlkNum (prevBlock : Option Block) : Nat :=
  match prevBlock with
  | none => 1
  | some b => (b.Header.Number + 1) % 2 ^ 64

/-- The loop of `doPackageBlock` over the transactions from index `i` on: each is
saved, which replays the batch into the database, and its fee is added. An
error ends the loop; the database keeps what the earlier replays wrote. -/
def packageLoop (E : Ext) (blkNum : Nat) :
    List ConfirmedTransaction → Nat → Store → Batch → Int → Except Err (Batch × Int) × Store
  | [], _, s, batch, currentFees => (.ok (batch, currentFees), s)
  | tx :: rest, i, s, batch, currentFees =>
    match saveTransaction E s blkNum (i % 2 ^ 32) tx batch with
    | .error e => (.error e, s)
    | .ok (_, s1, batch1) =>
      packageLoop E blkNum rest (i + 1) s1 batch1 (currentFees + tx.Transaction.Fee)

/-- The method `Storage.doPackageBlock`, with the reading `now` of the clock. The
second component is the database after the call. -/
def doPackageBlock (E : Ext) (now : Nat) (s : Store) (txs : List ConfirmedTransaction) :
    Except Err BlockResult × Store :=
  match LatestBlock s with
  | .error e => (.error e, s)
  | .ok prevBlock =>
    let blkNum : Nat := nextBlkNum prevBlock
    let prevHash : Hash :=
      match prevBlock with
      | none => []
      | some b => b.BlockHash
    let batch : Batch := []
    let numberOfTransactions := txs.length
    let merkleRoot := E.merkleRoot (packageHashables txs)
    let header : BlockHeader :=
      { MerkleRoot := merkleRoot, RLPMerkleRoot := [], PrevHash := prevHash, Number := blkNum }
    let block : Block := { Header := header, BlockHash := E.headerHash header }
    let batch := batchPut batch (merklePrefixKey (hexEncode merkleRoot)) (.root merkleRoot)
    let key := blockPrefixKey (hexEncode block.BlockHash)
    let batch := batchPut batch key (.block block)
    let batch := batchPut batch (blockPrefixKey latestKey) (.key key)
    let batch := batchPut batch (blockNumKey block.Header.Number) (.key key)
    match packageLoop E blkNum txs 0 s batch 0 with
    | (.error e, s1) => (.error e, s1)
    | (.ok (batch, currentFees), s1) =>
      let batch := batchPut batch (blockFeesKey blkNum) (.bigBytes currentFees.natAbs)
      let meta : BlockMetadata :=
        { CreatedAt := now, TransactionCount := numberOfTransactions % 2 ^ 32,
          Fees := currentFees }
      let batch := batchPut batch (blockMetaPrefixKey block.Header.Number) (.meta meta)
      (.ok { MerkleRoot := merkleRoot,
             NumberTransactions := numberOfTransactions % 2 ^ 32,
             BlockFees := currentFees,
             BlockNumber := toInt64 block.Header.Number },
       dbWrite s1 batch)

/-- The method `Storage.PackageBlock`. -/
def PackageBlock (E : Ext) (now : Nat) (s : Store) (txs : List ConfirmedTransaction) :
    Except Err BlockResult × Store :=
  doPackageBlock E now s txs

/-- The method `Storage.ProcessDeposit`. -/
def ProcessDeposit (E : Ext) (now : Nat) (s : Store) (confirmed : ConfirmedTransaction) :
    Except Err BlockResult × Store :=
  if !confirmed.Transaction.IsDeposit then
    (.error (.msg "only deposit blocks are accepted"), s)
  else doPackageBlock E now s [confirmed]

/-! ## Reading the store: iterators and queries -/

/-- A transaction stamped with a position. -/
def stampAt (tx : ConfirmedTransaction) (blkNum txIdx : Nat) : ConfirmedTransaction :=
  { tx with Transaction := { tx.Transaction with BlkNum := blkNum, TxIdx := txIdx } }

/-- The iterator `db.NewIterator(levelutil.BytesPrefix(pfx), nil)`: the entries whose
key starts with `pfx`, in the order of the store. -/
def dbIterate (s : Store) (pfx : String) : List (String × Value) :=
  s.filter fun p => pfx.data.isPrefixOf p.1.data

/-- The value of a non-empty string of decimal digits; `none` for any other string. -/
def parseDecimal (l : List Char) : Option Nat :=
  if l ≠ [] ∧ l.all Char.isDigit then some (digitsValue l) else none

/-- Modelled from the spec: `util.Str2Uint32` (the conversions of package util are not
among the sources) parses the decimal form of a `uint32` and reports whether it
succeeded. -/
def Str2Uint32 (str : String) : Option Nat :=
  match parseDecimal str.data with
  | some n => if n < 2 ^ 32 then some n else none
  | none => none

/-- Modelled from the spec: `util.Str2Uint64` (the conversions of package util are not
among the sources) parses the decimal form of a `uint64` and reports whether it
succeeded. -/
def Str2Uint64 (str : String) : Option Nat :=
  match parseDecimal str.data with
  | some n => if n < 2 ^ 64 then some n else none
  | none => none

/-- The decoder `ident.UnmarshalBinary(identBinary)`. -/
def decodeIdent : Value → Except Err SpendIdentifier
  | .ident i => .ok i
  | _ => .error .decode

/-- The first loop of `findBlockTransactions`: every entry of the iterator is parsed,
decoded, stamped and appended to the buffer. -/
def collectBlockTransactions (pfx : String) (blkNum : Nat) :
    List (String × Value) → List ConfirmedTransaction → Except Err (List ConfirmedTransaction)
  | [], buffer => .ok buffer
  | (key, value) :: rest, buffer =>
    let idx := String.mk (key.data.drop pfx.length)
    match Str2Uint32 idx with
    | none => .error (.msg "Failed to parse transaction index from key")
    | some txIdx =>
      match decodeConfirmed value with
      | .error err => .error err
      | .ok tx =>
        let tx : ConfirmedTransaction :=
          { tx with Transaction := { tx.Transaction with TxIdx := txIdx, BlkNum := blkNum } }
        collectBlockTransactions pfx blkNum rest (buffer ++ [tx])

/-- The second loop of `findBlockTransactions`: `txs[tx.Transaction.TxIdx] = tx` for every
transaction of the buffer. A slot is `none` while it holds the zero value it was made
with; an index outside the slice is a panic. -/
def placeBlockTransactions :
    List ConfirmedTransaction → List (Option ConfirmedTransaction) →
      Except Err (List (Option ConfirmedTransaction))
  | [], txs => .ok txs
  | tx :: rest, txs =>
    if tx.Transaction.TxIdx < txs.length then
      placeBlockTransactions rest (txs.set tx.Transaction.TxIdx (some tx))
    else .error (.panic "index out of range")

/-- The function `findBlockTransactions`. The result has one slot per entry of the
iterator; a slot never assigned is `none`, the zero value of the Go slice. -/
def findBlockTransactions (iter : List (String × Value)) (pfx : String) (blkNum : Nat) :
    Except Err (List (Option ConfirmedTransaction)) :=
  match collectBlockTransactions pfx blkNum iter [] with
  | .error err => .error err
  | .ok buffer => placeBlockTransactions buffer (List.replicate buffer.length none)

/-- The method `Storage.FindTransactionsByBlockNum`. -/
def FindTransactionsByBlockNum (s : Store) (blkNum : Nat) :
    Except Err (List (Option ConfirmedTransaction)) :=
  let pfx := txPrefixKey ["blkNum", toString blkNum, "txIdx"]
  let pfx := pfx ++ "::"
  findBlockTransactions (dbIterate s pfx) pfx blkNum

/-- The loop of `FindDoubleSpendingTransaction` over the spend keys: the identifier
stored under the first key that is present. -/
def firstSpendIdent (s : Store) : List String → Except Err (Option SpendIdentifier)
  | [] => .ok none
  | spendKey :: rest =>
    if !dbHas s spendKey then firstSpendIdent s rest
    else
      match dbGet s spendKey with
      | none => .error .notFound
      | some identBinary => (decodeIdent identBinary).map some

/-- The method `Storage.FindDoubleSpendingTransaction`. -/
def FindDoubleSpendingTransaction (s : Store) (blkNum txIdx outIndex : Nat) :
    Except Err (Option ConfirmedTransaction) := do
  let confirmed ← findTransactionByBlockNumTxIdx s blkNum txIdx
  let tx := (← derefTx confirmed).Transaction
  let spendKeys : List String := []
  let addr := (← tx.OutputAt outIndex).Owner
  let spendKeys := spendKeys ++ [rawSpend addr blkNum txIdx outIndex 0]
  let spendKeys := spendKeys ++ [spendExit addr tx.Input0]
  let spendIdent ← firstSpendIdent s spendKeys
  match spendIdent with
  | none => return none
  | some spendIdent =>
    let spendingTx ←
      findTransactionByBlockNumTxIdx s spendIdent.BlockNumber spendIdent.TransactionIndex
    return spendingTx.map Prod.fst

/-- Modelled from the spec: `earnPrefixKey` of db/keys.go, the prefix `earn::<owner>` of
the earn keys of an owner. -/
def earnPrefixKey (addr : Address) : String := prefixKey earnKeyPrefix [hexEncode addr]

/-- Modelled from the spec: `spendPrefixKey` of db/keys.go, the prefix `spend::<owner>` of
the spend keys of an owner. -/
def spendPrefixKey (addr : Address) : String := prefixKey spendKeyPrefix [hexEncode addr]

/-- The function `strings.Split(key, "::")` on the characters still to read; `cur` holds,
reversed, the characters of the part being read, and `colon` tells that a single
colon was just read. -/
def splitParts : List Char → Bool → List Char → List (List Char)
  | cur, colon, [] => [(if colon then ':' :: cur else cur).reverse]
  | cur, false, c :: rest =>
    if c = ':' then splitParts cur true rest else splitParts (c :: cur) false rest
  | cur, true, c :: rest =>
    if c = ':' then cur.reverse :: splitParts [] false rest
    else splitParts (c :: ':' :: cur) false rest

/-- Modelled from the spec: `parseSuffix` of db/keys.go reads the block number, the
transaction index and the output index out of a suffix
`<owner>::<blkNum>::<txIdx>::<outIdx>` of an earn key. -/
def parseSuffix (key : String) : Except Err (Nat × Nat × Nat) :=
  match splitParts [] false key.data with
  | [_, b, t, o] =>
    match parseDecimal b, parseDecimal t, parseDecimal o with
    | some blkNum, some txIdx, some outIdx => .ok (blkNum, txIdx, outIdx)
    | _, _, _ => .error (.msg "Failed to parse suffix")
  | _ => .error (.msg "Failed to parse suffix")

/-- Modelled from the spec: `sortTransactions` of package db orders transactions by
block number and then by index; an insertion of one transaction. -/
def insertTransaction (tx : ConfirmedTransaction) :
    List ConfirmedTransaction → List ConfirmedTransaction
  | [] => [tx]
  | hd :: tl =>
    if tx.Transaction.BlkNum < hd.Transaction.BlkNum ∨
        (tx.Transaction.BlkNum = hd.Transaction.BlkNum ∧
          tx.Transaction.TxIdx ≤ hd.Transaction.TxIdx) then tx :: hd :: tl
    else hd :: insertTransaction tx tl

/-- Modelled from the spec: `sortTransactions` of package db orders transactions by
block number and then by index. -/
def sortTransactions (txs : List ConfirmedTransaction) : List ConfirmedTransaction :=
  txs.foldr insertTransaction []

/-- The earn map of `SpendableTxs` and `UTXOs`: the earn keys of the owner without
their leading `earn::`. -/
def earnLookupKeys (s : Store) (addr : Address) : List String :=
  (dbIterate s (earnPrefixKey addr)).map fun p =>
    String.mk (p.1.data.drop (earnKeyPrefix.length + keyPartsSeparator.length))

/-- The spend map of `SpendableTxs`: the spend keys of the owner without their leading
`spend::` and without their last three bytes. -/
def spendLookupKeys (s : Store) (addr : Address) : List String :=
  (dbIterate s (spendPrefixKey addr)).map fun p =>
    String.mk ((p.1.data.take (p.1.length - 3)).drop
      (spendKeyPrefix.length + keyPartsSeparator.length))

/-- The loops `for key := range earnMap` of `SpendableTxs` and `UTXOs`: the transaction
of every key is looked up and appended. -/
def lookupEarned (s : Store) : List String → Except Err (List ConfirmedTransaction)
  | [] => .ok []
  | key :: rest => do
    let (blkNum, txIdx, _) ← parseSuffix key
    let tx ← findTransactionByBlockNumTxIdx s (blkNum % 2 ^ 64) (txIdx % 2 ^ 32)
    let tx ← derefTx tx
    let ret ← lookupEarned s rest
    return tx :: ret

/-- The method `Storage.SpendableTxs`. The keys of the spend map are deleted from the
earn map; the order in which Go ranges over the map does not matter, as the result
is sorted. -/
def SpendableTxs (s : Store) (addr : Address) : Except Err (List ConfirmedTransaction) := do
  let earnMap := earnLookupKeys s addr
  let spendMap := spendLookupKeys s addr
  let earnMap := earnMap.filter fun k => !spendMap.contains k
  let ret ← lookupEarned s earnMap
  return sortTransactions ret

/-- The method `Storage.UTXOs`. -/
def UTXOs (s : Store) (addr : Address) : Except Err (List ConfirmedTransaction) := do
  let earnMap := earnLookupKeys s addr
  let ret ← lookupEarned s earnMap
  return sortTransactions ret

/-- Modelled from the spec: `extractAmount` of package db, the total denomination of the
outputs of a transaction that are owned by the address. -/
def extractAmount (tx : Transaction) (addr : Address) : Int :=
  (if tx.Output0.Owner = addr then tx.Output0.Denom else 0) +
  (if tx.Output1.Owner = addr then tx.Output1.Denom else 0)

/-- The method `Storage.Balance`. -/
def Balance (s : Store) (addr : Address) : Except Err Int := do
  let txs ← SpendableTxs s addr
  return txs.foldl (fun total confirmed => total + extractAmount confirmed.Transaction addr) 0

/-! ## chain/output.go: `NewOutput` -/

/-- The function `common.BytesToAddress` of go-ethereum: the last 20 bytes of the
argument, padded with zero bytes on the left. -/
def BytesToAddress (b : List Nat) : Address :=
  let b := b.drop (b.length - 20)
  List.replicate (20 - b.length) 0 ++ b

/-- The method `(*big.Int).Int64` of Go: the low 64 bits of the magnitude read as an
`int64`, negated (in `int64`) for a negative number. -/
def bigInt64 (x : Int) : Int :=
  let v := toInt64 x.natAbs
  if x < 0 then toInt64 ((-v) % 2 ^ 64).toNat else v

/-- The constructor `chain.NewOutput`. -/
def NewOutput (newOwner : Address) (amount depositNonce : Int) : Output :=
  { Owner := BytesToAddress newOwner,
    Denom := bigInt64 amount,
    DepositNonce := bigInt64 depositNonce }

/-! ## db/storage.go: deposits by nonce -/

/-- The method `Storage.findTransactionByDepositNonce`. The loop over the iterator
returns in its first round, so that only the first entry under the prefix is looked
at; the hash returned with the transaction is always nil and is left out. -/
def findTransactionByDepositNonce (s : Store) (nonce : Int) : Except Err ConfirmedTransaction :=
  let keyPrefix := depositPrefixKey nonce
  match dbIterate s keyPrefix with
  | [] => .error (.msg ("Failed to find deposit for deposit nonce " ++ toString nonce))
  | (key, value) :: _ =>
    let keyParts := splitParts [] false key.data
    if keyParts.length ≠ 4 then
      .error (.msg ("Failed to parse deposit transaction position from key " ++ key))
    else
      match Str2Uint64 (String.mk (keyParts.getD 2 [])) with
      | none => .error (.msg ("Failed to parse block number from key " ++ key))
      | some blkNum =>
        match Str2Uint32 (String.mk (keyParts.getD 3 [])) with
        | none => .error (.msg ("Failed to parse transaction index from key " ++ key))
        | some txIdx =>
          match decodeConfirmed value with
          | .error err => .error err
          | .ok confirmed =>
            .ok { confirmed with
              Transaction := { confirmed.Transaction with BlkNum := blkNum, TxIdx := txIdx } }

/-! ## db/storage.go: confirmations and cursors -/

/-- Modelled from the spec: `blkNumTxIdxAuthSigKey` of db/keys.go, the key
`auth::<blkNum>::<txIdx>`. -/
def blkNumTxIdxAuthSigKey (blkNum txIdx : Nat) : String :=
  prefixKey "auth" [toString blkNum, toString txIdx]

/-- The decoder `rlp.DecodeBytes(rawSigs, &sigs)` for a pair of signatures. -/
def decodeSigs : Value → Except Err (Signature × Signature)
  | .sigs s0 s1 => .ok (s0, s1)
  | _ => .error .decode

/-- The method `Storage.ConfirmTransaction`. The transaction returned is nil (`none`)
when the position holds none; the second component is the database after the call. -/
def ConfirmTransaction (s : Store) (blockNumber transactionIndex : Nat)
    (sigs : Signature × Signature) : Except Err (Option ConfirmedTransaction) × Store :=
  match findTransactionByBlockNumTxIdx s blockNumber transactionIndex with
  | .error err => (.error err, s)
  | .ok tx =>
    let encoded := Value.sigs sigs.1 sigs.2
    let batch : Batch := []
    let batch := batchPut batch (blkNumTxIdxAuthSigKey blockNumber transactionIndex) encoded
    (.ok (tx.map Prod.fst), dbWrite s batch)

/-- The method `Storage.AuthSigsFor`. -/
def AuthSigsFor (s : Store) (blockNumber transactionIndex : Nat) :
    Except Err (Signature × Signature) :=
  let key := blkNumTxIdxAuthSigKey blockNumber transactionIndex
  if !dbHas s key then .error (.msg "no auth sigs found")
  else
    match dbGet s key with
    | none => .error .notFound
    | some rawSigs => decodeSigs rawSigs

/-- Modelled from the spec: the cursor key `latestDepositIdxKey` of db/keys.go. -/
def latestDepositIdxKey : String := "lastDepositIdx"

/-- Modelled from the spec: the cursor key `lastTxExitPollKey` of db/keys.go. -/
def lastTxExitPollKey : String := "lastTxExitIdx"

/-- Modelled from the spec: the cursor key `latestDepExitIdxKey` of db/keys.go. -/
def latestDepExitIdxKey : String := "lastDepExitIdx"

/-- Modelled from the spec: the cursor key `lastSubmittedBlockKey` of db/keys.go. -/
def lastSubmittedBlockKey : String := "lastSubmittedBlock"

/-- Modelled from the spec: `uint64ToBytes` of package db, the eight big-endian bytes of
a `uint64`. -/
def uint64ToBytes (idx : Nat) : Value := Value.u64 (idx % 2 ^ 64)

/-- Modelled from the spec: `bytesToUint64` of package db reads eight big-endian bytes;
bytes that are not the bytes of a `uint64` are a panic here. -/
def bytesToUint64 : Value → Except Err Nat
  | .u64 n => .ok n
  | _ => .error (.panic "not the bytes of a uint64")

/-- The method `Storage.saveEventIdx`; the put returns no error. -/
def saveEventIdx (s : Store) (eventKey : String) (idx : Nat) : Store :=
  let key := prefixKey eventKey []
  let b := uint64ToBytes idx
  dbPut s key b

/-- The method `Storage.getMostRecentEventIdx`. -/
def getMostRecentEventIdx (s : Store) (eventKey : String) : Except Err Nat :=
  let key := prefixKey eventKey []
  match dbGet s key with
  | none => .ok 0
  | some b => bytesToUint64 b

/-- The method `Storage.LastDepositPoll`. -/
def LastDepositPoll (s : Store) : Except Err Nat :=
  match getMostRecentEventIdx s latestDepositIdxKey with
  | .error err => if err = Err.notFound then .ok 0 else .error err
  | .ok res => .ok res

/-- The method `Storage.SaveDepositPoll`. -/
def SaveDepositPoll (s : Store) (idx : Nat) : Store := saveEventIdx s latestDepositIdxKey idx

/-- The method `Storage.LastTxExitPoll`. -/
def LastTxExitPoll (s : Store) : Except Err Nat := getMostRecentEventIdx s lastTxExitPollKey

/-- The method `Storage.SaveTxExitPoll`. -/
def SaveTxExitPoll (s : Store) (idx : Nat) : Store := saveEventIdx s lastTxExitPollKey idx

/-- The method `Storage.LastDepositExitEventIdx`. -/
def LastDepositExitEventIdx (s : Store) : Except Err Nat :=
  getMostRecentEventIdx s latestDepExitIdxKey

/-- The method `Storage.SaveDepositExitEventIdx`. -/
def SaveDepositExitEventIdx (s : Store) (idx : Nat) : Store :=
  saveEventIdx s latestDepExitIdxKey idx

/-- The method `Storage.SaveLastSubmittedBlock`. -/
def SaveLastSubmittedBlock (s : Store) (num : Nat) : Store :=
  saveEventIdx s lastSubmittedBlockKey num

/-- The method `Storage.LastSubmittedBlock`. -/
def LastSubmittedBlock (s : Store) : Except Err Nat :=
  getMostRecentEventIdx s lastSubmittedBlockKey

/-- The four cursors of the operator. -/
inductive Cursor where
  | depositPoll
  | txExitPoll
  | depositExitEventIdx
  | lastSubmittedBlock
  deriving DecidableEq, Repr

/-- The key of a cursor. -/
def Cursor.key : Cursor → String
  | .depositPoll => latestDepositIdxKey
  | .txExitPoll => lastTxExitPollKey
  | .depositExitEventIdx => latestDepExitIdxKey
  | .lastSubmittedBlock => lastSubmittedBlockKey

/-- The reader of a cursor: `LastDepositPoll`, `LastTxExitPoll`,
`LastDepositExitEventIdx` or `LastSubmittedBlock`. -/
def readCursor (s : Store) : Cursor → Except Err Nat
  | .depositPoll => LastDepositPoll s
  | .txExitPoll => LastTxExitPoll s
  | .depositExitEventIdx => LastDepositExitEventIdx s
  | .lastSubmittedBlock => LastSubmittedBlock s

/-- The writer of a cursor: `SaveDepositPoll`, `SaveTxExitPoll`,
`SaveDepositExitEventIdx` or `SaveLastSubmittedBlock`. -/
def saveCursor (s : Store) (idx : Nat) : Cursor → Store
  | .depositPoll => SaveDepositPoll s idx
  | .txExitPoll => SaveTxExitPoll s idx
  | .depositExitEventIdx => SaveDepositExitEventIdx s idx
  | .lastSubmittedBlock => SaveLastSubmittedBlock s idx

/-- The databases reached from the empty database by the writing methods of the
storage: `PackageBlock` and `ProcessDeposit` (whether they succeed or fail), successful
calls of `ConfirmTransaction` (a failed call leaves the database as it is) and saves of
cursors. The second index lists the positions confirmed, the third the cursors saved. -/
inductive Ledger (E : Ext) : Store → List (Nat × Nat) → List Cursor → Prop where
  | empty : Ledger E [] [] []
  | package {s : Store} {c : List (Nat × Nat)} {k : List Cursor} (now : Nat)
      (txs : List ConfirmedTransaction) :
      Ledger E s c k → Ledger E (PackageBlock E now s txs).2 c k
  | deposit {s : Store} {c : List (Nat × Nat)} {k : List Cursor} (now : Nat)
      (confirmed : ConfirmedTransaction) :
      Ledger E s c k → Ledger E (ProcessDeposit E now s confirmed).2 c k
  | confirm {s : Store} {c : List (Nat × Nat)} {k : List Cursor} (n i : Nat)
      (sigs : Signature × Signature) (r : Option ConfirmedTransaction) (s' : Store) :
      Ledger E s c k → ConfirmTransaction s n i sigs = (Except.ok r, s') →
      Ledger E s' ((n, i) :: c) k
  | cursor {s : Store} {c : List (Nat × Nat)} {k : List Cursor} (cur : Cursor) (idx : Nat) :
      Ledger E s c k → Ledger E (saveCursor s idx cur) c (cur :: k)

/-- The tags of the keys under which packaging puts entries. -/
def packTags : List (List Char) :=
  ["merkle".data, "block:".data, "blockN".data, "blockF".data, "blockM".data, "tx::ha".data,
    "tx::bl".data, "tx::de".data, "earn::".data, "spend:".data, "spendE".data]

/-! ## rpc/serde.go: big integers on the wire

The message `pb.BigInt` has the one field `Hex`, a string; it is modelled by that
string. -/

/-- The method `(*big.Int).Text(16)` of Go: the digits of the magnitude in base 16,
most significant first, with the letters `a` to `f`, after a minus sign for a
negative number. -/
def bigText16 (x : Int) : String :=
  if x < 0 then "-" ++ String.mk (Nat.toDigits 16 x.natAbs)
  else String.mk (Nat.toDigits 16 x.natAbs)

/-- The function `strings.ToLower` on the characters of a string. -/
def toLowerString (s : String) : String := String.mk (s.data.map Char.toLower)

/-- The function `rpc.SerializeBig`; the result is the field `Hex`. -/
def SerializeBig (x : Int) : String :=
  "0x" ++ toLowerString (bigText16 x)

/-- The value of a hexadecimal digit, in either case. -/
def hexDigitValue (c : Char) : Option Nat :=
  if '0' ≤ c ∧ c ≤ '9' then some (c.toNat - 48)
  else if 'a' ≤ c ∧ c ≤ 'f' then some (c.toNat - 87)
  else if 'A' ≤ c ∧ c ≤ 'F' then some (c.toNat - 55)
  else none

/-- The function `hex.DecodeString` of Go as `common.Hex2Bytes` uses it, dropping the
error: the bytes decoded before the first malformed pair of characters. -/
def hexDecode : List Char → List Nat
  | c1 :: c2 :: rest =>
    match hexDigitValue c1, hexDigitValue c2 with
    | some a, some b => (a * 16 + b) :: hexDecode rest
    | _, _ => []
  | _ => []

/-- The function `common.FromHex` of go-ethereum: a leading `0x` or `0X` is dropped, a
string of odd length gets a leading `0`, and the pairs of digits are decoded. -/
def FromHex (s : String) : List Nat :=
  let s := s.data
  let s := if s.take 2 = ['0', 'x'] ∨ s.take 2 = ['0', 'X'] then s.drop 2 else s
  let s := if s.length % 2 = 1 then '0' :: s else s
  hexDecode s

/-- The function `hex.EncodeToString` of Go: two lowercase hex digits per byte. -/
def hexEncodeToString (b : List Nat) : String :=
  String.mk (b.flatMap fun x => [Nat.digitChar (x / 16 % 16), Nat.digitChar (x % 16)])

/-- The number denoted by a string of hexadecimal digits. -/
def hexValue (l : List Char) : Nat :=
  l.foldl (fun acc c => acc * 16 + (hexDigitValue c).getD 0) 0

/-- The method `(*big.Int).SetString(s, 16)` of Go: an optional sign followed by at
least one hexadecimal digit; `none` when the string is not of this form (the method
then returns nil). -/
def bigSetString16 (s : String) : Option Int :=
  let neg := s.data.head? = some '-'
  let digits := if s.data.head? = some '-' ∨ s.data.head? = some '+' then s.data.drop 1
    else s.data
  if digits ≠ [] ∧ digits.all (fun c => (hexDigitValue c).isSome) then
    some (if neg then -(hexValue digits : Int) else (hexValue digits : Int))
  else none

/-- The function `rpc.DeserializeBig`; `none` is the nil pointer that is returned when
`SetString` fails. -/
def DeserializeBig (hex : String) : Option Int :=
  let s := hexEncodeToString (FromHex hex)
  if s.length = 0 then some 0
  else bigSetString16 s

/-! ## rpc/serde.go: transactions on the wire

The package `pb` is generated code; its messages are modelled by the fields that
`rpc/serde.go` sets. A field of type `*pb.BigInt` is the string of its field `Hex`;
a field of type `[]byte` is read when the caller reads the message, that is after
the function that built it has returned. The types `chain.Signature` and
`[2]chain.Signature` are arrays (`var sig0 chain.Signature; copy(sig0[:], ...)` in
`root/server.go`), so that `tx.Sig0[:]` is a slice of the memory of `tx`, not a
copy. -/

/-- The message `pb.Input`. -/
structure PbInput where
  BlockNum : String
  TxIdx : String
  OutIdx : String
  Owner : List Nat
  DepositNonce : String
  deriving DecidableEq, Repr

/-- The message `pb.Output`. -/
structure PbOutput where
  NewOwner : List Nat
  Amount : String
  DepositNonce : String
  deriving DecidableEq, Repr

/-- The message `pb.Transaction`. -/
structure PbTransaction where
  Input0 : Option PbInput
  Sig0 : List Nat
  Input1 : Option PbInput
  Sig1 : List Nat
  Output0 : Option PbOutput
  Output1 : Option PbOutput
  Fee : String
  BlockNum : Nat
  TxIdx : Nat
  deriving DecidableEq, Repr

/-- The message `pb.ConfirmedTransaction`. -/
structure PbConfirmedTransaction where
  Transaction : PbTransaction
  Signatures : List (List Nat)
  deriving DecidableEq, Repr

/-- Modelled from the spec: `util.Uint642Big`, `util.Uint322Big` and `util.Uint82Big`,
the big integer of an unsigned machine integer. -/
def UintToBig (x : Nat) : Int := (x : Int)

/-- The function `rpc.SerializeInput`. -/
def SerializeInput (i : Option Input) : Option PbInput :=
  match i with
  | none => none
  | some i =>
    some { BlockNum := SerializeBig (UintToBig i.BlkNum),
           TxIdx := SerializeBig (UintToBig i.TxIdx),
           OutIdx := SerializeBig (UintToBig i.OutIdx),
           Owner := i.Owner,
           DepositNonce := SerializeBig i.DepositNonce }

/-- The function `rpc.SerializeOutput`. -/
def SerializeOutput (o : Option Output) : Option PbOutput :=
  match o with
  | none => none
  | some o =>
    some { NewOwner := o.Owner,
           Amount := SerializeBig o.Denom,
           DepositNonce := SerializeBig o.DepositNonce }

/-- The function `rpc.SerializeTx`, read while the transaction `tx` it was given still
holds the same value: `Sig0` and `Sig1` are the slices `tx.Sig0[:]` and `tx.Sig1[:]`
of the memory of `tx`. -/
def SerializeTx (tx : Transaction) : PbTransaction :=
  { Input0 := SerializeInput (some tx.Input0),
    Sig0 := tx.Sig0,
    Input1 := SerializeInput (some tx.Input1),
    Sig1 := tx.Sig1,
    Output0 := SerializeOutput (some tx.Output0),
    Output1 := SerializeOutput (some tx.Output1),
    Fee := SerializeBig tx.Fee,
    BlockNum := tx.BlkNum,
    TxIdx := tx.TxIdx }

/-- The function `rpc.SerializeConfirmedTx`, read while `confirmed` still holds the same
value; the two `Signatures` are copied with `append` into slices of their own. -/
def SerializeConfirmedTx (confirmed : ConfirmedTransaction) : PbConfirmedTransaction :=
  { Transaction := SerializeTx confirmed.Transaction,
    Signatures := [confirmed.Signatures.1, confirmed.Signatures.2] }

/-- The message that `SerializeConfirmedTx(&confirmed)` built, read when the variable
`confirmed` holds the value `now`: the slices `Sig0` and `Sig1` show the signatures
of `now`; every other field was copied or computed when the message was built. -/
def readAliased (msg : PbConfirmedTransaction) (now : ConfirmedTransaction) :
    PbConfirmedTransaction :=
  { msg with Transaction :=
      { msg.Transaction with Sig0 := now.Transaction.Sig0, Sig1 := now.Transaction.Sig1 } }

/-- The function `rpc.SerializeConfirmedTxs`, read after it has returned. The loop
`for i, confirmed := range confirmedTransactions { out[i] = SerializeConfirmedTx(&confirmed) }`
hands the address of its one loop variable to every call; after the loop the
variable holds the last element of the list. -/
def SerializeConfirmedTxs (confirmedTransactions : List ConfirmedTransaction) :
    List PbConfirmedTransaction :=
  match confirmedTransactions.getLast? with
  | none => []
  | some last =>
    confirmedTransactions.map fun confirmed => readAliased (SerializeConfirmedTx confirmed) last

/-! ## node/mempool.go

The coordinator started by `Mempool.Start` serves one message at a time; the
channel plumbing is left out and each message is a transition of the three
fields `txPool`, `depositPool` and `poolSpends`. The storage handle is the
database, passed as an argument. -/

/-- The constant `MaxMempoolSize`. -/
def MaxMempoolSize : Nat := 65534

/-- The struct `MempoolTx`; `Response` identifies the reply channel. -/
structure MempoolTx where
  Tx : ConfirmedTransaction
  Response : Nat
  deriving DecidableEq

/-- The struct `TxInclusionResponse`; `Error` is `none` for a nil error. -/
structure TxInclusionResponse where
  MerkleRoot : Hash
  BlockNumber : Nat
  TransactionIndex : Nat
  Error : Option Err
  deriving DecidableEq

/-- The state of the struct `Mempool`. `poolSpends` is the set of keys of the
`map[string]bool`, in which every stored value is `true`. -/
structure Mempool where
  txPool : List MempoolTx
  depositPool : List MempoolTx
  poolSpends : Finset String
  deriving DecidableEq

/-- The struct `txRequest`. -/
structure txRequest where
  tx : ConfirmedTransaction
  res : Nat
  deriving DecidableEq

/-- The constructor `NewMempool`. -/
def NewMempool : Mempool :=
  { txPool := [], depositPool := [], poolSpends := ∅ }

/-- The calls that `VerifySpendTransaction` makes to its collaborators, tagged with
the input (0 or 1) they are made for. -/
inductive Call where
  /-- A call `m.storage.FindTransactionByBlockNumTxIdx(blkNum, txIdx)`. -/
  | find (input blkNum txIdx : Nat)
  /-- A call `eth.ValidateSignature` on `Sig0` or `Sig1`. -/
  | validateSig (input : Nat)
  /-- A call `eth.ValidateSignature` on `Signatures[0]` or `Signatures[1]`. -/
  | validateConfirmSig (input : Nat)
  /-- The call `m.storage.IsDoubleSpent(confirmed)`. -/
  | isDoubleSpent
  deriving DecidableEq, Repr

/-- The method `Mempool.VerifySpendTransaction` together with the calls it makes, in
order. `(false, err)` is `.error err`, `(b, nil)` is `.ok b`. -/
def VerifySpendTransactionCalls (E : Ext) (s : Store) (confirmed : ConfirmedTransaction) :
    List Call × Except Err Bool :=
  let tx := confirmed.Transaction
  let calls := [Call.find 0 tx.Input0.BlkNum tx.Input0.TxIdx]
  match FindTransactionByBlockNumTxIdx s tx.Input0.BlkNum tx.Input0.TxIdx with
  | .error err => (calls, .error err)
  | .ok none => (calls, .error (.msg "input 0 not found"))
  | .ok (some prevTx0) =>
  match prevTx0.Transaction.OutputAt tx.Input0.OutIdx with
  | .error err => (calls, .error err)
  | .ok prevTx0Output =>
  let sigHash0 := E.inputSignatureHash tx.Input0
  let calls := calls ++ [Call.validateSig 0]
  match E.ValidateSignature sigHash0 tx.Sig0 prevTx0Output.Owner with
  | .error err => (calls, .error err)
  | .ok _ =>
  let calls := calls ++ [Call.validateConfirmSig 0]
  match E.ValidateSignature (E.txSignatureHash tx) confirmed.Signatures.1 prevTx0Output.Owner with
  | .error err => (calls, .error err)
  | .ok _ =>
  let totalInput : Int := 0
  let totalInput := totalInput + prevTx0Output.Denom
  let second : List Call × Except Err Int :=
    if !IsZeroInput (some tx.Input1) then
      let calls := calls ++ [Call.find 1 tx.Input1.BlkNum tx.Input1.TxIdx]
      match FindTransactionByBlockNumTxIdx s tx.Input1.BlkNum tx.Input1.TxIdx with
      | .error err => (calls, .error err)
      | .ok none => (calls, .error (.msg "input 1 not found"))
      | .ok (some prevTx1) =>
      match prevTx1.Transaction.OutputAt tx.Input1.OutIdx with
      | .error err => (calls, .error err)
      | .ok prevTx1Output =>
      let sigHash1 := E.inputSignatureHash tx.Input1
      let calls := calls ++ [Call.validateSig 1]
      match E.ValidateSignature sigHash1 tx.Sig1 prevTx1Output.Owner with
      | .error err => (calls, .error err)
      | .ok _ =>
      let calls := calls ++ [Call.validateConfirmSig 1]
      match E.ValidateSignature (E.txSignatureHash tx) confirmed.Signatures.2
        prevTx1Output.Owner with
      | .error err => (calls, .error err)
      | .ok _ => (calls, .ok (totalInput + prevTx1Output.Denom))
    else (calls, .ok totalInput)
  match second with
  | (calls, .error err) => (calls, .error err)
  | (calls, .ok totalInput) =>
  let totalOutput : Int := 0
  let totalOutput := totalOutput + tx.Output0.Denom
  let totalOutput := totalOutput + tx.Fee
  let totalOutput :=
    if !IsZeroOutput (some tx.Output1) then totalOutput + tx.Output1.Denom else totalOutput
  if totalInput ≠ totalOutput then
    (calls, .error (.msg "inputs and outputs do not have the same sum"))
  else
    let calls := calls ++ [Call.isDoubleSpent]
    match IsDoubleSpent s confirmed with
    | .error err => (calls, .error err)
    | .ok isDoubleSpent => (calls, .ok (!isDoubleSpent))

/-- The method `Mempool.VerifySpendTransaction`. -/
def VerifySpendTransaction (E : Ext) (s : Store) (confirmed : ConfirmedTransaction) :
    Except Err Bool :=
  (VerifySpendTransactionCalls E s confirmed).2

/-- The method `Mempool.VerifyDepositTransaction`. -/
def VerifyDepositTransaction (_tx : ConfirmedTransaction) : Except Err Bool :=
  .ok true

/-- The format `fmt.Sprintf("%d:%d:%d", blkNum, txIdx, outIdx)` of a pool key. -/
def poolKey (i : Input) : String :=
  toString i.BlkNum ++ ":" ++ toString i.TxIdx ++ ":" ++ toString i.OutIdx

/-- The method `Mempool.updatePoolSpends`. -/
def updatePoolSpends (m : Mempool) (confirmed : ConfirmedTransaction) : Mempool :=
  let tx := confirmed.Transaction
  let key0 := poolKey tx.Input0
  let m := { m with poolSpends := insert key0 m.poolSpends }
  if !IsZeroInput (some tx.Input1) then
    let key1 := poolKey tx.Input1
    { m with poolSpends := insert key1 m.poolSpends }
  else m

/-- What the coordinator does with the reply channel of a transaction request. -/
inductive Reply where
  /-- Nothing is sent yet: the channel is kept in the pool with the transaction. -/
  | pending
  /-- The send `req.res <- r`. -/
  | response (r : TxInclusionResponse)
  /-- The coordinator panicked while validating. -/
  | panicked (why : String)
  deriving DecidableEq

/-- The validation step of the loop of `Mempool.Start`: the pair `valid, err` assigned by
`VerifyDepositTransaction` for a deposit transaction and by `VerifySpendTransaction`
otherwise. -/
def validation (E : Ext) (s : Store) (tx : ConfirmedTransaction) : Except Err Bool :=
  if tx.Transaction.IsDeposit then VerifyDepositTransaction tx
  else VerifySpendTransaction E s tx

/-- The case `req := <-m.txReqs` of the loop of `Mempool.Start`, which serves
`Mempool.Append`. -/
def Mempool.Append (E : Ext) (s : Store) (m : Mempool) (req : txRequest) : Mempool × Reply :=
  if m.txPool.length = MaxMempoolSize then
    (m, .response { MerkleRoot := [], BlockNumber := 0, TransactionIndex := 0,
                    Error := some (.msg "mempool is full") })
  else
    let tx := req.tx
    match validation E s tx with
    | .error (.panic why) => (m, .panicked why)
    | .error err =>
      (m, .response { MerkleRoot := [], BlockNumber := 0, TransactionIndex := 0,
                      Error := some err })
    | .ok valid =>
      if !valid then
        (m, .response { MerkleRoot := [], BlockNumber := 0, TransactionIndex := 0,
                        Error := none })
      else
        let m :=
          if tx.Transaction.IsDeposit then
            { m with depositPool := m.depositPool ++ [{ Tx := tx, Response := req.res }] }
          else
            { m with txPool := m.txPool ++ [{ Tx := tx, Response := req.res }] }
        (updatePoolSpends m tx, .pending)

/-- The case `resCh := <-m.flushSpendReq` of the loop of `Mempool.Start`, which serves
`Mempool.FlushSpends`. -/
def Mempool.FlushSpends (m : Mempool) : Mempool × List MempoolTx :=
  let res := m.txPool
  ({ m with txPool := [], poolSpends := ∅ }, res)

/-- The case `resCh := <-m.flushDepositReq` of the loop of `Mempool.Start`, which serves
`Mempool.FlushDeposit`. -/
def Mempool.FlushDeposit (m : Mempool) : Mempool × Option MempoolTx :=
  match m.depositPool with
  | [] => (m, none)
  | res :: rest => ({ m with depositPool := rest }, some res)

/-! ## Runs of the mempool -/

/-- A message served by the coordinator between two flushes of the spend pool: a
transaction request, arriving when the database is `s`, or a deposit flush. -/
inductive PoolMsg where
  | append (s : Store) (req : txRequest)
  | flushDeposit

/-- Serving a list of messages in order. The second component lists, in order of
arrival, the requests carrying a non-deposit transaction that were admitted, that is,
parked without a reply. -/
def servePool (E : Ext) : Mempool → List PoolMsg → Mempool × List MempoolTx
  | m, [] => (m, [])
  | m, .append s req :: rest =>
    let r := Mempool.Append E s m req
    let out := servePool E r.1 rest
    if r.2 = Reply.pending ∧ req.tx.Transaction.IsDeposit = false then
      (out.1, { Tx := req.tx, Response := req.res } :: out.2)
    else out
  | m, .flushDeposit :: rest => servePool E (Mempool.FlushDeposit m).1 rest

/-! ## A concrete ledger

The scenario of a deposit followed by spends, with a toy signature scheme in
which the valid signature of an owner is the owner's address. -/

deriving instance DecidableEq for Except

/-- Collaborators for the concrete ledger. -/
def demoExt : Ext :=
  { exitOwner := List.replicate 20 255
    ValidateSignature := fun _ sig owner =>
      if sig = owner then .ok () else .error (.badSig "invalid signature")
    inputSignatureHash := fun i => [i.BlkNum % 256, i.TxIdx % 256, i.OutIdx % 256]
    txSignatureHash := fun t => [t.Input0.BlkNum % 256, t.Output0.Denom.natAbs % 256]
    confirmedRLPHash := fun c =>
      [c.Transaction.Input0.BlkNum % 256, c.Transaction.Output0.Denom.natAbs % 256]
    headerHash := fun h => [h.Number % 256]
    merkleRoot := fun l => [l.length % 256] }

/-- The address of Alice. -/
def alice : Address := List.replicate 20 1

/-- The address of Bob. -/
def bob : Address := List.replicate 20 2

/-- The address of Carol. -/
def carol : Address := List.replicate 20 3

/-- The deposit of 1000 by Alice with deposit nonce 7. -/
def aliceDeposit : ConfirmedTransaction :=
  { Transaction :=
      { Input0 := ZeroInput, Sig0 := [], Input1 := ZeroInput, Sig1 := [],
        Output0 := { Owner := alice, Denom := 1000, DepositNonce := 7 },
        Output1 := ZeroOutput, Fee := 0, BlkNum := 0, TxIdx := 0 }
    Signatures := ([], []) }

/-- The spend of Alice's deposit: 600 to Bob, 399 back to Alice, fee 1. -/
def aliceToBob : ConfirmedTransaction :=
  { Transaction :=
      { Input0 := NewInput 1 0 0 7 alice, Sig0 := alice, Input1 := ZeroInput, Sig1 := [],
        Output0 := { Owner := bob, Denom := 600, DepositNonce := 0 },
        Output1 := { Owner := alice, Denom := 399, DepositNonce := 0 },
        Fee := 1, BlkNum := 0, TxIdx := 0 }
    Signatures := (alice, []) }

/-- A second spend of the same deposit: 1000 to Carol. -/
def aliceToCarol : ConfirmedTransaction :=
  { Transaction :=
      { Input0 := NewInput 1 0 0 7 alice, Sig0 := alice, Input1 := ZeroInput, Sig1 := [],
        Output0 := { Owner := carol, Denom := 1000, DepositNonce := 0 },
        Output1 := ZeroOutput, Fee := 0, BlkNum := 0, TxIdx := 0 }
    Signatures := (alice, []) }

/-- The database after Alice's deposit was processed into block 1. -/
def storeAfterDeposit : Store := (ProcessDeposit demoExt 0 [] aliceDeposit).2

/-- The database after the spend to Bob was packaged into block 2. -/
def storeAfterSpend : Store := (PackageBlock demoExt 0 storeAfterDeposit [aliceToBob]).2

/-- Alice's deposit as stored at position (1, 0). -/
def depositAt1 : ConfirmedTransaction :=
  { aliceDeposit with Transaction := { aliceDeposit.Transaction with BlkNum := 1, TxIdx := 0 } }

/-- The spend to Bob as stored at position (2, 0). -/
def spendAt2 : ConfirmedTransaction :=
  { aliceToBob with Transaction := { aliceToBob.Transaction with BlkNum := 2, TxIdx := 0 } }

/-- A spend of both outputs of block 2 (600 of Bob, 399 of Alice) whose output and
fee total only 991. -/
def shortMerge : ConfirmedTransaction :=
  { Transaction :=
      { Input0 := NewInput 2 0 0 0 bob, Sig0 := bob,
        Input1 := NewInput 2 0 1 0 alice, Sig1 := alice,
        Output0 := { Owner := carol, Denom := 990, DepositNonce := 0 },
        Output1 := ZeroOutput, Fee := 1, BlkNum := 0, TxIdx := 0 }
    Signatures := (bob, alice) }

/-- A spend whose first input names a position of block 1 that holds no transaction. -/
def missingFirst : ConfirmedTransaction :=
  { Transaction :=
      { Input0 := NewInput 1 5 0 0 alice, Sig0 := alice, Input1 := ZeroInput, Sig1 := [],
        Output0 := { Owner := carol, Denom := 1000, DepositNonce := 0 },
        Output1 := ZeroOutput, Fee := 0, BlkNum := 0, TxIdx := 0 }
    Signatures := (alice, []) }

/-- A spend of Alice's deposit whose second input names a position of block 1 that
holds no transaction. -/
def missingSecond : ConfirmedTransaction :=
  { Transaction :=
      { Input0 := NewInput 1 0 0 7 alice, Sig0 := alice,
        Input1 := NewInput 1 5 0 0 alice, Sig1 := alice,
        Output0 := { Owner := carol, Denom := 1000, DepositNonce := 0 },
        Output1 := ZeroOutput, Fee := 0, BlkNum := 0, TxIdx := 0 }
    Signatures := (alice, alice) }

/-- The block of Alice's deposit. -/
def block1 : Block :=
  { Header := { MerkleRoot := [1], RLPMerkleRoot := [], PrevHash := [], Number := 1 },
    BlockHash := [1] }

/-- A spend of Alice's deposit to Carol that differs from `aliceToCarol` only in the
deposit nonce written in its input: 8 instead of 7. -/
def aliceToCarolNonce8 : ConfirmedTransaction :=
  { Transaction :=
      { Input0 := NewInput 1 0 0 8 alice, Sig0 := alice, Input1 := ZeroInput, Sig1 := [],
        Output0 := { Owner := carol, Denom := 1000, DepositNonce := 0 },
        Output1 := ZeroOutput, Fee := 0, BlkNum := 0, TxIdx := 0 }
    Signatures := (alice, []) }

/-- A transaction whose second input is Alice's deposit and whose first input names a
block that does not exist. -/
def carolSecondInput : ConfirmedTransaction :=
  { Transaction :=
      { Input0 := NewInput 9 0 0 0 carol, Sig0 := carol,
        Input1 := NewInput 1 0 0 7 alice, Sig1 := alice,
        Output0 := { Owner := carol, Denom := 1000, DepositNonce := 0 },
        Output1 := ZeroOutput, Fee := 0, BlkNum := 0, TxIdx := 0 }
    Signatures := (carol, alice) }

/-- A database that already holds an entry at position (2, 1) before block 2 exists:
the store after Alice's deposit with her deposit transaction put under that key. -/
def storeWithStray : Store :=
  dbPut storeAfterDeposit (blkNumTxIdxKey 2 1) (encodeConfirmed aliceDeposit)

/-- A spend of output 0 of position (2, 1) to Bob. -/
def strayToBob : ConfirmedTransaction :=
  { Transaction :=
      { Input0 := NewInput 2 1 0 0 alice, Sig0 := alice, Input1 := ZeroInput, Sig1 := [],
        Output0 := { Owner := bob, Denom := 1000, DepositNonce := 0 },
        Output1 := ZeroOutput, Fee := 0, BlkNum := 0, TxIdx := 0 }
    Signatures := (alice, []) }

/-- A spend of output 0 of position (2, 1) to Carol. -/
def strayToCarol : ConfirmedTransaction :=
  { Transaction :=
      { Input0 := NewInput 2 1 0 0 alice, Sig0 := alice, Input1 := ZeroInput, Sig1 := [],
        Output0 := { Owner := carol, Denom := 1000, DepositNonce := 0 },
        Output1 := ZeroOutput, Fee := 0, BlkNum := 0, TxIdx := 0 }
    Signatures := (alice, []) }

/-- Collaborators for the concrete ledger whose Merkle root shows its leaves: the
denominations of the first outputs, in order. -/
def leafExt : Ext :=
  { demoExt with
    merkleRoot := fun l => l.map fun c => c.Transaction.Output0.Denom.natAbs % 256 }

/-- A deposit of 500 by Bob with deposit nonce 8. -/
def bobDeposit : ConfirmedTransaction :=
  { Transaction :=
      { Input0 := ZeroInput, Sig0 := [], Input1 := ZeroInput, Sig1 := [],
        Output0 := { Owner := bob, Denom := 500, DepositNonce := 8 },
        Output1 := ZeroOutput, Fee := 0, BlkNum := 0, TxIdx := 0 }
    Signatures := ([], []) }

/-- The spend of Bob's deposit of block 2: 500 to Carol. -/
def bobToCarol : ConfirmedTransaction :=
  { Transaction :=
      { Input0 := NewInput 2 0 0 8 bob, Sig0 := bob, Input1 := ZeroInput, Sig1 := [],
        Output0 := { Owner := carol, Denom := 500, DepositNonce := 0 },
        Output1 := ZeroOutput, Fee := 0, BlkNum := 0, TxIdx := 0 }
    Signatures := (bob, []) }

/-- The database after the deposits of Alice (block 1) and of Bob (block 2). -/
def storeTwoDeposits : Store := (ProcessDeposit leafExt 0 storeAfterDeposit bobDeposit).2

/-- A deposit of 1000 by Alice with the two-digit deposit nonce 12. -/
def aliceDeposit12 : ConfirmedTransaction :=
  { Transaction :=
      { Input0 := ZeroInput, Sig0 := [], Input1 := ZeroInput, Sig1 := [],
        Output0 := { Owner := alice, Denom := 1000, DepositNonce := 12 },
        Output1 := ZeroOutput, Fee := 0, BlkNum := 0, TxIdx := 0 }
    Signatures := ([], []) }

/-- The spend of the deposit with nonce 12: 600 to Bob, 399 back to Alice, fee 1. -/
def aliceToBob12 : ConfirmedTransaction :=
  { Transaction :=
      { Input0 := NewInput 1 0 0 12 alice, Sig0 := alice, Input1 := ZeroInput, Sig1 := [],
        Output0 := { Owner := bob, Denom := 600, DepositNonce := 0 },
        Output1 := { Owner := alice, Denom := 399, DepositNonce := 0 },
        Fee := 1, BlkNum := 0, TxIdx := 0 }
    Signatures := (alice, []) }

/-- The database after the deposit with nonce 12 (block 1) and its spend (block 2). -/
def storeAfterSpend12 : Store :=
  (PackageBlock demoExt 0 (ProcessDeposit demoExt 0 [] aliceDeposit12).2 [aliceToBob12]).2

/-- The spend of Alice's deposit into two outputs of Bob: 600 and 399, fee 1. -/
def aliceToBobTwice : ConfirmedTransaction :=
  { Transaction :=
      { Input0 := NewInput 1 0 0 7 alice, Sig0 := alice, Input1 := ZeroInput, Sig1 := [],
        Output0 := { Owner := bob, Denom := 600, DepositNonce := 0 },
        Output1 := { Owner := bob, Denom := 399, DepositNonce := 0 },
        Fee := 1, BlkNum := 0, TxIdx := 0 }
    Signatures := (alice, []) }

/-- The database after Alice's deposit (block 1) and the spend into two outputs of Bob
(block 2). -/
def storeAfterTwice : Store := (PackageBlock demoExt 0 storeAfterDeposit [aliceToBobTwice]).2

/-! ## Families of keys -/

/-- The first six characters of a key: they tell the families of keys apart, but for
the two families `tx::blkNum::...` and the two kinds of `block::...` keys. -/
def keyTag (k : String) : List Char := k.data.take 6

/-- The prefix `tx::blkNum::<n>::txIdx::` over which `FindTransactionsByBlockNum`
iterates. -/
def txIdxPrefix (blkNum : Nat) : String :=
  txPrefixKey ["blkNum", toString blkNum, "txIdx"] ++ "::"

/-- The keys of the records that `saveTransaction` puts beside the key of the
position: the hash keys, the spend keys, the deposit key and the earn keys. -/
inductive TxSideKey : String → Prop where
  | hash (hex : String) : TxSideKey (txPrefixKey ["hash", hex])
  | blkNumHash (n : Nat) (hex : String) : TxSideKey (blkNumHashkey n hex)
  | spend (addr : Address) (i : Input) : TxSideKey (spend addr i)
  | spendExit (addr : Address) (i : Input) : TxSideKey (spendExit addr i)
  | deposit (c : ConfirmedTransaction) : TxSideKey (depositKey c)
  | earn (addr : Address) (c : ConfirmedTransaction) (o : Nat) : TxSideKey (earn addr c o)

/-- The entries of the database are in strictly ascending order of their keys. -/
def StoreOrdered (s : Store) : Prop := s.Pairwise fun p q => p.1.data < q.1.data

/-- The order of a database can be checked entry by entry. -/
instance (s : Store) : Decidable (StoreOrdered s) := by
  unfold StoreOrdered; infer_instance

/-- The header that `doPackageBlock` gives the block that follows `prevBlock`. -/
def newHeader (E : Ext) (prevBlock : Option Block) (txs : List ConfirmedTransaction) :
    BlockHeader :=
  { MerkleRoot := E.merkleRoot (packageHashables txs), RLPMerkleRoot := [],
    PrevHash := match prevBlock with
      | none => []
      | some b => b.BlockHash,
    Number := nextBlkNum prevBlock }

/-- The block that `doPackageBlock` builds after `prevBlock`. -/
def newBlock (E : Ext) (prevBlock : Option Block) (txs : List ConfirmedTransaction) : Block :=
  { Header := newHeader E prevBlock txs, BlockHash := E.headerHash (newHeader E prevBlock txs) }

/-- The entry that `saveTransaction` puts under the key of position `(n, i)`. -/
def positionEntry (n i : Nat) (tx : ConfirmedTransaction) : String × Value :=
  (blkNumTxIdxKey n i, encodeConfirmed (stampAt tx n i))

/-- The puts with which `doPackageBlock` starts its batch: the Merkle root, the block
under its hash key, and the two pointers to that key, `block::latest` and
`blockNum::<n>`. -/
def headerBatch (E : Ext) (prevBlock : Option Block) (txs : List ConfirmedTransaction) : Batch :=
  [(merklePrefixKey (hexEncode (newHeader E prevBlock txs).MerkleRoot),
      Value.root (newHeader E prevBlock txs).MerkleRoot),
    (blockPrefixKey (hexEncode (newBlock E prevBlock txs).BlockHash),
      Value.block (newBlock E prevBlock txs)),
    (blockPrefixKey latestKey,
      Value.key (blockPrefixKey (hexEncode (newBlock E prevBlock txs).BlockHash))),
    (blockNumKey (nextBlkNum prevBlock),
      Value.key (blockPrefixKey (hexEncode (newBlock E prevBlock txs).BlockHash)))]

/-- The puts with which `doPackageBlock` ends its batch: the fees and the metadata of
the block. -/
def tailBatch (now blkNum count : Nat) (fees : Int) : Batch :=
  [(blockFeesKey blkNum, Value.bigBytes fees.natAbs),
    (blockMetaPrefixKey blkNum,
      Value.meta { CreatedAt := now, TransactionCount := count % 2 ^ 32, Fees := fees })]

/-! ## Chains built from the empty database -/

/-- The databases reached from the empty database by `K` successful calls of
`PackageBlock` and `ProcessDeposit`. -/
inductive Built (E : Ext) : Nat → Store → Prop where
  | empty : Built E 0 []
  | package {K : Nat} {s : Store} (now : Nat) (txs : List ConfirmedTransaction)
      (r : BlockResult) (s' : Store) :
      Built E K s → PackageBlock E now s txs = (Except.ok r, s') → Built E (K + 1) s'
  | deposit {K : Nat} {s : Store} (now : Nat) (confirmed : ConfirmedTransaction)
      (r : BlockResult) (s' : Store) :
      Built E K s → ProcessDeposit E now s confirmed = (Except.ok r, s') → Built E (K + 1) s'

/-- The shape of a database that holds the blocks 1 to `K`: it is empty when `K` is 0;
the pointer `block::latest` is the pointer of block `K`; the pointer `blockNum::<n>` of
every block leads to a block with number `n`; the entries are ordered; and no entry is
under the prefix of the positions of a block after `K`. -/
def ChainInv (E : Ext) (K : Nat) (s : Store) : Prop :=
  (K = 0 → s = []) ∧
  (0 < K → dbGet s (blockPrefixKey latestKey) = dbGet s (blockNumKey K)) ∧
  (∀ n, 1 ≤ n → n ≤ K → ∃ hdr bh, hdr.Number = n ∧
    dbGet s (blockNumKey n) =
      some (Value.key (blockPrefixKey (hexEncode (E.headerHash hdr)))) ∧
    dbGet s (blockPrefixKey (hexEncode (E.headerHash hdr))) =
      some (Value.block { Header := hdr, BlockHash := bh })) ∧
  StoreOrdered s ∧
  (∀ p ∈ s, ∀ m, K < m → ¬ (txIdxPrefix m).data <+: p.1.data)

/-- Eleven deposits of Alice: deposit `k` is of `100 + k` with deposit nonce `20 + k`. -/
def elevenDeposits : List ConfirmedTransaction :=
  (List.range 11).map fun k =>
    { Transaction :=
        { Input0 := ZeroInput, Sig0 := [], Input1 := ZeroInput, Sig1 := [],
          Output0 := { Owner := alice, Denom := 100 + k, DepositNonce := 20 + k },
          Output1 := ZeroOutput, Fee := 0, BlkNum := 0, TxIdx := 0 }
      Signatures := ([], []) }

/-- The database after the eleven deposits were packaged into block 1. -/
def storeElevenDeposits : Store := (PackageBlock demoExt 0 [] elevenDeposits).2

/-- A database with a single entry under the prefix of the positions of block 1: Alice's
deposit under the key of position (1, 5). -/
def storeSparse : Store := dbPut [] (blkNumTxIdxKey 1 5) (encodeConfirmed aliceDeposit)

/-- The outpoint strings of the inputs that a transaction consumes: one for each
input that is not the zero input. -/
def consumedOutpoints (tx : ConfirmedTransaction) : Finset String :=
  (if IsZeroInput (some tx.Transaction.Input0) then ∅ else {poolKey tx.Transaction.Input0}) ∪
  (if IsZeroInput (some tx.Transaction.Input1) then ∅ else {poolKey tx.Transaction.Input1})

/-- The set that the spec gives for `poolSpends`: the outpoint strings of the inputs
consumed by the transactions resident in `txPool` and `depositPool`. -/
def residentOutpoints (m : Mempool) : Finset String :=
  (m.txPool ++ m.depositPool).foldr (fun t acc => consumedOutpoints t.Tx ∪ acc) ∅

/-- The mempool after a request with Alice's deposit was served in the empty mempool. -/
def poolAfterDeposit : Mempool :=
  (Mempool.Append demoExt [] NewMempool { tx := aliceDeposit, res := 0 }).1

/-- The result of saving the spend to Bob at position (2, 0) with an empty batch, in the
database after Alice's deposit: the stamped transaction, the database and the batch. -/
def savedSpend : ConfirmedTransaction × Store × Batch :=
  match saveTransaction demoExt storeAfterDeposit 2 0 aliceToBob [] with
  | .ok r => r
  | .error _ => (aliceToBob, [], [])

/-- A spend of Alice's deposit whose two inputs both name outpoint (1, 0, 0), with
2000 to Bob: the deposit of 1000 counted twice. -/
def aliceTwice : ConfirmedTransaction :=
  { Transaction :=
      { Input0 := NewInput 1 0 0 7 alice, Sig0 := alice,
        Input1 := NewInput 1 0 0 7 alice, Sig1 := alice,
        Output0 := { Owner := bob, Denom := 2000, DepositNonce := 0 },
        Output1 := ZeroOutput, Fee := 0, BlkNum := 0, TxIdx := 0 }
    Signatures := (alice, alice) }

/-- A signature of 65 bytes, each of them `b`. -/
def sigOf (b : Nat) : Signature := List.replicate 65 b

/-- The spend `aliceToBob` with signatures of 65 bytes: 1 in `Sig0`, 2 in `Sig1`, 3 and
4 in the confirmation signatures. -/
def wireFirst : ConfirmedTransaction :=
  { Transaction := { aliceToBob.Transaction with Sig0 := sigOf 1, Sig1 := sigOf 2 }
    Signatures := (sigOf 3, sigOf 4) }

/-- The spend `bobToCarol` with signatures of 65 bytes: 5 in `Sig0`, 6 in `Sig1`, 7 and
8 in the confirmation signatures. -/
def wireSecond : ConfirmedTransaction :=
  { Transaction := { bobToCarol.Transaction with Sig0 := sigOf 5, Sig1 := sigOf 6 }
    Signatures := (sigOf 7, sigOf 8) }

set_option maxRecDepth 1000000

/-! ## Mempool: admission and flushing -/

/-- C1: when `txPool` holds exactly `MaxMempoolSize = 65534` entries, serving any
transaction request replies with the error "mempool is full" and leaves the
mempool (`txPool`, `depositPool`, `poolSpends`) as it was. -/
theorem append_full_rejects (E : Ext) (s : Store) (m : Mempool) (req : txRequest)
    (hfull : m.txPool.length = 65534) :
    Mempool.Append E s m req =
      (m, Reply.response { MerkleRoot := [], BlockNumber := 0, TransactionIndex := 0,
                           Error := some (Err.msg "mempool is full") }) := by
  simp [Mempool.Append, MaxMempoolSize, hfull]

/-- Witness of C1: a pool of 65534 parked requests rejects a further one. -/
theorem append_full_rejects_witness :
    (List.replicate 65534 ({ Tx := aliceToBob, Response := 0 } : MempoolTx)).length = 65534 ∧
    Mempool.Append demoExt storeAfterDeposit
        { txPool := List.replicate 65534 { Tx := aliceToBob, Response := 0 },
          depositPool := [], poolSpends := ∅ }
        { tx := aliceToCarol, res := 1 } =
      ({ txPool := List.replicate 65534 { Tx := aliceToBob, Response := 0 },
         depositPool := [], poolSpends := ∅ },
       Reply.response { MerkleRoot := [], BlockNumber := 0, TransactionIndex := 0,
                        Error := some (Err.msg "mempool is full") }) :=
  ⟨List.length_replicate _ _,
   append_full_rejects demoExt storeAfterDeposit _ _ (List.length_replicate _ _)⟩

/-- C4: when validation does not succeed, whether the verifier returns an error or
reports the transaction invalid, serving the request leaves `txPool`,
`depositPool` and `poolSpends` as they were. -/
theorem append_invalid_unchanged (E : Ext) (s : Store) (m : Mempool) (req : txRequest)
    (hbad : validation E s req.tx ≠ Except.ok true) :
    (Mempool.Append E s m req).1 = m := by
  unfold Mempool.Append
  split
  · rfl
  · dsimp only
    cases hv : validation E s req.tx with
    | error e => cases e <;> rfl
    | ok valid =>
      cases valid with
      | false => rfl
      | true => exact absurd hv hbad

/-- C6: `flushDeposit` returns none and changes nothing when `depositPool` is empty;
otherwise it returns the head of `depositPool`, the earliest admitted deposit, and
keeps the remaining deposits in order, with `txPool` (and `poolSpends`) untouched. -/
theorem flushDeposit_fifo (m : Mempool) :
    (m.depositPool = [] → Mempool.FlushDeposit m = (m, none)) ∧
    (∀ d rest, m.depositPool = d :: rest →
      (Mempool.FlushDeposit m).2 = some d ∧
      (Mempool.FlushDeposit m).1.depositPool = rest ∧
      (Mempool.FlushDeposit m).1.txPool = m.txPool ∧
      (Mempool.FlushDeposit m).1.poolSpends = m.poolSpends) := by
  constructor
  · intro h
    simp [Mempool.FlushDeposit, h]
  · intro d rest h
    simp [Mempool.FlushDeposit, h]


/-- Witness of C4: the second spend of an outpoint already spent in the store is
not valid, and the mempool stays as it was. -/
theorem append_invalid_unchanged_witness :
    validation demoExt storeAfterSpend aliceToCarol ≠ Except.ok true ∧
    (Mempool.Append demoExt storeAfterSpend NewMempool { tx := aliceToCarol, res := 1 }).1 =
      NewMempool :=
  ⟨by decide,
   append_invalid_unchanged demoExt storeAfterSpend NewMempool { tx := aliceToCarol, res := 1 }
     (by decide)⟩

/-- The method `updatePoolSpends` touches neither pool. -/
theorem updatePoolSpends_pools (m : Mempool) (c : ConfirmedTransaction) :
    (updatePoolSpends m c).txPool = m.txPool ∧
    (updatePoolSpends m c).depositPool = m.depositPool := by
  unfold updatePoolSpends
  dsimp only
  split <;> exact ⟨rfl, rfl⟩

/-- The effect of a transaction request on `txPool`: the request is appended exactly
when it is parked and carries a non-deposit transaction. -/
theorem append_txPool (E : Ext) (s : Store) (m : Mempool) (req : txRequest) :
    (Mempool.Append E s m req).1.txPool =
      if (Mempool.Append E s m req).2 = Reply.pending ∧ req.tx.Transaction.IsDeposit = false
      then m.txPool ++ [{ Tx := req.tx, Response := req.res }]
      else m.txPool := by
  unfold Mempool.Append
  split
  · simp
  · dsimp only
    cases hv : validation E s req.tx with
    | error e => cases e <;> simp
    | ok valid =>
      cases valid with
      | false => simp
      | true =>
        cases hd : req.tx.Transaction.IsDeposit <;>
          simp [(updatePoolSpends_pools _ _).1]

/-- Serving messages extends `txPool` by the admitted non-deposit requests, in order. -/
theorem servePool_txPool (E : Ext) (msgs : List PoolMsg) :
    ∀ m : Mempool, (servePool E m msgs).1.txPool = m.txPool ++ (servePool E m msgs).2 := by
  induction msgs with
  | nil => intro m; simp [servePool]
  | cons msg rest ih =>
    intro m
    cases msg with
    | append s req =>
      have hp := append_txPool E s m req
      have hr := ih (Mempool.Append E s m req).1
      simp only [servePool]
      by_cases hc : (Mempool.Append E s m req).2 = Reply.pending ∧
          req.tx.Transaction.IsDeposit = false
      · rw [if_pos hc] at hp ⊢
        simp only [hr, hp, List.append_assoc, List.singleton_append]
      · rw [if_neg hc] at hp ⊢
        rw [hr, hp]
    | flushDeposit =>
      have hr := ih (Mempool.FlushDeposit m).1
      simp only [servePool]
      rw [hr]
      have : (Mempool.FlushDeposit m).1.txPool = m.txPool := by
        unfold Mempool.FlushDeposit
        split <;> rfl
      rw [this]

/-- C5: after a flush of the spend pool (or from the new mempool), whatever
requests and deposit flushes are served next, `flushSpends` returns exactly the
non-deposit requests admitted since then, in admission order, and leaves `txPool`
and `poolSpends` empty and `depositPool` as it was. -/
theorem flushSpends_returns_admitted (E : Ext) (m : Mempool) (msgs : List PoolMsg) :
    Mempool.FlushSpends (servePool E (Mempool.FlushSpends m).1 msgs).1 =
      ({ txPool := [],
         depositPool := (servePool E (Mempool.FlushSpends m).1 msgs).1.depositPool,
         poolSpends := ∅ },
       (servePool E (Mempool.FlushSpends m).1 msgs).2) := by
  have h := servePool_txPool E msgs (Mempool.FlushSpends m).1
  simp only [Mempool.FlushSpends, List.nil_append] at h ⊢
  rw [h]

/-- C2 (the code at a failing input): with Alice's spend to Bob parked in the pool and
its outpoint `1:0:0` in `poolSpends`, the request to spend the same outpoint to Carol
is parked as well: `poolSpends` is never consulted. -/
theorem append_admits_pool_double_spend :
    poolKey aliceToCarol.Transaction.Input0 ∈
      (Mempool.Append demoExt storeAfterDeposit NewMempool
        { tx := aliceToBob, res := 0 }).1.poolSpends ∧
    Mempool.Append demoExt storeAfterDeposit
        (Mempool.Append demoExt storeAfterDeposit NewMempool { tx := aliceToBob, res := 0 }).1
        { tx := aliceToCarol, res := 1 } =
      ({ txPool := [{ Tx := aliceToBob, Response := 0 }, { Tx := aliceToCarol, Response := 1 }],
         depositPool := [],
         poolSpends := {"1:0:0"} },
       Reply.pending) := by
  decide

/-- C3 (the code at a failing input): the outpoint of Alice's deposit is spent in the
store, `IsDoubleSpent` reports it, the second spend is not parked, and the reply
sent carries a nil error. -/
theorem append_double_spend_nil_error :
    IsDoubleSpent storeAfterSpend aliceToCarol = Except.ok true ∧
    VerifySpendTransaction demoExt storeAfterSpend aliceToCarol = Except.ok false ∧
    Mempool.Append demoExt storeAfterSpend NewMempool { tx := aliceToCarol, res := 1 } =
      (NewMempool,
       Reply.response { MerkleRoot := [], BlockNumber := 0, TransactionIndex := 0,
                        Error := none }) := by
  decide

/-! ## Validation of spend transactions -/

/-- A transaction reported by `FindTransactionByBlockNumTxIdx` is the one found by
`findTransactionByBlockNumTxIdx`, which adds the hash of its block. -/
theorem find_of_Find {s : Store} {blkNum txIdx : Nat} {p : ConfirmedTransaction}
    (h : FindTransactionByBlockNumTxIdx s blkNum txIdx = Except.ok (some p)) :
    ∃ bh, findTransactionByBlockNumTxIdx s blkNum txIdx = Except.ok (some (p, bh)) := by
  unfold FindTransactionByBlockNumTxIdx at h
  cases hr : findTransactionByBlockNumTxIdx s blkNum txIdx with
  | error e => rw [hr] at h; cases h
  | ok r =>
    rw [hr] at h
    cases r with
    | none => cases h
    | some q =>
      obtain ⟨q1, q2⟩ := q
      refine ⟨q2, ?_⟩
      simp only [Except.map, Option.map, Except.ok.injEq, Option.some.injEq] at h
      rw [h]

/-- The verdict of `IsDoubleSpent` when the previous transactions of the inputs are
found: whether one of the spend or exit-spend keys of the inputs is in the store. -/
theorem IsDoubleSpent_of_found (s : Store) (c : ConfirmedTransaction)
    (prev0 prev1 : ConfirmedTransaction) (bh0 bh1 : Hash) (out0 out1 : Output)
    (hf0 : findTransactionByBlockNumTxIdx s c.Transaction.Input0.BlkNum
      c.Transaction.Input0.TxIdx = Except.ok (some (prev0, bh0)))
    (ho0 : prev0.Transaction.OutputAt c.Transaction.Input0.OutIdx = Except.ok out0)
    (h1 : IsZeroInput (some c.Transaction.Input1) = false →
      findTransactionByBlockNumTxIdx s c.Transaction.Input1.BlkNum
        c.Transaction.Input1.TxIdx = Except.ok (some (prev1, bh1)) ∧
      prev1.Transaction.OutputAt c.Transaction.Input1.OutIdx = Except.ok out1) :
    IsDoubleSpent s c = Except.ok
      (dbHas s (spend out0.Owner c.Transaction.Input0) ||
       dbHas s (spendExit out0.Owner c.Transaction.Input0) ||
       (!IsZeroInput (some c.Transaction.Input1) &&
         (dbHas s (spend out1.Owner c.Transaction.Input1) ||
          dbHas s (spendExit out1.Owner c.Transaction.Input1)))) := by
  cases hz : IsZeroInput (some c.Transaction.Input1) with
  | true =>
    simp [IsDoubleSpent, findPreviousTx, hf0, derefTx, ho0, hz, bind, Except.bind, pure,
      Except.pure]
  | false =>
    obtain ⟨hf1, ho1⟩ := h1 hz
    simp [IsDoubleSpent, findPreviousTx, hf0, derefTx, ho0, hz, hf1, ho1, bind, Except.bind,
      pure, Except.pure, Bool.or_assoc]

/-- A zero output has denomination zero. -/
theorem denom_of_IsZeroOutput {o : Output} (h : IsZeroOutput (some o) = true) : o.Denom = 0 := by
  unfold IsZeroOutput at h
  dsimp only at h
  split at h
  · cases h
  · simp only [Zero, Bool.and_eq_true, beq_iff_eq] at h
    exact h.1

/-- The output total computed by `VerifySpendTransaction`, in which `Output1` is
skipped when it is the zero output, is the plain total. -/
theorem totalOutput_eq (tx : Transaction) :
    (if (!IsZeroOutput (some tx.Output1)) = true then
        (0 : Int) + tx.Output0.Denom + tx.Fee + tx.Output1.Denom
      else (0 : Int) + tx.Output0.Denom + tx.Fee) =
      tx.Output0.Denom + tx.Output1.Denom + tx.Fee := by
  cases hz : IsZeroOutput (some tx.Output1) with
  | true => simp [denom_of_IsZeroOutput hz]
  | false => simp; ring

/-- C7: for a transaction whose referenced previous transactions are found and whose
input signatures and confirmation signatures validate, `VerifySpendTransaction`
fails with "inputs and outputs do not have the same sum" if and only if the total
denomination of the referenced previous outputs (that of `input0`, plus that of
`input1` unless it is the zero input) differs from
`output0.denom + output1.denom + fee`. -/
theorem verify_sum_mismatch_iff (E : Ext) (s : Store) (c : ConfirmedTransaction)
    (prev0 prev1 : ConfirmedTransaction) (out0 out1 : Output)
    (hf0 : FindTransactionByBlockNumTxIdx s c.Transaction.Input0.BlkNum
      c.Transaction.Input0.TxIdx = Except.ok (some prev0))
    (ho0 : prev0.Transaction.OutputAt c.Transaction.Input0.OutIdx = Except.ok out0)
    (hs0 : E.ValidateSignature (E.inputSignatureHash c.Transaction.Input0) c.Transaction.Sig0
      out0.Owner = Except.ok ())
    (hc0 : E.ValidateSignature (E.txSignatureHash c.Transaction) c.Signatures.1
      out0.Owner = Except.ok ())
    (h1 : IsZeroInput (some c.Transaction.Input1) = false →
      FindTransactionByBlockNumTxIdx s c.Transaction.Input1.BlkNum
        c.Transaction.Input1.TxIdx = Except.ok (some prev1) ∧
      prev1.Transaction.OutputAt c.Transaction.Input1.OutIdx = Except.ok out1 ∧
      E.ValidateSignature (E.inputSignatureHash c.Transaction.Input1) c.Transaction.Sig1
        out1.Owner = Except.ok () ∧
      E.ValidateSignature (E.txSignatureHash c.Transaction) c.Signatures.2
        out1.Owner = Except.ok ()) :
    VerifySpendTransaction E s c =
        Except.error (Err.msg "inputs and outputs do not have the same sum") ↔
      out0.Denom + (if IsZeroInput (some c.Transaction.Input1) then 0 else out1.Denom) ≠
        c.Transaction.Output0.Denom + c.Transaction.Output1.Denom + c.Transaction.Fee := by
  obtain ⟨bh0, hq0⟩ := find_of_Find hf0
  have hto := totalOutput_eq c.Transaction
  cases hz : IsZeroInput (some c.Transaction.Input1) with
  | true =>
    have hds := IsDoubleSpent_of_found s c prev0 prev0 bh0 bh0 out0 out0 hq0 ho0
      (fun h => by rw [hz] at h; cases h)
    simp only [VerifySpendTransaction, VerifySpendTransactionCalls, hf0, ho0, hs0, hc0, hz,
      hds, Bool.not_true, Bool.false_eq_true, if_false, if_true]
    rw [hto, zero_add]
    by_cases hsum : out0.Denom =
        c.Transaction.Output0.Denom + c.Transaction.Output1.Denom + c.Transaction.Fee
    · simp [hsum]
    · simp [hsum]
  | false =>
    obtain ⟨hf1, ho1, hs1, hc1⟩ := h1 hz
    obtain ⟨bh1, hq1⟩ := find_of_Find hf1
    have hds := IsDoubleSpent_of_found s c prev0 prev1 bh0 bh1 out0 out1 hq0 ho0
      (fun _ => ⟨hq1, ho1⟩)
    simp only [VerifySpendTransaction, VerifySpendTransactionCalls, hf0, ho0, hs0, hc0, hz,
      hds, hf1, ho1, hs1, hc1, Bool.not_false, if_true]
    rw [hto, zero_add]
    by_cases hsum : out0.Denom + out1.Denom =
        c.Transaction.Output0.Denom + c.Transaction.Output1.Denom + c.Transaction.Fee
    · simp [hsum]
    · simp [hsum]

/-- C8: when storage reports no transaction (and no error) at the position of
`input0`, `VerifySpendTransaction` returns (false, "input 0 not found"); when the
checks of `input0` pass, `input1` is not the zero input and storage reports no
transaction at its position, it returns (false, "input 1 not found"); and when
`input1` is the zero input, none of the calls made is a lookup or a signature
check for input 1. -/
theorem verify_input_not_found (E : Ext) (s : Store) (c : ConfirmedTransaction) :
    (FindTransactionByBlockNumTxIdx s c.Transaction.Input0.BlkNum c.Transaction.Input0.TxIdx =
        Except.ok none →
      VerifySpendTransaction E s c = Except.error (Err.msg "input 0 not found")) ∧
    (∀ (prev0 : ConfirmedTransaction) (out0 : Output),
      FindTransactionByBlockNumTxIdx s c.Transaction.Input0.BlkNum c.Transaction.Input0.TxIdx =
        Except.ok (some prev0) →
      prev0.Transaction.OutputAt c.Transaction.Input0.OutIdx = Except.ok out0 →
      E.ValidateSignature (E.inputSignatureHash c.Transaction.Input0) c.Transaction.Sig0
        out0.Owner = Except.ok () →
      E.ValidateSignature (E.txSignatureHash c.Transaction) c.Signatures.1
        out0.Owner = Except.ok () →
      IsZeroInput (some c.Transaction.Input1) = false →
      FindTransactionByBlockNumTxIdx s c.Transaction.Input1.BlkNum c.Transaction.Input1.TxIdx =
        Except.ok none →
      VerifySpendTransaction E s c = Except.error (Err.msg "input 1 not found")) ∧
    (IsZeroInput (some c.Transaction.Input1) = true →
      ∀ call ∈ (VerifySpendTransactionCalls E s c).1,
        (∀ blkNum txIdx, call ≠ Call.find 1 blkNum txIdx) ∧
        call ≠ Call.validateSig 1 ∧ call ≠ Call.validateConfirmSig 1) := by
  refine ⟨?_, ?_, ?_⟩
  · intro h
    simp only [VerifySpendTransaction, VerifySpendTransactionCalls, h]
  · intro prev0 out0 hf0 ho0 hs0 hc0 hz hf1
    simp only [VerifySpendTransaction, VerifySpendTransactionCalls, hf0, ho0, hs0, hc0, hz, hf1,
      Bool.not_false, if_true]
  · intro hz
    unfold VerifySpendTransactionCalls
    simp only [hz, Bool.not_true, Bool.false_eq_true, if_false]
    repeat' split
    all_goals simp

/-- C9: for a transaction whose referenced previous transactions exist,
`IsDoubleSpent` returns true if and only if, for `input0` or for a non-zero `input1`,
the store holds a spend record or an exit-spend record under the owner of the
referenced previous output and the input; when none of these keys is present it
returns false. -/
theorem isDoubleSpent_iff (s : Store) (c : ConfirmedTransaction)
    (prev0 prev1 : ConfirmedTransaction) (out0 out1 : Output)
    (hf0 : FindTransactionByBlockNumTxIdx s c.Transaction.Input0.BlkNum
      c.Transaction.Input0.TxIdx = Except.ok (some prev0))
    (ho0 : prev0.Transaction.OutputAt c.Transaction.Input0.OutIdx = Except.ok out0)
    (h1 : IsZeroInput (some c.Transaction.Input1) = false →
      FindTransactionByBlockNumTxIdx s c.Transaction.Input1.BlkNum
        c.Transaction.Input1.TxIdx = Except.ok (some prev1) ∧
      prev1.Transaction.OutputAt c.Transaction.Input1.OutIdx = Except.ok out1) :
    (IsDoubleSpent s c = Except.ok true ↔
      (dbHas s (spend out0.Owner c.Transaction.Input0) = true ∨
       dbHas s (spendExit out0.Owner c.Transaction.Input0) = true ∨
       (IsZeroInput (some c.Transaction.Input1) = false ∧
         (dbHas s (spend out1.Owner c.Transaction.Input1) = true ∨
          dbHas s (spendExit out1.Owner c.Transaction.Input1) = true)))) ∧
    (¬ (dbHas s (spend out0.Owner c.Transaction.Input0) = true ∨
        dbHas s (spendExit out0.Owner c.Transaction.Input0) = true ∨
        (IsZeroInput (some c.Transaction.Input1) = false ∧
          (dbHas s (spend out1.Owner c.Transaction.Input1) = true ∨
           dbHas s (spendExit out1.Owner c.Transaction.Input1) = true))) →
      IsDoubleSpent s c = Except.ok false) := by
  obtain ⟨bh0, hq0⟩ := find_of_Find hf0
  have hds : IsDoubleSpent s c = Except.ok
      (dbHas s (spend out0.Owner c.Transaction.Input0) ||
       dbHas s (spendExit out0.Owner c.Transaction.Input0) ||
       (!IsZeroInput (some c.Transaction.Input1) &&
         (dbHas s (spend out1.Owner c.Transaction.Input1) ||
          dbHas s (spendExit out1.Owner c.Transaction.Input1)))) := by
    cases hz : IsZeroInput (some c.Transaction.Input1) with
    | true =>
      have := IsDoubleSpent_of_found s c prev0 prev0 bh0 bh0 out0 out0 hq0 ho0
        (fun h => by rw [hz] at h; cases h)
      rw [this, hz]
      simp
    | false =>
      obtain ⟨hf1, ho1⟩ := h1 hz
      obtain ⟨bh1, hq1⟩ := find_of_Find hf1
      have := IsDoubleSpent_of_found s c prev0 prev1 bh0 bh1 out0 out1 hq0 ho0
        (fun _ => ⟨hq1, ho1⟩)
      rw [this, hz]
  rw [hds]
  constructor
  · simp only [Except.ok.injEq, Bool.or_eq_true, Bool.and_eq_true, Bool.not_eq_true', or_assoc]
  · intro hnone
    simp only [Except.ok.injEq]
    cases hb : (dbHas s (spend out0.Owner c.Transaction.Input0) ||
       dbHas s (spendExit out0.Owner c.Transaction.Input0) ||
       (!IsZeroInput (some c.Transaction.Input1) &&
         (dbHas s (spend out1.Owner c.Transaction.Input1) ||
          dbHas s (spendExit out1.Owner c.Transaction.Input1)))) with
    | false => rfl
    | true =>
      exfalso
      apply hnone
      simpa only [Bool.or_eq_true, Bool.and_eq_true, Bool.not_eq_true', or_assoc] using hb

/-- Witness of C7: in the store after the spend to Bob, a spend of the outputs (2,0,0)
and (2,0,1), worth 600 and 399, into 990 plus a fee of 1 fails the sum check. -/
theorem verify_sum_mismatch_iff_witness :
    VerifySpendTransaction demoExt storeAfterSpend shortMerge =
        Except.error (Err.msg "inputs and outputs do not have the same sum") ↔
      (600 : Int) + (if IsZeroInput (some shortMerge.Transaction.Input1) then 0 else 399) ≠
        990 + 0 + 1 :=
  verify_sum_mismatch_iff demoExt storeAfterSpend shortMerge spendAt2 spendAt2
    { Owner := bob, Denom := 600, DepositNonce := 0 }
    { Owner := alice, Denom := 399, DepositNonce := 0 }
    (by decide) (by decide) (by decide) (by decide)
    (fun _ => ⟨by decide, by decide, by decide, by decide⟩)

/-- Witness of C8: a missing first input, a missing second input, and the calls made
for a transaction whose second input is the zero input. -/
theorem verify_input_not_found_witness :
    VerifySpendTransaction demoExt storeAfterDeposit missingFirst =
      Except.error (Err.msg "input 0 not found") ∧
    VerifySpendTransaction demoExt storeAfterDeposit missingSecond =
      Except.error (Err.msg "input 1 not found") ∧
    (∀ call ∈ (VerifySpendTransactionCalls demoExt storeAfterDeposit aliceToBob).1,
      (∀ blkNum txIdx, call ≠ Call.find 1 blkNum txIdx) ∧
      call ≠ Call.validateSig 1 ∧ call ≠ Call.validateConfirmSig 1) :=
  ⟨(verify_input_not_found demoExt storeAfterDeposit missingFirst).1 (by decide),
   (verify_input_not_found demoExt storeAfterDeposit missingSecond).2.1 depositAt1
     { Owner := alice, Denom := 1000, DepositNonce := 7 }
     (by decide) (by decide) (by decide) (by decide) (by decide) (by decide),
   (verify_input_not_found demoExt storeAfterDeposit aliceToBob).2.2 (by decide)⟩

/-- Witness of C9: in the store after the spend to Bob, a second spend of Alice's
deposit is double spent, by the spend record of its first input. -/
theorem isDoubleSpent_iff_witness :
    dbHas storeAfterSpend (spend alice aliceToCarol.Transaction.Input0) = true ∧
    IsDoubleSpent storeAfterSpend aliceToCarol = Except.ok true :=
  ⟨by decide,
   (isDoubleSpent_iff storeAfterSpend aliceToCarol depositAt1 depositAt1
     { Owner := alice, Denom := 1000, DepositNonce := 7 }
     { Owner := alice, Denom := 1000, DepositNonce := 7 }
     (by decide) (by decide) (fun h => absurd h (by decide))).1.mpr (Or.inl (by decide))⟩

/-! ## The store: reads after writes -/

/-- Reading after a put: the new value under the key put, the old value elsewhere. -/
theorem dbGet_dbPut (s : Store) (k : String) (v : Value) (k' : String) :
    dbGet (dbPut s k v) k' = if k' = k then some v else dbGet s k' := by
  induction s with
  | nil => simp [dbPut, dbGet]
  | cons hd tl ih =>
    obtain ⟨k0, v0⟩ := hd
    simp only [dbPut]
    by_cases h1 : k = k0
    · subst h1
      simp only [if_true, dbGet]
      by_cases h2 : k' = k <;> simp [h2]
    · simp only [h1, if_false]
      by_cases h3 : k.data < k0.data
      · simp only [h3, if_true, dbGet]
      · simp only [h3, if_false, dbGet, ih]
        by_cases h2 : k' = k
        · subst h2
          simp [h1]
        · simp [h2]

/-- A key stays present under further puts, and the key put is present. -/
theorem dbHas_dbPut (s : Store) (k : String) (v : Value) (k' : String) :
    dbHas (dbPut s k v) k' = (decide (k' = k) || dbHas s k') := by
  unfold dbHas
  rw [dbGet_dbPut]
  by_cases h : k' = k <;> simp [h]

/-- A write leaves alone every key that the batch does not put. -/
theorem dbGet_dbWrite_of_avoids (K : String) (batch : Batch) :
    ∀ s : Store, (∀ p ∈ batch, p.1 ≠ K) → dbGet (dbWrite s batch) K = dbGet s K := by
  induction batch with
  | nil => intro s _; rfl
  | cons hd tl ih =>
    intro s h
    have h1 : hd.1 ≠ K := h hd (List.mem_cons_self _ _)
    have h2 : ∀ p ∈ tl, p.1 ≠ K := fun p hp => h p (List.mem_cons_of_mem _ hp)
    show dbGet (dbWrite (dbPut s hd.1 hd.2) tl) K = dbGet s K
    rw [ih _ h2, dbGet_dbPut, if_neg (Ne.symm h1)]

/-- After a write, every key that was present or that the batch puts is present. -/
theorem dbHas_dbWrite (k : String) (batch : Batch) :
    ∀ s : Store, (dbHas s k = true ∨ ∃ p ∈ batch, p.1 = k) → dbHas (dbWrite s batch) k = true := by
  induction batch with
  | nil =>
    intro s h
    rcases h with h | ⟨p, hp, _⟩
    · exact h
    · cases hp
  | cons hd tl ih =>
    intro s h
    show dbHas (dbWrite (dbPut s hd.1 hd.2) tl) k = true
    apply ih
    rcases h with h | ⟨p, hp, hk⟩
    · left
      rw [dbHas_dbPut, h, Bool.or_true]
    · rcases List.mem_cons.mp hp with hp | hp
      · left
        subst hp
        rw [dbHas_dbPut]
        simp [hk]
      · exact Or.inr ⟨p, hp, hk⟩

/-- A transaction found at a position is the decoded entry under the key of the
position, stamped with the position. -/
theorem find_inv {s : Store} {blkNum txIdx : Nat} {p : ConfirmedTransaction} {bh : Hash}
    (h : findTransactionByBlockNumTxIdx s blkNum txIdx = Except.ok (some (p, bh))) :
    ∃ c, dbGet s (blkNumTxIdxKey blkNum txIdx) = some (Value.tx c) ∧
      p = { c with Transaction := { c.Transaction with BlkNum := blkNum, TxIdx := txIdx } } := by
  unfold findTransactionByBlockNumTxIdx at h
  simp only [bind, Except.bind, pure, Except.pure] at h
  split at h
  · cases h
  · split at h
    · cases h
    · split at h
      · cases h
      · rename_i data hdata
        cases data with
        | tx c =>
          refine ⟨c, hdata, ?_⟩
          simp only [decodeConfirmed, Except.ok.injEq, Option.some.injEq, Prod.mk.injEq] at h
          exact h.1.symm
        | _ => simp [decodeConfirmed] at h

/-- A write of two batches in a row is the write of their concatenation. -/
theorem dbWrite_append (s : Store) (b1 b2 : Batch) :
    dbWrite s (b1 ++ b2) = dbWrite (dbWrite s b1) b2 := by
  simp [dbWrite, List.foldl_append]

/-- Reading after a write: the value of the last put under the key, if any. -/
theorem dbGet_dbWrite (K : String) (batch : Batch) :
    ∀ s : Store, dbGet (dbWrite s batch) K =
      batch.foldl (fun acc p => if K = p.1 then some p.2 else acc) (dbGet s K) := by
  induction batch with
  | nil => intro s; rfl
  | cons hd tl ih =>
    intro s
    show dbGet (dbWrite (dbPut s hd.1 hd.2) tl) K = _
    rw [ih, dbGet_dbPut]
    rfl

/-- The value left by the puts of a batch under a key either does not depend on
the value before, or is the value before. -/
theorem lastPut_cases (K : String) (batch : Batch) :
    ∀ x y : Option Value,
      batch.foldl (fun acc p => if K = p.1 then some p.2 else acc) x =
        batch.foldl (fun acc p => if K = p.1 then some p.2 else acc) y ∨
      (batch.foldl (fun acc p => if K = p.1 then some p.2 else acc) x = x ∧
       batch.foldl (fun acc p => if K = p.1 then some p.2 else acc) y = y) := by
  induction batch with
  | nil => intro x y; exact Or.inr ⟨rfl, rfl⟩
  | cons hd tl ih =>
    intro x y
    simp only [List.foldl_cons]
    by_cases h : K = hd.1
    · simp only [h, if_true]
      exact Or.inl trivial
    · simp only [h, if_false]
      exact ih x y

/-- Replaying a batch that was just replayed changes no entry. -/
theorem dbGet_dbWrite_twice (K : String) (batch : Batch) (s : Store) :
    dbGet (dbWrite (dbWrite s batch) batch) K = dbGet (dbWrite s batch) K := by
  rw [dbGet_dbWrite K batch (dbWrite s batch), dbGet_dbWrite K batch s]
  rcases lastPut_cases K batch
    (batch.foldl (fun acc p => if K = p.1 then some p.2 else acc) (dbGet s K)) (dbGet s K) with
    h | ⟨h, _⟩
  · exact h
  · exact h

/-! ## Keys: decimal numbers and the position keys -/

/-- No decimal digit is a colon. -/
theorem digitChar_ne_colon : ∀ m, m < 10 → Nat.digitChar m ≠ ':' := by decide

/-- The character of a decimal digit has the digit as its value. -/
theorem digitChar_value : ∀ m, m < 10 → (Nat.digitChar m).toNat - 48 = m := by decide

/-- No character of a decimal representation is a colon. -/
theorem toDigitsCore_no_colon (fuel : Nat) :
    ∀ (n : Nat) (ds : List Char), (∀ c ∈ ds, c ≠ ':') →
      ∀ c ∈ Nat.toDigitsCore 10 fuel n ds, c ≠ ':' := by
  induction fuel with
  | zero => intro n ds h; simpa [Nat.toDigitsCore] using h
  | succ f ih =>
    intro n ds h
    simp only [Nat.toDigitsCore]
    have hd : ∀ c ∈ Nat.digitChar (n % 10) :: ds, c ≠ ':' := by
      intro c hc
      rcases List.mem_cons.mp hc with hc | hc
      · rw [hc]; exact digitChar_ne_colon _ (Nat.mod_lt _ (by decide))
      · exact h c hc
    split
    · exact hd
    · exact ih _ _ hd

/-- The digits produced by `Nat.toDigitsCore` in base 10 have the number as their value. -/
theorem toDigitsCore_value (fuel : Nat) :
    ∀ (n : Nat) (ds : List Char), n < fuel →
      (Nat.toDigitsCore 10 fuel n ds).foldl (fun acc c => acc * 10 + (c.toNat - 48)) 0 =
        ds.foldl (fun acc c => acc * 10 + (c.toNat - 48)) n := by
  induction fuel with
  | zero => intro n ds h; omega
  | succ f ih =>
    intro n ds h
    simp only [Nat.toDigitsCore]
    split
    · rename_i h0
      have hn : n % 10 = n := by omega
      have hv := digitChar_value n (by omega)
      simp only [List.foldl_cons, Nat.zero_mul, Nat.zero_add, hn, hv]
    · rename_i h0
      rw [ih (n / 10) _ (by omega)]
      simp only [List.foldl_cons, digitChar_value _ (Nat.mod_lt n (by decide))]
      congr 1
      omega

/-- The decimal representation of a natural number determines it. -/
theorem digitsValue_repr (n : Nat) : digitsValue (toString n).data = n := by
  show (Nat.toDigitsCore 10 (n + 1) n []).foldl _ 0 = n
  rw [toDigitsCore_value (n + 1) n [] (Nat.lt_succ_self n)]
  rfl

/-- No character of the decimal representation of a number is a colon. -/
theorem repr_no_colon (n : Nat) : ∀ c ∈ (toString n).data, c ≠ ':' :=
  toDigitsCore_no_colon (n + 1) n [] (fun _ h => by cases h)

/-- Two strings that agree and whose first colon follows a colon-free part agree on
that part. -/
theorem colon_split : ∀ (d1 d2 r1 r2 : List Char), (∀ c ∈ d1, c ≠ ':') → (∀ c ∈ d2, c ≠ ':') →
    d1 ++ ':' :: r1 = d2 ++ ':' :: r2 → d1 = d2 ∧ r1 = r2 := by
  intro d1
  induction d1 with
  | nil =>
    intro d2 r1 r2 _ h2 h
    cases d2 with
    | nil => simpa using h
    | cons c d2 =>
      simp only [List.nil_append, List.cons_append, List.cons.injEq] at h
      exact absurd h.1.symm (h2 c (List.mem_cons_self _ _))
  | cons c d1 ih =>
    intro d2 r1 r2 h1 h2 h
    cases d2 with
    | nil =>
      simp only [List.nil_append, List.cons_append, List.cons.injEq] at h
      exact absurd h.1 (h1 c (List.mem_cons_self _ _))
    | cons c2 d2 =>
      simp only [List.cons_append, List.cons.injEq] at h
      obtain ⟨e1, e2⟩ := ih d2 r1 r2 (fun x hx => h1 x (List.mem_cons_of_mem _ hx))
        (fun x hx => h2 x (List.mem_cons_of_mem _ hx)) h.2
      exact ⟨by rw [h.1, e1], e2⟩

/-- The characters of a key built by `prefixKey`. -/
theorem prefixKey_data (parts : List String) :
    ∀ main : String, (prefixKey main parts).data =
      main.data ++ parts.flatMap (fun p => [':', ':'] ++ p.data) := by
  induction parts with
  | nil => intro main; simp [prefixKey]
  | cons p rest ih =>
    intro main
    have := ih (main ++ keyPartsSeparator ++ p)
    simp only [prefixKey, List.foldl_cons] at this ⊢
    rw [this]
    simp [keyPartsSeparator, String.data_append]

/-- The characters of the key of a position. -/
theorem blkNumTxIdxKey_data (a b : Nat) :
    (blkNumTxIdxKey a b).data =
      't' :: 'x' :: ':' :: ':' :: 'b' :: 'l' :: 'k' :: 'N' :: 'u' :: 'm' :: ':' :: ':' ::
        ((toString a).data ++ ':' :: ':' :: 't' :: 'x' :: 'I' :: 'd' :: 'x' :: ':' :: ':' ::
          (toString b).data) := by
  simp [blkNumTxIdxKey, txPrefixKey, prefixKey_data]

/-- A key that does not start with `t` is not the key of a position. -/
theorem ne_blkNumTxIdxKey_of_head {k : String} {c : Char} {rest : List Char}
    (hk : k.data = c :: rest) (hc : c ≠ 't') (a b : Nat) : k ≠ blkNumTxIdxKey a b := by
  intro e
  have := blkNumTxIdxKey_data a b
  rw [← e, hk] at this
  simp only [List.cons.injEq] at this
  exact hc this.1

/-- A key `tx::` whose next part does not start with `b` is not the key of a position. -/
theorem ne_blkNumTxIdxKey_of_fifth {k : String} {c : Char} {rest : List Char}
    (hk : k.data = 't' :: 'x' :: ':' :: ':' :: c :: rest) (hc : c ≠ 'b') (a b : Nat) :
    k ≠ blkNumTxIdxKey a b := by
  intro e
  have := blkNumTxIdxKey_data a b
  rw [← e, hk] at this
  simp only [List.cons.injEq, true_and] at this
  exact hc this.1

/-- The key of a position determines the position. -/
theorem blkNumTxIdxKey_inj {n i a b : Nat} (h : blkNumTxIdxKey n i = blkNumTxIdxKey a b) :
    n = a ∧ i = b := by
  have hd := blkNumTxIdxKey_data n i
  rw [h, blkNumTxIdxKey_data a b] at hd
  simp only [List.cons.injEq, true_and] at hd
  obtain ⟨h1, h2⟩ := colon_split _ _ _ _ (repr_no_colon a) (repr_no_colon n) hd
  simp only [List.cons.injEq, true_and] at h2
  constructor
  · rw [← digitsValue_repr a, ← digitsValue_repr n, h1]
  · rw [← digitsValue_repr b, ← digitsValue_repr i, h2]

/-- A key `merkle::...` is not the key of a position. -/
theorem merklePrefixKey_ne (hex : String) (a b : Nat) :
    merklePrefixKey hex ≠ blkNumTxIdxKey a b :=
  ne_blkNumTxIdxKey_of_head (c := 'm') (by simp [merklePrefixKey, prefixKey_data]; rfl)
    (by decide) a b

/-- A key `block::...` is not the key of a position. -/
theorem blockPrefixKey_ne (part : String) (a b : Nat) :
    blockPrefixKey part ≠ blkNumTxIdxKey a b :=
  ne_blkNumTxIdxKey_of_head (c := 'b') (by simp [blockPrefixKey, prefixKey_data]; rfl)
    (by decide) a b

/-- A key `blockNum::...` is not the key of a position. -/
theorem blockNumKey_ne (num a b : Nat) : blockNumKey num ≠ blkNumTxIdxKey a b :=
  ne_blkNumTxIdxKey_of_head (c := 'b') (by simp [blockNumKey, prefixKey_data]; rfl)
    (by decide) a b

/-- A key `blockFees::...` is not the key of a position. -/
theorem blockFeesKey_ne (num a b : Nat) : blockFeesKey num ≠ blkNumTxIdxKey a b :=
  ne_blkNumTxIdxKey_of_head (c := 'b') (by simp [blockFeesKey, prefixKey_data]; rfl)
    (by decide) a b

/-- A key `blockMeta::...` is not the key of a position. -/
theorem blockMetaPrefixKey_ne (num a b : Nat) : blockMetaPrefixKey num ≠ blkNumTxIdxKey a b :=
  ne_blkNumTxIdxKey_of_head (c := 'b') (by simp [blockMetaPrefixKey, prefixKey_data]; rfl)
    (by decide) a b

/-- An earn key is not the key of a position. -/
theorem earn_ne (addr : Address) (c : ConfirmedTransaction) (o a b : Nat) :
    earn addr c o ≠ blkNumTxIdxKey a b :=
  ne_blkNumTxIdxKey_of_head (c := 'e') (by simp [earn, earnKeyPrefix, prefixKey_data]; rfl)
    (by decide) a b

/-- A spend key is not the key of a position. -/
theorem spend_ne (addr : Address) (i : Input) (a b : Nat) :
    spend addr i ≠ blkNumTxIdxKey a b :=
  ne_blkNumTxIdxKey_of_head (c := 's')
    (by simp [spend, rawSpend, spendKeyPrefix, prefixKey_data, String.data_append]; rfl)
    (by decide) a b

/-- An exit-spend key is not the key of a position. -/
theorem spendExit_ne (addr : Address) (i : Input) (a b : Nat) :
    spendExit addr i ≠ blkNumTxIdxKey a b :=
  ne_blkNumTxIdxKey_of_head (c := 's')
    (by simp [spendExit, spendExitKeyPrefix, prefixKey_data]; rfl)
    (by decide) a b

/-- A key `tx::hash::...` is not the key of a position. -/
theorem hashKey_ne (hex : String) (a b : Nat) :
    txPrefixKey ["hash", hex] ≠ blkNumTxIdxKey a b :=
  ne_blkNumTxIdxKey_of_fifth (c := 'h') (by simp [txPrefixKey, prefixKey_data]; rfl)
    (by decide) a b

/-- A key `tx::deposit::...` is not the key of a position. -/
theorem depositKey_ne (c : ConfirmedTransaction) (a b : Nat) :
    depositKey c ≠ blkNumTxIdxKey a b :=
  ne_blkNumTxIdxKey_of_fifth (c := 'd') (by simp [depositKey, txPrefixKey, prefixKey_data]; rfl)
    (by decide) a b

/-- A key `tx::blkNum::<n>::hash::<hex>` is not the key of a position. -/
theorem blkNumHashkey_ne (n : Nat) (hex : String) (a b : Nat) :
    blkNumHashkey n hex ≠ blkNumTxIdxKey a b := by
  intro e
  have hd : (blkNumHashkey n hex).data =
      't' :: 'x' :: ':' :: ':' :: 'b' :: 'l' :: 'k' :: 'N' :: 'u' :: 'm' :: ':' :: ':' ::
        ((toString n).data ++ ':' :: ':' :: 'h' :: 'a' :: 's' :: 'h' :: ':' :: ':' ::
          hex.data) := by
    simp [blkNumHashkey, txPrefixKey, prefixKey_data]
  rw [e, blkNumTxIdxKey_data a b] at hd
  simp only [List.cons.injEq, true_and] at hd
  have h2 := (colon_split _ _ _ _ (repr_no_colon a) (repr_no_colon n) hd).2
  simp only [List.cons.injEq, true_and] at h2
  exact absurd h2.1 (by decide)

/-! ## Packaging: what `saveTransaction` records -/

/-- A successful `recordSpend0` either finds `Input0` zero and leaves the batch, or finds
the previous transaction and appends one record under the owner of the consumed
output: the exit-spend key when `Output0` is an exit, the spend key otherwise. -/
theorem recordSpend0_ok {E : Ext} {s : Store} {n i : Nat} {c : ConfirmedTransaction}
    {batch batch1 : Batch} (h : recordSpend0 E s n i c batch = Except.ok batch1) :
    (IsZeroInput (some c.Transaction.Input0) = true ∧ batch1 = batch) ∨
    (IsZeroInput (some c.Transaction.Input0) = false ∧ ∃ prev bh out,
      findTransactionByBlockNumTxIdx s c.Transaction.Input0.BlkNum c.Transaction.Input0.TxIdx =
        Except.ok (some (prev, bh)) ∧
      prev.Transaction.OutputAt c.Transaction.Input0.OutIdx = Except.ok out ∧
      batch1 = batch ++
        [(if IsExit E (some c.Transaction.Output0) then spendExit out.Owner c.Transaction.Input0
          else spend out.Owner c.Transaction.Input0,
          Value.ident { BlockNumber := n, TransactionIndex := i, InputIndex := 1 })]) := by
  unfold recordSpend0 at h
  cases hz : IsZeroInput (some c.Transaction.Input0) with
  | true =>
    left
    simp only [hz, Bool.not_true, Bool.false_eq_true, if_false, pure, Except.pure,
      Except.ok.injEq] at h
    exact ⟨rfl, h.symm⟩
  | false =>
    right
    refine ⟨rfl, ?_⟩
    simp only [hz, Bool.not_false, if_true, bind, Except.bind, findPreviousTx] at h
    simp only [ne_eq, not_true_eq_false, false_and, if_false, if_true] at h
    cases hf : findTransactionByBlockNumTxIdx s c.Transaction.Input0.BlkNum
        c.Transaction.Input0.TxIdx with
    | error e => rw [hf] at h; cases h
    | ok r =>
      rw [hf] at h
      cases r with
      | none => simp [derefTx] at h
      | some q =>
        obtain ⟨prev, bh⟩ := q
        simp only [derefTx] at h
        cases ho : prev.Transaction.OutputAt c.Transaction.Input0.OutIdx with
        | error e => rw [ho] at h; cases h
        | ok out =>
          rw [ho] at h
          refine ⟨prev, bh, out, rfl, ho, ?_⟩
          simp only [batchPut] at h
          split at h
          · rename_i hx
            simp only [pure, Except.pure, Except.ok.injEq] at h
            rw [if_pos hx]; exact h.symm
          · rename_i hx
            simp only [pure, Except.pure, Except.ok.injEq] at h
            rw [if_neg hx]; exact h.symm

/-- A successful `recordSpend1` either finds `Input1` zero and leaves the batch, or finds
the previous transaction and appends one record under the spend key of `Input1`
and the owner of the consumed output. -/
theorem recordSpend1_ok {s : Store} {n i : Nat} {c : ConfirmedTransaction}
    {batch batch1 : Batch} (h : recordSpend1 s n i c batch = Except.ok batch1) :
    (IsZeroInput (some c.Transaction.Input1) = true ∧ batch1 = batch) ∨
    (IsZeroInput (some c.Transaction.Input1) = false ∧ ∃ prev bh out,
      findTransactionByBlockNumTxIdx s c.Transaction.Input1.BlkNum c.Transaction.Input1.TxIdx =
        Except.ok (some (prev, bh)) ∧
      prev.Transaction.OutputAt c.Transaction.Input1.OutIdx = Except.ok out ∧
      batch1 = batch ++
        [(spend out.Owner c.Transaction.Input1,
          Value.ident { BlockNumber := n, TransactionIndex := i, InputIndex := 1 })]) := by
  unfold recordSpend1 at h
  cases hz : IsZeroInput (some c.Transaction.Input1) with
  | true =>
    left
    simp only [hz, Bool.not_true, Bool.false_eq_true, if_false, pure, Except.pure,
      Except.ok.injEq] at h
    exact ⟨rfl, h.symm⟩
  | false =>
    right
    refine ⟨rfl, ?_⟩
    simp only [hz, Bool.not_false, if_true, bind, Except.bind, findPreviousTx,
      Transaction.InputAt] at h
    simp only [ne_eq, not_true_eq_false, and_false, if_false, one_ne_zero, if_true] at h
    cases hf : findTransactionByBlockNumTxIdx s c.Transaction.Input1.BlkNum
        c.Transaction.Input1.TxIdx with
    | error e => rw [hf] at h; cases h
    | ok r =>
      rw [hf] at h
      cases r with
      | none => simp [derefTx] at h
      | some q =>
        obtain ⟨prev, bh⟩ := q
        simp only [derefTx] at h
        cases ho : prev.Transaction.OutputAt c.Transaction.Input1.OutIdx with
        | error e => rw [ho] at h; cases h
        | ok out =>
          rw [ho] at h
          refine ⟨prev, bh, out, rfl, ho, ?_⟩
          simp only [batchPut, pure, Except.pure, Except.ok.injEq] at h
          exact h.symm

/-- The records appended by `recordEarns` are under deposit and earn keys, none of which
is the key of a position. -/
theorem recordEarns_ok {c : ConfirmedTransaction} {txEnc : Value} {batch batch1 : Batch}
    (h : recordEarns c txEnc batch = Except.ok batch1) :
    ∃ extra, batch1 = batch ++ extra ∧ ∀ p ∈ extra, ∀ a b, p.1 ≠ blkNumTxIdxKey a b := by
  unfold recordEarns at h
  simp only [bind, Except.bind, pure, Except.pure, Transaction.OutputAt, batchPut, if_true,
    one_ne_zero, if_false] at h
  have key : ∀ (b0 : Batch) (ex0 : Batch), b0 = batch ++ ex0 →
      (∀ p ∈ ex0, ∀ a b, p.1 ≠ blkNumTxIdxKey a b) →
      (if (!IsZeroOutput (some c.Transaction.Output1)) = true then
          Except.ok (b0 ++ [(earn c.Transaction.Output1.Owner c 1, Value.empty)])
        else (Except.ok b0 : Except Err Batch)) = Except.ok batch1 →
      ∃ extra, batch1 = batch ++ extra ∧ ∀ p ∈ extra, ∀ a b, p.1 ≠ blkNumTxIdxKey a b := by
    intro b0 ex0 hb0 hex0 h2
    split at h2
    · simp only [Except.ok.injEq] at h2
      refine ⟨ex0 ++ [(earn c.Transaction.Output1.Owner c 1, Value.empty)], ?_, ?_⟩
      · rw [← h2, hb0, List.append_assoc]
      · intro p hp a b
        rcases List.mem_append.mp hp with hp | hp
        · exact hex0 p hp a b
        · rw [List.mem_singleton.mp hp]; exact earn_ne _ _ _ a b
    · simp only [Except.ok.injEq] at h2
      exact ⟨ex0, by rw [← h2, hb0], hex0⟩
  by_cases hz0 : (!IsZeroOutput (some c.Transaction.Output0)) = true
  · simp only [hz0, if_true] at h
    by_cases hd : Output.IsDeposit (some c.Transaction.Output0) = true
    · simp only [hd, if_true] at h
      refine key _ [(depositKey c, txEnc), (earn c.Transaction.Output0.Owner c 0, Value.empty)]
        (by simp) ?_ h
      intro p hp a b
      simp only [List.mem_cons, List.mem_singleton, List.not_mem_nil, or_false] at hp
      rcases hp with hp | hp
      · rw [hp]; exact depositKey_ne _ a b
      · rw [hp]; exact earn_ne _ _ _ a b
    · simp only [hd, if_false] at h
      refine key _ [(earn c.Transaction.Output0.Owner c 0, Value.empty)] (by simp) ?_ h
      intro p hp a b
      rw [List.mem_singleton.mp hp]; exact earn_ne _ _ _ a b
  · simp only [hz0, if_false] at h
    exact key _ [] (by simp) (fun p hp => by cases hp) h

/-- What a successful `saveTransaction` does: the database is the old one with the
new batch replayed; the batch is extended by records none of which is under the key of
another position; and for each non-zero input the previous transaction was found in
the old database and the spend record under the owner of the consumed output is in
the batch. -/
theorem saveTransaction_ok {E : Ext} {s : Store} {n i : Nat} {tx : ConfirmedTransaction}
    {batch : Batch} {c : ConfirmedTransaction} {s1 : Store} {batch1 : Batch}
    (h : saveTransaction E s n i tx batch = Except.ok (c, s1, batch1)) :
    s1 = dbWrite s batch1 ∧
    (∀ p ∈ batch, p ∈ batch1) ∧
    (∃ extra, batch1 = batch ++ extra ∧
      ∀ a b, blkNumTxIdxKey a b ≠ blkNumTxIdxKey n i →
        ∀ p ∈ extra, p.1 ≠ blkNumTxIdxKey a b) ∧
    (IsZeroInput (some tx.Transaction.Input0) = false → ∃ prev bh out,
      findTransactionByBlockNumTxIdx s tx.Transaction.Input0.BlkNum
        tx.Transaction.Input0.TxIdx = Except.ok (some (prev, bh)) ∧
      prev.Transaction.OutputAt tx.Transaction.Input0.OutIdx = Except.ok out ∧
      ∃ p ∈ batch1, p.1 =
        if IsExit E (some tx.Transaction.Output0) then spendExit out.Owner tx.Transaction.Input0
        else spend out.Owner tx.Transaction.Input0) ∧
    (IsZeroInput (some tx.Transaction.Input1) = false → ∃ prev bh out,
      findTransactionByBlockNumTxIdx s tx.Transaction.Input1.BlkNum
        tx.Transaction.Input1.TxIdx = Except.ok (some (prev, bh)) ∧
      prev.Transaction.OutputAt tx.Transaction.Input1.OutIdx = Except.ok out ∧
      ∃ p ∈ batch1, p.1 = spend out.Owner tx.Transaction.Input1) := by
  unfold saveTransaction at h
  simp only [bind, Except.bind, pure, Except.pure, batchPut] at h
  split at h
  · cases h
  · rename_i bA hA
    split at h
    · cases h
    · rename_i bB hB
      split at h
      · cases h
      · rename_i bC hC
        simp only [Except.ok.injEq, Prod.mk.injEq] at h
        obtain ⟨_, hs1, hb1⟩ := h
        subst hb1
        obtain ⟨exC, hexC, hCavoid⟩ := recordEarns_ok hC
        have hA' := recordSpend0_ok hA
        have hB' := recordSpend1_ok hB
        -- the batch only grows
        have hsubA : ∀ p ∈ batch, p ∈ bA := by
          intro p hp
          rcases hA' with ⟨_, e⟩ | ⟨_, _, _, _, _, _, e⟩ <;> rw [e] <;> simp [hp]
        have hsubB : ∀ p ∈ bA, p ∈ bB := by
          intro p hp
          rcases hB' with ⟨_, e⟩ | ⟨_, _, _, _, _, _, e⟩ <;> rw [e] <;> simp [hp]
        have hsubC : ∀ p ∈ bB, p ∈ bC := by
          intro p hp
          rw [hexC]; simp [hp]
        refine ⟨hs1.symm, fun p hp => hsubC p (hsubB p (hsubA p hp)), ?_, ?_, ?_⟩
        · -- the records added
          have hA3 : ∃ exA, bA = batch ++ exA ∧
              ∀ a b, blkNumTxIdxKey a b ≠ blkNumTxIdxKey n i →
                ∀ p ∈ exA, p.1 ≠ blkNumTxIdxKey a b := by
            rcases hA' with ⟨_, e⟩ | ⟨_, _, _, out, _, _, e⟩
            · refine ⟨_, by rw [e, List.append_assoc, List.append_assoc], ?_⟩
              intro a b hne q hq
              simp only [List.mem_append, List.mem_singleton] at hq
              rcases hq with hq | hq | hq
              · rw [hq]; exact hashKey_ne _ a b
              · rw [hq]; exact blkNumHashkey_ne n _ a b
              · rw [hq]; exact Ne.symm hne
            · refine ⟨_, by rw [e, List.append_assoc, List.append_assoc, List.append_assoc], ?_⟩
              intro a b hne q hq
              simp only [List.mem_append, List.mem_singleton] at hq
              rcases hq with hq | hq | hq | hq
              · rw [hq]; exact hashKey_ne _ a b
              · rw [hq]; exact blkNumHashkey_ne n _ a b
              · rw [hq]; exact Ne.symm hne
              · rw [hq]
                dsimp only
                split
                · exact spendExit_ne _ _ a b
                · exact spend_ne _ _ a b
          obtain ⟨exA, hexA, hAav⟩ := hA3
          have hB3 : ∃ exB, bB = bA ++ exB ∧ ∀ a b, ∀ p ∈ exB, p.1 ≠ blkNumTxIdxKey a b := by
            rcases hB' with ⟨_, e⟩ | ⟨_, _, _, out, _, _, e⟩
            · exact ⟨[], by rw [e, List.append_nil], fun a b p hp => by cases hp⟩
            · refine ⟨_, e, ?_⟩
              intro a b q hq
              rw [List.mem_singleton.mp hq]
              exact spend_ne _ _ a b
          obtain ⟨exB, hexB, hBav⟩ := hB3
          refine ⟨exA ++ exB ++ exC, by rw [hexC, hexB, hexA]; simp only [List.append_assoc],
            ?_⟩
          intro a b hne p hp
          simp only [List.mem_append] at hp
          rcases hp with (hp | hp) | hp
          · exact hAav a b hne p hp
          · exact hBav a b p hp
          · exact hCavoid p hp a b
        · intro hz
          rcases hA' with ⟨hz', _⟩ | ⟨_, prev, bh, out, hf, ho, e⟩
          · rw [hz] at hz'; cases hz'
          · refine ⟨prev, bh, out, hf, ho,
              (if IsExit E (some tx.Transaction.Output0) then
                  spendExit out.Owner tx.Transaction.Input0
                else spend out.Owner tx.Transaction.Input0,
                Value.ident { BlockNumber := n, TransactionIndex := i, InputIndex := 1 }),
              hsubC _ (hsubB _ ?_), rfl⟩
            rw [e]; simp
        · intro hz
          rcases hB' with ⟨hz', _⟩ | ⟨_, prev, bh, out, hf, ho, e⟩
          · rw [hz] at hz'; cases hz'
          · refine ⟨prev, bh, out, hf, ho,
              (spend out.Owner tx.Transaction.Input1,
                Value.ident { BlockNumber := n, TransactionIndex := i, InputIndex := 1 }),
              hsubC _ ?_, rfl⟩
            rw [e]; simp

/-- The output selected in a stored transaction does not depend on its stamp. -/
theorem find_inv_output {s : Store} {a b : Nat} {p : ConfirmedTransaction} {bh : Hash}
    (h : findTransactionByBlockNumTxIdx s a b = Except.ok (some (p, bh))) :
    ∃ c, dbGet s (blkNumTxIdxKey a b) = some (Value.tx c) ∧
      ∀ idx, p.Transaction.OutputAt idx = c.Transaction.OutputAt idx := by
  obtain ⟨c, hc, hp⟩ := find_inv h
  exact ⟨c, hc, fun idx => by rw [hp]; rfl⟩

/-- The loop of `doPackageBlock` over a concatenation: the loop over the first part,
then the loop over the second part from where the first ended. -/
theorem packageLoop_append (E : Ext) (n : Nat) (l1 l2 : List ConfirmedTransaction) :
    ∀ (i : Nat) (s : Store) (batch : Batch) (fees : Int),
      packageLoop E n (l1 ++ l2) i s batch fees =
        match packageLoop E n l1 i s batch fees with
        | (Except.error e, s1) => (Except.error e, s1)
        | (Except.ok (b1, f1), s1) => packageLoop E n l2 (i + l1.length) s1 b1 f1 := by
  induction l1 with
  | nil => intro i s batch fees; simp [packageLoop]
  | cons tx rest ih =>
    intro i s batch fees
    simp only [List.cons_append, packageLoop, List.length_cons]
    cases hsave : saveTransaction E s n (i % 2 ^ 32) tx batch with
    | error e => rfl
    | ok r =>
      obtain ⟨c1, s1, batch1⟩ := r
      have e : i + 1 + rest.length = i + (rest.length + 1) := by omega
      have := ih (i + 1) s1 batch1 (fees + tx.Transaction.Fee)
      rw [e] at this
      exact this

/-- After the loop, replaying the batch into the database changes no entry, provided
this was so before the loop. -/
theorem packageLoop_stable (E : Ext) (n : Nat) (K : String) :
    ∀ (txs : List ConfirmedTransaction) (i : Nat) (s : Store) (batch : Batch) (fees : Int)
      (bF : Batch) (fF : Int) (sF : Store),
      packageLoop E n txs i s batch fees = (Except.ok (bF, fF), sF) →
      dbGet (dbWrite s batch) K = dbGet s K →
      dbGet (dbWrite sF bF) K = dbGet sF K := by
  intro txs
  induction txs with
  | nil =>
    intro i s batch fees bF fF sF h hst
    simp only [packageLoop, Prod.mk.injEq, Except.ok.injEq] at h
    obtain ⟨⟨hb, _⟩, hs⟩ := h
    subst hb; subst hs
    exact hst
  | cons tx rest ih =>
    intro i s batch fees bF fF sF h _
    simp only [packageLoop] at h
    split at h
    · simp only [Prod.mk.injEq] at h
      exact absurd h.1 (by intro e; cases e)
    · rename_i c1 s1 batch1 hsave
      obtain ⟨hs1, _, _, _, _⟩ := saveTransaction_ok hsave
      apply ih _ _ _ _ _ _ _ h
      rw [hs1]
      exact dbGet_dbWrite_twice K batch1 s

/-- The loop of `doPackageBlock`, seen from a position `(a, b)` that is not given to a
transaction of the list: the entry of the position stays as it is, and when the first
transaction of the list consumes an output of the position, the previous transaction
was found at the position and the spend record is left in the batch. -/
theorem packageLoop_ok (E : Ext) (n a b : Nat) :
    ∀ (txs : List ConfirmedTransaction) (i : Nat) (s : Store) (batch : Batch) (fees : Int)
      (bF : Batch) (fF : Int) (sF : Store),
      packageLoop E n txs i s batch fees = (Except.ok (bF, fF), sF) →
      dbGet (dbWrite s batch) (blkNumTxIdxKey a b) = dbGet s (blkNumTxIdxKey a b) →
      (∀ k, k < txs.length → blkNumTxIdxKey a b ≠ blkNumTxIdxKey n ((i + k) % 2 ^ 32)) →
      dbGet sF (blkNumTxIdxKey a b) = dbGet s (blkNumTxIdxKey a b) ∧
      (∀ p ∈ batch, p ∈ bF) ∧
      ∀ A rest, txs = A :: rest →
        (IsZeroInput (some A.Transaction.Input0) = false →
          A.Transaction.Input0.BlkNum = a → A.Transaction.Input0.TxIdx = b →
          ∃ c out, dbGet s (blkNumTxIdxKey a b) = some (Value.tx c) ∧
            c.Transaction.OutputAt A.Transaction.Input0.OutIdx = Except.ok out ∧
            ∃ p ∈ bF, p.1 =
              if IsExit E (some A.Transaction.Output0) then
                spendExit out.Owner A.Transaction.Input0
              else spend out.Owner A.Transaction.Input0) ∧
        (IsZeroInput (some A.Transaction.Input1) = false →
          A.Transaction.Input1.BlkNum = a → A.Transaction.Input1.TxIdx = b →
          ∃ c out, dbGet s (blkNumTxIdxKey a b) = some (Value.tx c) ∧
            c.Transaction.OutputAt A.Transaction.Input1.OutIdx = Except.ok out ∧
            ∃ p ∈ bF, p.1 = spend out.Owner A.Transaction.Input1) := by
  intro txs
  induction txs with
  | nil =>
    intro i s batch fees bF fF sF h _ _
    simp only [packageLoop, Prod.mk.injEq, Except.ok.injEq] at h
    obtain ⟨⟨hb, _⟩, hs⟩ := h
    subst hb; subst hs
    exact ⟨rfl, fun p hp => hp, fun A rest hA => by cases hA⟩
  | cons tx rest ih =>
    intro i s batch fees bF fF sF h hst hfree
    simp only [packageLoop] at h
    split at h
    · simp only [Prod.mk.injEq] at h
      exact absurd h.1 (by intro e; cases e)
    · rename_i c1 s1 batch1 hsave
      obtain ⟨hs1, hsub1, ⟨extra, hextra, hav⟩, hin0, hin1⟩ := saveTransaction_ok hsave
      have hfree0 : blkNumTxIdxKey a b ≠ blkNumTxIdxKey n (i % 2 ^ 32) := by
        have := hfree 0 (by simp)
        simpa using this
      have hget1 : dbGet s1 (blkNumTxIdxKey a b) = dbGet s (blkNumTxIdxKey a b) := by
        rw [hs1, hextra, dbWrite_append,
          dbGet_dbWrite_of_avoids _ _ _ (hav a b hfree0), hst]
      have hst1 : dbGet (dbWrite s1 batch1) (blkNumTxIdxKey a b) =
          dbGet s1 (blkNumTxIdxKey a b) := by
        rw [hs1]; exact dbGet_dbWrite_twice _ batch1 s
      have hfree1 : ∀ k, k < rest.length →
          blkNumTxIdxKey a b ≠ blkNumTxIdxKey n ((i + 1 + k) % 2 ^ 32) := by
        intro k hk
        have := hfree (k + 1) (by simp; omega)
        have e : i + (k + 1) = i + 1 + k := by omega
        rwa [e] at this
      obtain ⟨hgetF, hsubF, _⟩ := ih _ _ _ _ _ _ _ h hst1 hfree1
      refine ⟨by rw [hgetF, hget1], fun p hp => hsubF p (hsub1 p hp), ?_⟩
      intro A rest' hA
      simp only [List.cons.injEq] at hA
      obtain ⟨hA, _⟩ := hA
      subst hA
      constructor
      · intro hz ha hb
        obtain ⟨prev, bh, out, hf, ho, p, hp, hk⟩ := hin0 hz
        rw [ha, hb] at hf
        obtain ⟨c, hc, hout⟩ := find_inv_output hf
        exact ⟨c, out, hc, by rw [← hout]; exact ho, p, hsubF p hp, hk⟩
      · intro hz ha hb
        obtain ⟨prev, bh, out, hf, ho, p, hp, hk⟩ := hin1 hz
        rw [ha, hb] at hf
        obtain ⟨c, hc, hout⟩ := find_inv_output hf
        exact ⟨c, out, hc, by rw [← hout]; exact ho, p, hsubF p hp, hk⟩

/-- A successful `doPackageBlock` is a successful loop over the transactions, started
with the batch of the block entries and followed by the write of the batch extended
with the fee and metadata entries; none of these entries is under the key of a
position. -/
theorem doPackageBlock_inv {E : Ext} {now : Nat} {s : Store} {txs : List ConfirmedTransaction}
    {r : BlockResult} {sF : Store} (h : doPackageBlock E now s txs = (Except.ok r, sF))
    {prevBlock : Option Block} (hl : LatestBlock s = Except.ok prevBlock) :
    ∃ (hdr bL : Batch) (fL : Int) (sL : Store) (tail : Batch),
      (∀ p ∈ hdr, ∀ a b, p.1 ≠ blkNumTxIdxKey a b) ∧
      packageLoop E (nextBlkNum prevBlock) txs 0 s hdr 0 = (Except.ok (bL, fL), sL) ∧
      (∀ p ∈ tail, ∀ a b, p.1 ≠ blkNumTxIdxKey a b) ∧
      sF = dbWrite sL (bL ++ tail) := by
  unfold doPackageBlock at h
  rw [hl] at h
  simp only [batchPut, List.nil_append] at h
  split at h
  · simp only [Prod.mk.injEq] at h
    exact absurd h.1 (by intro e; cases e)
  · rename_i bL fL sL hloop
    simp only [Prod.mk.injEq] at h
    obtain ⟨_, hsF⟩ := h
    refine ⟨_, bL, fL, sL,
      [(blockFeesKey (nextBlkNum prevBlock), Value.bigBytes fL.natAbs),
        (blockMetaPrefixKey (nextBlkNum prevBlock),
          Value.meta { CreatedAt := now, TransactionCount := txs.length % 2 ^ 32, Fees := fL })],
      ?_, hloop, ?_, ?_⟩
    · intro p hp a b
      simp only [List.mem_append, List.mem_singleton] at hp
      rcases hp with ((hp | hp) | hp) | hp
      · rw [hp]; exact merklePrefixKey_ne _ a b
      · rw [hp]; exact blockPrefixKey_ne _ a b
      · rw [hp]; exact blockPrefixKey_ne _ a b
      · rw [hp]; exact blockNumKey_ne _ a b
    · intro p hp a b
      simp only [List.mem_cons, List.mem_singleton, List.not_mem_nil, or_false] at hp
      rcases hp with hp | hp
      · rw [hp]; exact blockFeesKey_ne _ a b
      · rw [hp]; exact blockMetaPrefixKey_ne _ a b
    · rw [← hsF]
      simp only [List.append_assoc, List.singleton_append]

/-- After a successful `doPackageBlock`, a transaction `A` of the list that consumes an
output of a position `(a, b)` not given to `A` or to a later transaction of the list
has its spend record in the database, under the owner of that output as stored at
the position after the call. -/
theorem doPackageBlock_ok {E : Ext} {now : Nat} {s : Store}
    {pre post : List ConfirmedTransaction} {A : ConfirmedTransaction}
    {r : BlockResult} {sF : Store}
    (h : doPackageBlock E now s (pre ++ A :: post) = (Except.ok r, sF))
    {prevBlock : Option Block} (hl : LatestBlock s = Except.ok prevBlock) (a b : Nat)
    (hfree : ∀ k, k ≤ post.length →
      blkNumTxIdxKey a b ≠ blkNumTxIdxKey (nextBlkNum prevBlock) ((pre.length + k) % 2 ^ 32)) :
    (IsZeroInput (some A.Transaction.Input0) = false →
      A.Transaction.Input0.BlkNum = a → A.Transaction.Input0.TxIdx = b →
      ∃ c out, dbGet sF (blkNumTxIdxKey a b) = some (Value.tx c) ∧
        c.Transaction.OutputAt A.Transaction.Input0.OutIdx = Except.ok out ∧
        dbHas sF (if IsExit E (some A.Transaction.Output0) then
            spendExit out.Owner A.Transaction.Input0
          else spend out.Owner A.Transaction.Input0) = true) ∧
    (IsZeroInput (some A.Transaction.Input1) = false →
      A.Transaction.Input1.BlkNum = a → A.Transaction.Input1.TxIdx = b →
      ∃ c out, dbGet sF (blkNumTxIdxKey a b) = some (Value.tx c) ∧
        c.Transaction.OutputAt A.Transaction.Input1.OutIdx = Except.ok out ∧
        dbHas sF (spend out.Owner A.Transaction.Input1) = true) := by
  obtain ⟨hdr, bL, fL, sL, tail, hhdr, hloop, htail, hsF⟩ := doPackageBlock_inv h hl
  rw [packageLoop_append] at hloop
  split at hloop
  · simp only [Prod.mk.injEq] at hloop
    exact absurd hloop.1 (by intro e; cases e)
  · rename_i b1 f1 s1 hpre
    simp only [Nat.zero_add] at hloop
    -- before `A` is saved, replaying the batch changes nothing at the position
    have hst1 : dbGet (dbWrite s1 b1) (blkNumTxIdxKey a b) = dbGet s1 (blkNumTxIdxKey a b) :=
      packageLoop_stable E _ _ pre 0 s hdr 0 b1 f1 s1 hpre
        (dbGet_dbWrite_of_avoids _ _ _ (fun p hp => hhdr p hp a b))
    have hstL := packageLoop_stable E _ (blkNumTxIdxKey a b) _ _ _ _ _ _ _ _ hloop hst1
    obtain ⟨hgetL, _, hfacts⟩ := packageLoop_ok E _ a b _ _ _ _ _ _ _ _ hloop hst1
      (fun k hk => hfree k (by simp at hk; omega))
    obtain ⟨hfact0, hfact1⟩ := hfacts A post rfl
    have hgetF : dbGet sF (blkNumTxIdxKey a b) = dbGet s1 (blkNumTxIdxKey a b) := by
      rw [hsF, dbWrite_append, dbGet_dbWrite_of_avoids _ _ _ (fun p hp => htail p hp a b),
        hstL, hgetL]
    have hhas : ∀ k, (∃ p ∈ bL, p.1 = k) → dbHas sF k = true := by
      intro k ⟨p, hp, hk⟩
      rw [hsF]
      apply dbHas_dbWrite
      right
      exact ⟨p, by simp [hp], hk⟩
    constructor
    · intro hz ha hb
      obtain ⟨c, out, hc, ho, hp⟩ := hfact0 hz ha hb
      exact ⟨c, out, by rw [hgetF]; exact hc, ho, hhas _ hp⟩
    · intro hz ha hb
      obtain ⟨c, out, hc, ho, hp⟩ := hfact1 hz ha hb
      exact ⟨c, out, by rw [hgetF]; exact hc, ho, hhas _ hp⟩

/-- The spend key of an input depends on its coordinates and its deposit nonce only. -/
theorem spend_congr (addr : Address) {i j : Input} (h1 : j.BlkNum = i.BlkNum)
    (h2 : j.TxIdx = i.TxIdx) (h3 : j.OutIdx = i.OutIdx) (h4 : j.DepositNonce = i.DepositNonce) :
    spend addr j = spend addr i := by
  simp only [spend, h1, h2, h3, h4]

/-- The exit-spend key of an input depends on its coordinates only. -/
theorem spendExit_congr (addr : Address) {i j : Input} (h1 : j.BlkNum = i.BlkNum)
    (h2 : j.TxIdx = i.TxIdx) (h3 : j.OutIdx = i.OutIdx) :
    spendExit addr j = spendExit addr i := by
  simp only [spendExit, h1, h2, h3]

/-- C10 (amended): let `A` be a transaction of a successful `packageBlock(txs)`, at
index `pre.length` of `txs = pre ++ A :: post`, that consumes through a non-zero input
`inA` an outpoint whose position `(blkNum, txIdx)` is not one that the packaging gives
to `A` or to a later transaction of `txs`. Let `B` be a transaction whose referenced
previous transactions are found after the packaging and one of whose checked inputs
(`input0`, or a non-zero `input1`) has the coordinates of `inA`, and also its deposit
nonce unless the record of `inA` is the exit record of `A`'s `input0`. Then
`IsDoubleSpent(B)`, evaluated after the packaging, returns true. -/
theorem packaged_spend_is_double_spent (E : Ext) (now : Nat) (s : Store)
    (pre post : List ConfirmedTransaction) (A : ConfirmedTransaction)
    (r : BlockResult) (sF : Store)
    (hpkg : PackageBlock E now s (pre ++ A :: post) = (Except.ok r, sF))
    (prevBlock : Option Block) (hlatest : LatestBlock s = Except.ok prevBlock)
    (inA : Input)
    (hcons : inA = A.Transaction.Input0 ∨ inA = A.Transaction.Input1)
    (hnz : IsZeroInput (some inA) = false)
    (hpos : ∀ k, k ≤ post.length →
      ¬ (inA.BlkNum = nextBlkNum prevBlock ∧ inA.TxIdx = (pre.length + k) % 2 ^ 32))
    (B : ConfirmedTransaction) (inB : Input)
    (hB : inB = B.Transaction.Input0 ∨
      (inB = B.Transaction.Input1 ∧ IsZeroInput (some B.Transaction.Input1) = false))
    (hcoords : inB.BlkNum = inA.BlkNum ∧ inB.TxIdx = inA.TxIdx ∧ inB.OutIdx = inA.OutIdx)
    (hnonce : inB.DepositNonce = inA.DepositNonce ∨
      (inA = A.Transaction.Input0 ∧ IsExit E (some A.Transaction.Output0) = true))
    (prev0 prev1 : ConfirmedTransaction) (out0 out1 : Output)
    (hf0 : FindTransactionByBlockNumTxIdx sF B.Transaction.Input0.BlkNum
      B.Transaction.Input0.TxIdx = Except.ok (some prev0))
    (ho0 : prev0.Transaction.OutputAt B.Transaction.Input0.OutIdx = Except.ok out0)
    (h1 : IsZeroInput (some B.Transaction.Input1) = false →
      FindTransactionByBlockNumTxIdx sF B.Transaction.Input1.BlkNum
        B.Transaction.Input1.TxIdx = Except.ok (some prev1) ∧
      prev1.Transaction.OutputAt B.Transaction.Input1.OutIdx = Except.ok out1) :
    IsDoubleSpent sF B = Except.ok true := by
  obtain ⟨hc1, hc2, hc3⟩ := hcoords
  have hfree : ∀ k, k ≤ post.length →
      blkNumTxIdxKey inA.BlkNum inA.TxIdx ≠
        blkNumTxIdxKey (nextBlkNum prevBlock) ((pre.length + k) % 2 ^ 32) :=
    fun k hk e => hpos k hk (blkNumTxIdxKey_inj e)
  obtain ⟨hfact0, hfact1⟩ := doPackageBlock_ok hpkg hlatest inA.BlkNum inA.TxIdx hfree
  -- the record of `inA`, read as a record of `inB`
  have hrec : ∃ c out, dbGet sF (blkNumTxIdxKey inA.BlkNum inA.TxIdx) = some (Value.tx c) ∧
      c.Transaction.OutputAt inA.OutIdx = Except.ok out ∧
      (dbHas sF (spend out.Owner inB) = true ∨ dbHas sF (spendExit out.Owner inB) = true) := by
    rcases hnonce with hn | ⟨hin0, hexit⟩
    · rcases hcons with hin0 | hin1
      · obtain ⟨c, out, hc, ho, hk⟩ := hfact0 (hin0 ▸ hnz) (hin0 ▸ rfl) (hin0 ▸ rfl)
        refine ⟨c, out, hc, hin0 ▸ ho, ?_⟩
        rw [← hin0] at hk
        by_cases hx : IsExit E (some A.Transaction.Output0) = true
        · rw [if_pos hx] at hk
          right; rw [spendExit_congr _ hc1 hc2 hc3]; exact hk
        · rw [if_neg hx] at hk
          left; rw [spend_congr _ hc1 hc2 hc3 hn]; exact hk
      · obtain ⟨c, out, hc, ho, hk⟩ := hfact1 (hin1 ▸ hnz) (hin1 ▸ rfl) (hin1 ▸ rfl)
        refine ⟨c, out, hc, hin1 ▸ ho, ?_⟩
        rw [← hin1] at hk
        left; rw [spend_congr _ hc1 hc2 hc3 hn]; exact hk
    · obtain ⟨c, out, hc, ho, hk⟩ := hfact0 (hin0 ▸ hnz) (hin0 ▸ rfl) (hin0 ▸ rfl)
      refine ⟨c, out, hc, hin0 ▸ ho, ?_⟩
      rw [← hin0, if_pos hexit] at hk
      right; rw [spendExit_congr _ hc1 hc2 hc3]; exact hk
  obtain ⟨c, out, hc, hout, hkey⟩ := hrec
  -- the verdict of `IsDoubleSpent`
  obtain ⟨bh0, hq0⟩ := find_of_Find hf0
  have hds : IsDoubleSpent sF B = Except.ok
      (dbHas sF (spend out0.Owner B.Transaction.Input0) ||
       dbHas sF (spendExit out0.Owner B.Transaction.Input0) ||
       (!IsZeroInput (some B.Transaction.Input1) &&
         (dbHas sF (spend out1.Owner B.Transaction.Input1) ||
          dbHas sF (spendExit out1.Owner B.Transaction.Input1)))) := by
    cases hz : IsZeroInput (some B.Transaction.Input1) with
    | true =>
      have := IsDoubleSpent_of_found sF B prev0 prev0 bh0 bh0 out0 out0 hq0 ho0
        (fun h => by rw [hz] at h; cases h)
      rw [this, hz]
      simp
    | false =>
      obtain ⟨hf1, ho1⟩ := h1 hz
      obtain ⟨bh1, hq1⟩ := find_of_Find hf1
      have := IsDoubleSpent_of_found sF B prev0 prev1 bh0 bh1 out0 out1 hq0 ho0
        (fun _ => ⟨hq1, ho1⟩)
      rw [this, hz]
  rw [hds]
  -- the previous output of `inB` found after the packaging is the one recorded
  rcases hB with hB0 | ⟨hB1, hz1⟩
  · obtain ⟨c', hc', hout'⟩ := find_inv_output hq0
    rw [← hB0, hc1, hc2, hc] at hc'
    simp only [Option.some.injEq, Value.tx.injEq] at hc'
    have ho : out0 = out := by
      have h2 := hout' B.Transaction.Input0.OutIdx
      rw [ho0, ← hB0, hc3, ← hc', hout] at h2
      simpa using h2
    rw [← hB0, ho]
    rcases hkey with hk | hk <;> simp [hk]
  · obtain ⟨hf1, ho1⟩ := h1 hz1
    obtain ⟨bh1, hq1⟩ := find_of_Find hf1
    obtain ⟨c', hc', hout'⟩ := find_inv_output hq1
    rw [← hB1, hc1, hc2, hc] at hc'
    simp only [Option.some.injEq, Value.tx.injEq] at hc'
    have ho : out1 = out := by
      have h2 := hout' B.Transaction.Input1.OutIdx
      rw [ho1, ← hB1, hc3, ← hc', hout] at h2
      simpa using h2
    rw [hz1, ← hB1, ho]
    rcases hkey with hk | hk <;> simp [hk]

/-- Witness of C10 (amended): the spend to Bob is packaged into block 2 and consumes
outpoint (1,0,0) with nonce 7; the second spend of that outpoint, to Carol, is then
double spent. -/
theorem packaged_spend_is_double_spent_witness :
    PackageBlock demoExt 0 storeAfterDeposit ([] ++ aliceToBob :: []) =
      (Except.ok { MerkleRoot := [1], NumberTransactions := 1, BlockFees := 1, BlockNumber := 2 },
       storeAfterSpend) ∧
    IsDoubleSpent storeAfterSpend aliceToCarol = Except.ok true :=
  ⟨by decide,
   packaged_spend_is_double_spent demoExt 0 storeAfterDeposit [] [] aliceToBob
     { MerkleRoot := [1], NumberTransactions := 1, BlockFees := 1, BlockNumber := 2 }
     storeAfterSpend (by decide) (some block1) (by decide)
     aliceToBob.Transaction.Input0 (Or.inl rfl) (by decide)
     (fun _ _ h => absurd h.1 (by decide))
     aliceToCarol aliceToCarol.Transaction.Input0 (Or.inl rfl) (by decide) (Or.inl (by decide))
     depositAt1 depositAt1
     { Owner := alice, Denom := 1000, DepositNonce := 7 }
     { Owner := alice, Denom := 1000, DepositNonce := 7 }
     (by decide) (by decide) (fun h => absurd h (by decide))⟩

/-- C10 (counterexample): `aliceToBob` is packaged into block 2 and consumes outpoint
(1,0,0). A transaction with the same input coordinates but deposit nonce 8 is not
reported (the spend key contains the nonce), and for a transaction that consumes
(1,0,0) through its second input while its first input cannot be looked up
`IsDoubleSpent` returns an error. In a database with a stray entry at position (2,1),
`strayToBob` is packaged at index 1 of block 2 and consumes outpoint (2,1,0), whose
entry it then overwrites; `strayToCarol`, with the same input, is not reported. -/
theorem packaged_spend_not_reported :
    (PackageBlock demoExt 0 storeAfterDeposit [aliceToBob] =
        (Except.ok { MerkleRoot := [1], NumberTransactions := 1, BlockFees := 1,
                     BlockNumber := 2 },
         storeAfterSpend) ∧
      IsZeroInput (some aliceToBob.Transaction.Input0) = false ∧
      aliceToCarolNonce8.Transaction.Input0.BlkNum = aliceToBob.Transaction.Input0.BlkNum ∧
      aliceToCarolNonce8.Transaction.Input0.TxIdx = aliceToBob.Transaction.Input0.TxIdx ∧
      aliceToCarolNonce8.Transaction.Input0.OutIdx = aliceToBob.Transaction.Input0.OutIdx ∧
      IsDoubleSpent storeAfterSpend aliceToCarolNonce8 = Except.ok false ∧
      carolSecondInput.Transaction.Input1 = aliceToBob.Transaction.Input0 ∧
      IsDoubleSpent storeAfterSpend carolSecondInput = Except.error Err.notFound) ∧
    ((PackageBlock demoExt 0 storeWithStray [aliceToBob, strayToBob]).1 =
        Except.ok { MerkleRoot := [2], NumberTransactions := 2, BlockFees := 1,
                    BlockNumber := 2 } ∧
      IsZeroInput (some strayToBob.Transaction.Input0) = false ∧
      strayToCarol.Transaction.Input0 = strayToBob.Transaction.Input0 ∧
      IsDoubleSpent (PackageBlock demoExt 0 storeWithStray [aliceToBob, strayToBob]).2
        strayToCarol = Except.ok false) := by
  decide

/-! ## Packaging and queries at concrete inputs -/

/-- C11 (the code at a failing input): in the store after Alice's deposit, packaging the
spend to Bob followed by a transaction whose first input names a missing block
returns the lookup error, and the store is not as before: block 2 is the latest
block and the spend to Bob is stored at position (2, 0) with its spend record. -/
theorem failed_package_leaves_writes :
    (PackageBlock demoExt 0 storeAfterDeposit [aliceToBob, carolSecondInput]).1 =
      Except.error Err.notFound ∧
    (PackageBlock demoExt 0 storeAfterDeposit [aliceToBob, carolSecondInput]).2 ≠
      storeAfterDeposit ∧
    (LatestBlock storeAfterDeposit).map (Option.map fun b => b.Header.Number) =
      Except.ok (some 1) ∧
    (LatestBlock (PackageBlock demoExt 0 storeAfterDeposit
        [aliceToBob, carolSecondInput]).2).map (Option.map fun b => b.Header.Number) =
      Except.ok (some 2) ∧
    FindTransactionByBlockNumTxIdx
        (PackageBlock demoExt 0 storeAfterDeposit [aliceToBob, carolSecondInput]).2 2 0 =
      Except.ok (some (stampAt aliceToBob 2 0)) ∧
    dbHas (PackageBlock demoExt 0 storeAfterDeposit [aliceToBob, carolSecondInput]).2
      (spend alice aliceToBob.Transaction.Input0) = true := by
  decide

/-- C14 (the code at a failing input): packaging the spends of Alice's and of Bob's
deposits, whose first outputs are 600 and 500, gives the block the Merkle root of
the leaves 500, 500, the last transaction twice, and not that of the leaves
600, 500. -/
theorem package_merkle_root_of_last :
    (PackageBlock leafExt 0 storeTwoDeposits [aliceToBob, bobToCarol]).1 =
      Except.ok { MerkleRoot := leafExt.merkleRoot [bobToCarol, bobToCarol],
                  NumberTransactions := 2, BlockFees := 1, BlockNumber := 3 } ∧
    (LatestBlock (PackageBlock leafExt 0 storeTwoDeposits [aliceToBob, bobToCarol]).2).map
        (Option.map fun b => b.Header.MerkleRoot) =
      Except.ok (some (leafExt.merkleRoot [bobToCarol, bobToCarol])) ∧
    leafExt.merkleRoot [bobToCarol, bobToCarol] = [244, 244] ∧
    leafExt.merkleRoot [aliceToBob, bobToCarol] = [88, 244] := by
  decide

/-- C19 (the code at a failing input): after the spend to Bob was packaged at (2, 0) and
consumed outpoint (1,0,0) of Alice's deposit with deposit nonce 7, its spend record
is in the store and `FindDoubleSpendingTransaction(1, 0, 0)` still returns none: it
looks under the spend key with nonce 0. -/
theorem findDoubleSpending_misses_deposit_spend :
    FindTransactionByBlockNumTxIdx storeAfterSpend 2 0 = Except.ok (some (stampAt aliceToBob 2 0)) ∧
    dbHas storeAfterSpend (spend alice aliceToBob.Transaction.Input0) = true ∧
    dbHas storeAfterSpend (rawSpend alice 1 0 0 0) = false ∧
    FindDoubleSpendingTransaction storeAfterDeposit 1 0 0 = Except.ok none ∧
    FindDoubleSpendingTransaction storeAfterSpend 1 0 0 = Except.ok none := by
  decide

/-- C20 (the code at a failing input): the spend record written for `input0` of the
spend to Bob, packaged at (2, 0), holds input index 1. -/
theorem spend_record_input_index :
    IsZeroInput (some aliceToBob.Transaction.Input0) = false ∧
    dbGet storeAfterSpend (spend alice aliceToBob.Transaction.Input0) =
      some (Value.ident { BlockNumber := 2, TransactionIndex := 0, InputIndex := 1 }) := by
  decide

/-- C17 (the code at a failing input): Alice's deposit with nonce 12 at (1, 0) was spent
by the transaction at (2, 0), whose second output pays her 399. Her earned
outpoints are (1,0,0) and (2,0,1), outpoint (1,0,0) has a spend record, and
`SpendableTxs` still returns the deposit transaction next to the spend: the
spend key cut by three bytes is not the earn key. -/
theorem spendableTxs_keeps_spent :
    UTXOs storeAfterSpend12 alice =
      Except.ok [stampAt aliceDeposit12 1 0, stampAt aliceToBob12 2 0] ∧
    dbHas storeAfterSpend12 (spend alice aliceToBob12.Transaction.Input0) = true ∧
    SpendableTxs storeAfterSpend12 alice =
      Except.ok [stampAt aliceDeposit12 1 0, stampAt aliceToBob12 2 0] ∧
    earnLookupKeys storeAfterSpend12 alice =
      ["0x0101010101010101010101010101010101010101::1::0::0",
       "0x0101010101010101010101010101010101010101::2::0::1"] ∧
    spendLookupKeys storeAfterSpend12 alice =
      ["0x0101010101010101010101010101010101010101::1::0::0::1"] := by
  decide

/-- C18 (the code at a failing input): after Alice's deposit of 1000 with nonce 12 was
spent, leaving her an output of 399, her balance is reported as 1399; and after a
spend of Alice's deposit into two outputs of Bob, 600 and 399, the balance of Bob
is reported as 1998. -/
theorem balance_counts_spent_and_twice :
    Balance storeAfterSpend12 alice = Except.ok 1399 ∧
    SpendableTxs storeAfterTwice bob =
      Except.ok [stampAt aliceToBobTwice 2 0, stampAt aliceToBobTwice 2 0] ∧
    Balance storeAfterTwice bob = Except.ok 1998 := by
  decide

/-! ## Lookups of a position -/

/-- C15 (amended): when no value is stored under the key of position `(n, i)`,
`FindTransactionByBlockNumTxIdx(n, i)` returns (none, no error) if block `n` can be
read, and the error of `BlockAtHeight(n)` otherwise. -/
theorem find_missing_position (s : Store) (n i : Nat)
    (hmiss : dbGet s (blkNumTxIdxKey n i) = none) :
    FindTransactionByBlockNumTxIdx s n i = (BlockAtHeight s n).map fun _ => none := by
  unfold FindTransactionByBlockNumTxIdx findTransactionByBlockNumTxIdx
  cases hb : BlockAtHeight s n with
  | error e => rfl
  | ok b =>
    simp [bind, Except.bind, dbHas, hmiss, Except.map, pure, Except.pure]

/-- Witness of C15 (amended): block 1 holds no transaction at index 5. -/
theorem find_missing_position_witness :
    dbGet storeAfterDeposit (blkNumTxIdxKey 1 5) = none ∧
    FindTransactionByBlockNumTxIdx storeAfterDeposit 1 5 = Except.ok none :=
  ⟨by decide, (find_missing_position storeAfterDeposit 1 5 (by decide)).trans (by decide)⟩

/-- C15 (counterexample): no value is stored under the key of position (5, 0), in the
empty store and in the store after Alice's deposit, and block 5 does not exist:
`FindTransactionByBlockNumTxIdx(5, 0)` returns the not-found error. -/
theorem find_missing_block_is_error :
    dbGet [] (blkNumTxIdxKey 5 0) = none ∧
    FindTransactionByBlockNumTxIdx [] 5 0 = Except.error Err.notFound ∧
    dbGet storeAfterDeposit (blkNumTxIdxKey 5 0) = none ∧
    FindTransactionByBlockNumTxIdx storeAfterDeposit 5 0 = Except.error Err.notFound := by
  decide

/-! ## Families of keys: how they differ -/

/-- The tag of a key `merkle::...`. -/
theorem keyTag_merkle (hex : String) : keyTag (merklePrefixKey hex) = "merkle".data := by
  simp [keyTag, merklePrefixKey, prefixKey_data]

/-- The tag of a key `block::...`. -/
theorem keyTag_block (part : String) : keyTag (blockPrefixKey part) = "block:".data := by
  simp [keyTag, blockPrefixKey, prefixKey_data]

/-- The tag of a key `blockNum::...`. -/
theorem keyTag_blockNum (n : Nat) : keyTag (blockNumKey n) = "blockN".data := by
  simp [keyTag, blockNumKey, prefixKey_data]

/-- The tag of a key `blockFees::...`. -/
theorem keyTag_blockFees (n : Nat) : keyTag (blockFeesKey n) = "blockF".data := by
  simp [keyTag, blockFeesKey, prefixKey_data]

/-- The tag of a key `blockMeta::...`. -/
theorem keyTag_blockMeta (n : Nat) : keyTag (blockMetaPrefixKey n) = "blockM".data := by
  simp [keyTag, blockMetaPrefixKey, prefixKey_data]

/-- The tag of a key `tx::hash::...`. -/
theorem keyTag_hash (hex : String) : keyTag (txPrefixKey ["hash", hex]) = "tx::ha".data := by
  simp [keyTag, txPrefixKey, prefixKey_data]

/-- The tag of a key `tx::blkNum::<n>::hash::...`. -/
theorem keyTag_blkNumHash (n : Nat) (hex : String) :
    keyTag (blkNumHashkey n hex) = "tx::bl".data := by
  simp [keyTag, blkNumHashkey, txPrefixKey, prefixKey_data]

/-- The tag of the key of a position. -/
theorem keyTag_blkNumTxIdx (a b : Nat) : keyTag (blkNumTxIdxKey a b) = "tx::bl".data := by
  simp [keyTag, blkNumTxIdxKey, txPrefixKey, prefixKey_data]

/-- The tag of a key `tx::deposit::...`. -/
theorem keyTag_deposit (c : ConfirmedTransaction) : keyTag (depositKey c) = "tx::de".data := by
  simp [keyTag, depositKey, txPrefixKey, prefixKey_data]

/-- The tag of an earn key. -/
theorem keyTag_earn (addr : Address) (c : ConfirmedTransaction) (o : Nat) :
    keyTag (earn addr c o) = "earn::".data := by
  simp [keyTag, earn, earnKeyPrefix, prefixKey_data]

/-- The tag of a spend key. -/
theorem keyTag_spend (addr : Address) (i : Input) : keyTag (spend addr i) = "spend:".data := by
  simp [keyTag, spend, rawSpend, spendKeyPrefix, prefixKey_data, String.data_append]

/-- The tag of an exit-spend key. -/
theorem keyTag_spendExit (addr : Address) (i : Input) :
    keyTag (spendExit addr i) = "spendE".data := by
  simp [keyTag, spendExit, spendExitKeyPrefix, prefixKey_data]

/-- The characters of the prefix of the positions of a block. -/
theorem txIdxPrefix_data (n : Nat) :
    (txIdxPrefix n).data =
      't' :: 'x' :: ':' :: ':' :: 'b' :: 'l' :: 'k' :: 'N' :: 'u' :: 'm' :: ':' :: ':' ::
        ((toString n).data ++ [':', ':', 't', 'x', 'I', 'd', 'x', ':', ':']) := by
  simp [txIdxPrefix, txPrefixKey, prefixKey_data, String.data_append]

/-- The key of a position is the prefix of its block followed by the index in decimal. -/
theorem blkNumTxIdxKey_split (n j : Nat) :
    (blkNumTxIdxKey n j).data = (txIdxPrefix n).data ++ (toString j).data := by
  rw [blkNumTxIdxKey_data, txIdxPrefix_data]; simp

/-- A key that starts with the prefix of a block's positions has the tag of the
`tx::blkNum::` keys. -/
theorem prefix_keyTag {n : Nat} {k : String} (h : (txIdxPrefix n).data <+: k.data) :
    keyTag k = "tx::bl".data := by
  obtain ⟨t, ht⟩ := h
  rw [txIdxPrefix_data] at ht
  simp only [keyTag, ← ht]
  rfl

/-- A prefix that reaches beyond the first colon fixes the part before it. -/
theorem colon_split_initial (d1 d2 r1 r2 : List Char) (h1 : ∀ c ∈ d1, c ≠ ':')
    (h2 : ∀ c ∈ d2, c ≠ ':') (h : (d1 ++ ':' :: r1) <+: (d2 ++ ':' :: r2)) :
    d1 = d2 ∧ r1 <+: r2 := by
  obtain ⟨t, ht⟩ := h
  have e : d1 ++ ':' :: (r1 ++ t) = d2 ++ ':' :: r2 := by
    rw [← ht]; simp
  obtain ⟨e1, e2⟩ := colon_split _ _ _ _ h1 h2 e
  exact ⟨e1, ⟨t, e2⟩⟩

/-- The key of a position starts with the prefix of a block only if it is a position of
that block. -/
theorem prefix_position {n m j : Nat} (h : (txIdxPrefix n).data <+: (blkNumTxIdxKey m j).data) :
    m = n := by
  rw [txIdxPrefix_data, blkNumTxIdxKey_data] at h
  simp only [List.cons_prefix_cons, true_and] at h
  have := (colon_split_initial _ _ _ _ (repr_no_colon n) (repr_no_colon m) h).1
  rw [← digitsValue_repr m, ← digitsValue_repr n, this]

/-- No record that `saveTransaction` puts beside the position key is under the
prefix of the positions of a block. -/
theorem txSideKey_not_under {k : String} (hk : TxSideKey k) (n : Nat) :
    ¬ (txIdxPrefix n).data <+: k.data := by
  intro h
  have ht := prefix_keyTag h
  cases hk with
  | hash hex => rw [keyTag_hash] at ht; exact absurd ht (by decide)
  | blkNumHash m hex =>
    have hd : (blkNumHashkey m hex).data =
        't' :: 'x' :: ':' :: ':' :: 'b' :: 'l' :: 'k' :: 'N' :: 'u' :: 'm' :: ':' :: ':' ::
          ((toString m).data ++ ':' :: ':' :: 'h' :: 'a' :: 's' :: 'h' :: ':' :: ':' ::
            hex.data) := by
      simp [blkNumHashkey, txPrefixKey, prefixKey_data]
    rw [txIdxPrefix_data, hd] at h
    simp only [List.cons_prefix_cons, true_and] at h
    have h2 := (colon_split_initial _ _ _ _ (repr_no_colon n) (repr_no_colon m) h).2
    simp only [List.cons_prefix_cons, true_and] at h2
    exact absurd h2.1 (by decide)
  | spend addr i => rw [keyTag_spend] at ht; exact absurd ht (by decide)
  | spendExit addr i => rw [keyTag_spendExit] at ht; exact absurd ht (by decide)
  | deposit c => rw [keyTag_deposit] at ht; exact absurd ht (by decide)
  | earn addr c o => rw [keyTag_earn] at ht; exact absurd ht (by decide)

/-- No record that `saveTransaction` puts beside the position key is under the key of
a position. -/
theorem txSideKey_ne_position {k : String} (hk : TxSideKey k) (a b : Nat) :
    k ≠ blkNumTxIdxKey a b := by
  cases hk with
  | hash hex => exact hashKey_ne _ a b
  | blkNumHash m hex => exact blkNumHashkey_ne _ _ a b
  | spend addr i => exact spend_ne _ _ a b
  | spendExit addr i => exact spendExit_ne _ _ a b
  | deposit c => exact depositKey_ne _ a b
  | earn addr c o => exact earn_ne _ _ _ a b

/-- The records of `saveTransaction` are under keys that start with `tx::`, `spend` or
`earn`. -/
theorem txSideKey_tag {k : String} (hk : TxSideKey k) :
    keyTag k ∈ ["tx::ha".data, "tx::bl".data, "spend:".data, "spendE".data, "tx::de".data,
      "earn::".data] := by
  cases hk with
  | hash hex => rw [keyTag_hash]; decide
  | blkNumHash m hex => rw [keyTag_blkNumHash]; decide
  | spend addr i => rw [keyTag_spend]; decide
  | spendExit addr i => rw [keyTag_spendExit]; decide
  | deposit c => rw [keyTag_deposit]; decide
  | earn addr c o => rw [keyTag_earn]; decide

/-- The key `blockNum::<n>` determines `n`. -/
theorem blockNumKey_inj {a b : Nat} (h : blockNumKey a = blockNumKey b) : a = b := by
  have hd : ∀ n, (blockNumKey n).data = "blockNum::".data ++ (toString n).data := by
    intro n; simp [blockNumKey, prefixKey_data]
  have := hd a
  rw [h, hd b] at this
  have e := List.append_cancel_left this
  rw [← digitsValue_repr a, ← digitsValue_repr b, e]

/-- The key `block::latest` is not the key `block::0x...` of a block. -/
theorem latest_ne_blockHex (h : Hash) :
    blockPrefixKey latestKey ≠ blockPrefixKey (hexEncode h) := by
  intro e
  have := congrArg (fun k => k.data.take 8) e
  simp [blockPrefixKey, prefixKey_data, latestKey, hexEncode] at this

/-! ## The store: entries and order -/

/-- The value left under a key by a batch whose last put under the key is known. -/
theorem dbGet_dbWrite_last (s : Store) (B1 B2 : Batch) (K : String) (v : Value)
    (h2 : ∀ p ∈ B2, p.1 ≠ K) : dbGet (dbWrite s (B1 ++ (K, v) :: B2)) K = some v := by
  rw [dbWrite_append]
  show dbGet (dbWrite (dbPut (dbWrite s B1) K v) B2) K = some v
  rw [dbGet_dbWrite_of_avoids K B2 _ h2, dbGet_dbPut, if_pos rfl]

/-- An entry of the database after a put is the entry put or an entry from before. -/
theorem mem_dbPut {s : Store} {k : String} {v : Value} {p : String × Value}
    (h : p ∈ dbPut s k v) : p = (k, v) ∨ p ∈ s := by
  induction s with
  | nil => simpa [dbPut] using h
  | cons hd tl ih =>
    obtain ⟨k0, v0⟩ := hd
    simp only [dbPut] at h
    split at h
    · rcases List.mem_cons.mp h with h | h
      · exact Or.inl h
      · exact Or.inr (List.mem_cons_of_mem _ h)
    · split at h
      · rcases List.mem_cons.mp h with h | h
        · exact Or.inl h
        · exact Or.inr h
      · rcases List.mem_cons.mp h with h | h
        · exact Or.inr (h ▸ List.mem_cons_self _ _)
        · rcases ih h with h | h
          · exact Or.inl h
          · exact Or.inr (List.mem_cons_of_mem _ h)

/-- An entry of the database after a write is an entry of the batch or an entry from
before. -/
theorem mem_dbWrite {p : String × Value} (batch : Batch) :
    ∀ s : Store, p ∈ dbWrite s batch → p ∈ s ∨ p ∈ batch := by
  induction batch with
  | nil => intro s h; exact Or.inl h
  | cons hd tl ih =>
    intro s h
    rcases ih (dbPut s hd.1 hd.2) h with h | h
    · rcases mem_dbPut h with h | h
      · exact Or.inr (h ▸ List.mem_cons_self _ _)
      · exact Or.inl h
    · exact Or.inr (List.mem_cons_of_mem _ h)

/-- A put keeps the entries in strictly ascending order of their keys. -/
theorem dbPut_ordered {s : Store} (k : String) (v : Value) (h : StoreOrdered s) :
    StoreOrdered (dbPut s k v) := by
  induction s with
  | nil => simp [dbPut, StoreOrdered]
  | cons hd tl ih =>
    obtain ⟨k0, v0⟩ := hd
    unfold StoreOrdered at h ih ⊢
    rw [List.pairwise_cons] at h
    simp only [dbPut]
    split
    · rename_i e
      rw [List.pairwise_cons]
      exact ⟨fun q hq => by rw [e]; exact h.1 q hq, h.2⟩
    · split
      · rename_i hne hlt
        rw [List.pairwise_cons, List.pairwise_cons]
        refine ⟨?_, h.1, h.2⟩
        intro q hq
        rcases List.mem_cons.mp hq with hq | hq
        · rw [hq]; exact hlt
        · exact lt_trans hlt (h.1 q hq)
      · rename_i hne hlt
        rw [List.pairwise_cons]
        refine ⟨?_, ih h.2⟩
        intro q hq
        rcases mem_dbPut hq with hq | hq
        · rw [hq]
          have hne' : k.data ≠ k0.data := fun e => hne (String.ext e)
          rcases lt_trichotomy k.data k0.data with h1 | h1 | h1
          · exact absurd h1 hlt
          · exact absurd h1 hne'
          · exact h1
        · exact h.1 q hq

/-- A write keeps the entries in strictly ascending order of their keys. -/
theorem dbWrite_ordered (batch : Batch) :
    ∀ s : Store, StoreOrdered s → StoreOrdered (dbWrite s batch) := by
  induction batch with
  | nil => intro s h; exact h
  | cons hd tl ih => intro s h; exact ih _ (dbPut_ordered hd.1 hd.2 h)

/-- The value read under a key is the value of an entry. -/
theorem mem_of_dbGet {s : Store} {k : String} {v : Value} (h : dbGet s k = some v) :
    (k, v) ∈ s := by
  induction s with
  | nil => simp [dbGet] at h
  | cons hd tl ih =>
    obtain ⟨k0, v0⟩ := hd
    simp only [dbGet] at h
    split at h
    · rename_i e
      simp only [Option.some.injEq] at h
      rw [e, h]; exact List.mem_cons_self _ _
    · exact List.mem_cons_of_mem _ (ih h)

/-- No two entries of an ordered database are the same. -/
theorem storeOrdered_nodup {s : Store} (h : StoreOrdered s) : s.Nodup := by
  unfold StoreOrdered at h
  exact h.imp fun {a b} hab e => by rw [e] at hab; exact lt_irrefl _ hab

/-! ## Packaging: the batch of a block -/

/-- The records appended by `recordEarns` are under the deposit key and earn keys. -/
theorem recordEarns_side {c : ConfirmedTransaction} {txEnc : Value} {batch batch1 : Batch}
    (h : recordEarns c txEnc batch = Except.ok batch1) :
    ∃ extra, batch1 = batch ++ extra ∧ ∀ p ∈ extra, TxSideKey p.1 := by
  unfold recordEarns at h
  simp only [bind, Except.bind, pure, Except.pure, Transaction.OutputAt, batchPut, if_true,
    one_ne_zero, if_false] at h
  have key : ∀ (b0 : Batch) (ex0 : Batch), b0 = batch ++ ex0 →
      (∀ p ∈ ex0, TxSideKey p.1) →
      (if (!IsZeroOutput (some c.Transaction.Output1)) = true then
          Except.ok (b0 ++ [(earn c.Transaction.Output1.Owner c 1, Value.empty)])
        else (Except.ok b0 : Except Err Batch)) = Except.ok batch1 →
      ∃ extra, batch1 = batch ++ extra ∧ ∀ p ∈ extra, TxSideKey p.1 := by
    intro b0 ex0 hb0 hex0 h2
    split at h2
    · simp only [Except.ok.injEq] at h2
      refine ⟨ex0 ++ [(earn c.Transaction.Output1.Owner c 1, Value.empty)], ?_, ?_⟩
      · rw [← h2, hb0, List.append_assoc]
      · intro p hp
        rcases List.mem_append.mp hp with hp | hp
        · exact hex0 p hp
        · rw [List.mem_singleton.mp hp]; exact TxSideKey.earn _ _ _
    · simp only [Except.ok.injEq] at h2
      exact ⟨ex0, by rw [← h2, hb0], hex0⟩
  by_cases hz0 : (!IsZeroOutput (some c.Transaction.Output0)) = true
  · simp only [hz0, if_true] at h
    by_cases hd : Output.IsDeposit (some c.Transaction.Output0) = true
    · simp only [hd, if_true] at h
      refine key _ [(depositKey c, txEnc), (earn c.Transaction.Output0.Owner c 0, Value.empty)]
        (by simp) ?_ h
      intro p hp
      simp only [List.mem_cons, List.mem_singleton, List.not_mem_nil, or_false] at hp
      rcases hp with hp | hp
      · rw [hp]; exact TxSideKey.deposit _
      · rw [hp]; exact TxSideKey.earn _ _ _
    · simp only [hd, if_false] at h
      refine key _ [(earn c.Transaction.Output0.Owner c 0, Value.empty)] (by simp) ?_ h
      intro p hp
      rw [List.mem_singleton.mp hp]; exact TxSideKey.earn _ _ _
  · simp only [hz0, if_false] at h
    exact key _ [] (by simp) (fun p hp => by cases hp) h

/-- The record appended by `recordSpend0`, if any, is under a spend key. -/
theorem recordSpend0_side {E : Ext} {s : Store} {n i : Nat} {c : ConfirmedTransaction}
    {batch batch1 : Batch} (h : recordSpend0 E s n i c batch = Except.ok batch1) :
    ∃ extra, batch1 = batch ++ extra ∧ ∀ p ∈ extra, TxSideKey p.1 := by
  rcases recordSpend0_ok h with ⟨_, e⟩ | ⟨_, _, _, out, _, _, e⟩
  · exact ⟨[], by rw [e, List.append_nil], fun p hp => by cases hp⟩
  · refine ⟨_, e, ?_⟩
    intro p hp
    rw [List.mem_singleton.mp hp]
    dsimp only
    split
    · exact TxSideKey.spendExit _ _
    · exact TxSideKey.spend _ _

/-- The record appended by `recordSpend1`, if any, is under a spend key. -/
theorem recordSpend1_side {s : Store} {n i : Nat} {c : ConfirmedTransaction}
    {batch batch1 : Batch} (h : recordSpend1 s n i c batch = Except.ok batch1) :
    ∃ extra, batch1 = batch ++ extra ∧ ∀ p ∈ extra, TxSideKey p.1 := by
  rcases recordSpend1_ok h with ⟨_, e⟩ | ⟨_, _, _, out, _, _, e⟩
  · exact ⟨[], by rw [e, List.append_nil], fun p hp => by cases hp⟩
  · refine ⟨_, e, ?_⟩
    intro q hq
    rw [List.mem_singleton.mp hq]
    exact TxSideKey.spend _ _

/-- The batch of a successful `saveTransaction`: the old batch, the two hash records,
the entry of the position, and then spend, deposit and earn records. -/
theorem saveTransaction_shape {E : Ext} {s : Store} {n i : Nat} {tx : ConfirmedTransaction}
    {batch : Batch} {c : ConfirmedTransaction} {s1 : Store} {batch1 : Batch}
    (h : saveTransaction E s n i tx batch = Except.ok (c, s1, batch1)) :
    c = stampAt tx n i ∧ s1 = dbWrite s batch1 ∧
    ∃ pre post, batch1 = batch ++ (pre ++ positionEntry n i tx :: post) ∧
      (∀ p ∈ pre, TxSideKey p.1) ∧ (∀ p ∈ post, TxSideKey p.1) := by
  unfold saveTransaction at h
  simp only [bind, Except.bind, pure, Except.pure, batchPut] at h
  split at h
  · cases h
  · rename_i bA hA
    split at h
    · cases h
    · rename_i bB hB
      split at h
      · cases h
      · rename_i bC hC
        simp only [Except.ok.injEq, Prod.mk.injEq] at h
        obtain ⟨hc, hs1, hb1⟩ := h
        subst hb1
        obtain ⟨exC, hexC, hCside⟩ := recordEarns_side hC
        obtain ⟨exB, hexB, hBside⟩ := recordSpend1_side hB
        obtain ⟨p1, p2, hA2, hp1, hp2⟩ : ∃ p1 p2 : String × Value,
            recordSpend0 E s n i (stampAt tx n i)
              (batch ++ [p1] ++ [p2] ++ [positionEntry n i tx]) = Except.ok bA ∧
            TxSideKey p1.1 ∧ TxSideKey p2.1 :=
          ⟨_, _, hA, TxSideKey.hash _, TxSideKey.blkNumHash _ _⟩
        obtain ⟨exA, hexA, hAside⟩ := recordSpend0_side hA2
        refine ⟨hc.symm, hs1.symm, [p1, p2], exA ++ exB ++ exC, ?_, ?_, ?_⟩
        · rw [hexC, hexB, hexA]
          simp only [List.append_assoc, List.cons_append, List.nil_append]
        · intro p hp
          simp only [List.mem_cons, List.mem_singleton, List.not_mem_nil, or_false] at hp
          rcases hp with hp | hp
          · rw [hp]; exact hp1
          · rw [hp]; exact hp2
        · intro p hp
          simp only [List.mem_append] at hp
          rcases hp with (hp | hp) | hp
          · exact hAside p hp
          · exact hBside p hp
          · exact hCside p hp

/-- The batch and the database after a successful loop of `doPackageBlock`. The batch
grew by the entries of the positions, in order, each among records of
`saveTransaction`; the database holds entries from before and entries of the batch, is
still ordered, and is unchanged under every key that the batch does not put. -/
theorem packageLoop_shape (E : Ext) (n : Nat) :
    ∀ (txs : List ConfirmedTransaction) (i : Nat) (s : Store) (batch : Batch) (fees : Int)
      (bF : Batch) (fF : Int) (sF : Store),
      packageLoop E n txs i s batch fees = (Except.ok (bF, fF), sF) →
      ∃ X, bF = batch ++ X ∧
        (∀ p ∈ X, TxSideKey p.1 ∨
          ∃ j tx, txs[j]? = some tx ∧ p = positionEntry n ((i + j) % 2 ^ 32) tx) ∧
        (∀ j tx, txs[j]? = some tx →
          ∃ B1 B2, X = B1 ++ positionEntry n ((i + j) % 2 ^ 32) tx :: B2 ∧
            ∀ p ∈ B2, TxSideKey p.1 ∨
              ∃ j' tx', j < j' ∧ txs[j']? = some tx' ∧
                p = positionEntry n ((i + j') % 2 ^ 32) tx') ∧
        (∀ p ∈ sF, p ∈ s ∨ p ∈ bF) ∧
        (StoreOrdered s → StoreOrdered sF) ∧
        (∀ K, (∀ p ∈ bF, p.1 ≠ K) → dbGet sF K = dbGet s K) := by
  intro txs
  induction txs with
  | nil =>
    intro i s batch fees bF fF sF h
    simp only [packageLoop, Prod.mk.injEq, Except.ok.injEq] at h
    obtain ⟨⟨hb, _⟩, hs⟩ := h
    subst hb; subst hs
    refine ⟨[], (by simp), (fun p hp => by cases hp), ?_, fun p hp => Or.inl hp, fun h => h,
      fun K _ => rfl⟩
    intro j tx hj
    simp at hj
  | cons tx rest ih =>
    intro i s batch fees bF fF sF h
    simp only [packageLoop] at h
    split at h
    · simp only [Prod.mk.injEq] at h
      exact absurd h.1 (by intro e; cases e)
    · rename_i c1 s1 batch1 hsave
      obtain ⟨_, hs1, pre, post, hb1, hpre, hpost⟩ := saveTransaction_shape hsave
      obtain ⟨X', hbF, hclass, hsplit, hmem, hord, hframe⟩ := ih _ _ _ _ _ _ _ h
      have hsub : ∀ p ∈ batch1, p ∈ bF := by
        intro p hp; rw [hbF]; exact List.mem_append_left _ hp
      refine ⟨(pre ++ positionEntry n (i % 2 ^ 32) tx :: post) ++ X', ?_, ?_, ?_, ?_, ?_, ?_⟩
      · rw [hbF, hb1, List.append_assoc]
      · intro p hp
        rcases List.mem_append.mp hp with hp | hp
        · rcases List.mem_append.mp hp with hp | hp
          · exact Or.inl (hpre p hp)
          · rcases List.mem_cons.mp hp with hp | hp
            · exact Or.inr ⟨0, tx, (by simp), (by rw [hp]; rfl)⟩
            · exact Or.inl (hpost p hp)
        · rcases hclass p hp with hp | ⟨j, tx', hj, hp⟩
          · exact Or.inl hp
          · refine Or.inr ⟨j + 1, tx', (by simpa using hj), ?_⟩
            rw [hp]
            have e : i + 1 + j = i + (j + 1) := by omega
            rw [e]
      · intro j tx0 hj
        cases j with
        | zero =>
          simp only [List.getElem?_cons_zero, Option.some.injEq] at hj
          subst hj
          refine ⟨pre, post ++ X', (by simp), ?_⟩
          intro p hp
          rcases List.mem_append.mp hp with hp | hp
          · exact Or.inl (hpost p hp)
          · rcases hclass p hp with hp | ⟨j, tx', hj, hp⟩
            · exact Or.inl hp
            · refine Or.inr ⟨j + 1, tx', (by omega), (by simpa using hj), ?_⟩
              rw [hp]
              have e : i + 1 + j = i + (j + 1) := by omega
              rw [e]
        | succ j0 =>
          simp only [List.getElem?_cons_succ] at hj
          obtain ⟨B1, B2, hX, hB2⟩ := hsplit j0 tx0 hj
          have e0 : i + 1 + j0 = i + (j0 + 1) := by omega
          rw [e0] at hX
          refine ⟨(pre ++ positionEntry n (i % 2 ^ 32) tx :: post) ++ B1, B2, ?_, ?_⟩
          · rw [hX]; simp
          · intro p hp
            rcases hB2 p hp with hp | ⟨j, tx', hlt, hj, hp⟩
            · exact Or.inl hp
            · refine Or.inr ⟨j + 1, tx', (by omega), (by simpa using hj), ?_⟩
              rw [hp]
              have e : i + 1 + j = i + (j + 1) := by omega
              rw [e]
      · intro p hp
        rcases hmem p hp with hp | hp
        · rw [hs1] at hp
          rcases mem_dbWrite _ _ hp with hp | hp
          · exact Or.inl hp
          · exact Or.inr (hsub p hp)
        · exact Or.inr hp
      · intro ho
        apply hord
        rw [hs1]
        exact dbWrite_ordered _ _ ho
      · intro K hK
        rw [hframe K hK, hs1]
        exact dbGet_dbWrite_of_avoids K _ _ (fun p hp => hK p (hsub p hp))

/-- A successful `doPackageBlock` is a successful loop started with the header batch,
followed by the write of the batch extended with the fee and metadata entries; the
result reports the number of the new block. -/
theorem doPackageBlock_batch {E : Ext} {now : Nat} {s : Store} {txs : List ConfirmedTransaction}
    {r : BlockResult} {sF : Store} (h : doPackageBlock E now s txs = (Except.ok r, sF))
    {prevBlock : Option Block} (hl : LatestBlock s = Except.ok prevBlock) :
    ∃ (bL : Batch) (fL : Int) (sL : Store),
      packageLoop E (nextBlkNum prevBlock) txs 0 s (headerBatch E prevBlock txs) 0 =
        (Except.ok (bL, fL), sL) ∧
      sF = dbWrite sL (bL ++ tailBatch now (nextBlkNum prevBlock) txs.length fL) ∧
      r.BlockNumber = toInt64 (nextBlkNum prevBlock) := by
  unfold doPackageBlock at h
  rw [hl] at h
  simp only [batchPut, List.nil_append] at h
  split at h
  · simp only [Prod.mk.injEq] at h
    exact absurd h.1 (by intro e; cases e)
  · rename_i bL fL sL hloop
    simp only [Prod.mk.injEq, Except.ok.injEq] at h
    obtain ⟨hr, hsF⟩ := h
    refine ⟨bL, fL, sL, hloop, ?_, ?_⟩
    · rw [← hsF]
      simp only [tailBatch, List.append_assoc, List.singleton_append]
    · rw [← hr]

/-- Keys with different tags are different. -/
theorem ne_of_keyTag {k K : String} (h : keyTag k ≠ keyTag K) : k ≠ K :=
  fun e => h (by rw [e])

/-- The entry of a position has the tag of the `tx::blkNum::` keys. -/
theorem keyTag_positionEntry (n i : Nat) (tx : ConfirmedTransaction) :
    keyTag (positionEntry n i tx).1 = "tx::bl".data :=
  keyTag_blkNumTxIdx n i

/-- The database after a successful `doPackageBlock` that follows `prevBlock`: the
pointers `block::latest` and `blockNum::<n>` lead to the new block, every transaction
is under the key of its position, every entry is an entry from before, an entry that is
not under the prefix of any block's positions, or the entry of a position of the new
block; the order is kept, and the other block keys are as before. -/
theorem doPackageBlock_written {E : Ext} {now : Nat} {s : Store}
    {txs : List ConfirmedTransaction} {r : BlockResult} {sF : Store}
    (h : doPackageBlock E now s txs = (Except.ok r, sF))
    {prevBlock : Option Block} (hl : LatestBlock s = Except.ok prevBlock) :
    r.BlockNumber = toInt64 (nextBlkNum prevBlock) ∧
    dbGet sF (blockPrefixKey latestKey) =
      some (Value.key (blockPrefixKey (hexEncode (newBlock E prevBlock txs).BlockHash))) ∧
    dbGet sF (blockNumKey (nextBlkNum prevBlock)) =
      some (Value.key (blockPrefixKey (hexEncode (newBlock E prevBlock txs).BlockHash))) ∧
    dbGet sF (blockPrefixKey (hexEncode (newBlock E prevBlock txs).BlockHash)) =
      some (Value.block (newBlock E prevBlock txs)) ∧
    (txs.length ≤ 2 ^ 32 → ∀ j tx, txs[j]? = some tx →
      dbGet sF (blkNumTxIdxKey (nextBlkNum prevBlock) j) =
        some (encodeConfirmed (stampAt tx (nextBlkNum prevBlock) j))) ∧
    (∀ p ∈ sF, p ∈ s ∨ (∀ m, ¬ (txIdxPrefix m).data <+: p.1.data) ∨
      ∃ j tx, txs[j]? = some tx ∧ p = positionEntry (nextBlkNum prevBlock) (j % 2 ^ 32) tx) ∧
    (StoreOrdered s → StoreOrdered sF) ∧
    (∀ K, (keyTag K = "block:".data ∨ keyTag K = "blockN".data) →
      K ≠ blockPrefixKey (hexEncode (newBlock E prevBlock txs).BlockHash) →
      K ≠ blockPrefixKey latestKey → K ≠ blockNumKey (nextBlkNum prevBlock) →
      dbGet sF K = dbGet s K) := by
  obtain ⟨bL, fL, sL, hloop, hsF, hr⟩ := doPackageBlock_batch h hl
  obtain ⟨X, hbL, hclass, hsplit, hmem, hord, hframe⟩ :=
    packageLoop_shape E _ _ _ _ _ _ _ _ _ hloop
  simp only [Nat.zero_add] at hclass hsplit
  -- the tags of the entries that follow the header
  have hXtag : ∀ p ∈ X, keyTag p.1 ∈ ["tx::ha".data, "tx::bl".data, "spend:".data,
      "spendE".data, "tx::de".data, "earn::".data] := by
    intro p hp
    rcases hclass p hp with hp | ⟨j, tx, _, hp⟩
    · exact txSideKey_tag hp
    · rw [hp, keyTag_positionEntry]; decide
  have hTtag : ∀ p ∈ tailBatch now (nextBlkNum prevBlock) txs.length fL,
      keyTag p.1 = "blockF".data ∨ keyTag p.1 = "blockM".data := by
    intro p hp
    simp only [tailBatch, List.mem_cons, List.mem_singleton, List.not_mem_nil, or_false] at hp
    rcases hp with hp | hp
    · rw [hp]; exact Or.inl (keyTag_blockFees _)
    · rw [hp]; exact Or.inr (keyTag_blockMeta _)
  have hXT : ∀ K, (keyTag K = "block:".data ∨ keyTag K = "blockN".data) →
      ∀ p ∈ X ++ tailBatch now (nextBlkNum prevBlock) txs.length fL, p.1 ≠ K := by
    intro K hK p hp
    apply ne_of_keyTag
    rcases List.mem_append.mp hp with hp | hp
    · have := hXtag p hp
      rcases hK with hK | hK <;> rw [hK] <;> intro e <;> rw [e] at this <;>
        exact absurd this (by decide)
    · have := hTtag p hp
      rcases hK with hK | hK <;> rw [hK] <;> rcases this with e | e <;> rw [e] <;> decide
  have hB : sF = dbWrite sL
      (headerBatch E prevBlock txs ++
        (X ++ tailBatch now (nextBlkNum prevBlock) txs.length fL)) := by
    rw [hsF, hbL, List.append_assoc]
  refine ⟨hr, ?_, ?_, ?_, ?_, ?_, ?_, ?_⟩
  · -- block::latest
    rw [hB]
    exact dbGet_dbWrite_last sL [_, _] (_ :: (X ++ tailBatch _ _ _ _)) _ _ (by
      intro p hp
      rcases List.mem_cons.mp hp with hp | hp
      · rw [hp]
        exact ne_of_keyTag (by rw [keyTag_blockNum, keyTag_block]; decide)
      · exact hXT _ (Or.inl (keyTag_block _)) p hp)
  · -- blockNum::<n>
    rw [hB]
    exact dbGet_dbWrite_last sL [_, _, _] (X ++ tailBatch _ _ _ _) _ _
      (hXT _ (Or.inr (keyTag_blockNum _)))
  · -- the block under its hash key
    rw [hB]
    exact dbGet_dbWrite_last sL [_] (_ :: _ :: (X ++ tailBatch _ _ _ _)) _ _ (by
      intro p hp
      rcases List.mem_cons.mp hp with hp | hp
      · rw [hp]; exact latest_ne_blockHex _
      · rcases List.mem_cons.mp hp with hp | hp
        · rw [hp]
          exact ne_of_keyTag (by rw [keyTag_blockNum, keyTag_block]; decide)
        · exact hXT _ (Or.inl (keyTag_block _)) p hp)
  · -- the positions
    intro hlen j tx hj
    obtain ⟨B1, B2, hX, hB2⟩ := hsplit j tx hj
    have hjlt : j < txs.length := by
      rcases List.getElem?_eq_some_iff.mp hj with ⟨hlt, _⟩
      exact hlt
    have hjm : j % 2 ^ 32 = j := Nat.mod_eq_of_lt (by omega)
    rw [hjm] at hX
    have hB' : sF = dbWrite sL ((headerBatch E prevBlock txs ++ B1) ++
        positionEntry (nextBlkNum prevBlock) j tx ::
          (B2 ++ tailBatch now (nextBlkNum prevBlock) txs.length fL)) := by
      rw [hB, hX]; simp
    rw [hB']
    refine dbGet_dbWrite_last sL _ _ _ _ ?_
    intro p hp
    rcases List.mem_append.mp hp with hp | hp
    · rcases hB2 p hp with hp | ⟨j', tx', hlt, hj', hp⟩
      · exact txSideKey_ne_position hp _ _
      · have hj'lt : j' < txs.length := by
          rcases List.getElem?_eq_some_iff.mp hj' with ⟨hlt', _⟩
          exact hlt'
        have hj'm : j' % 2 ^ 32 = j' := Nat.mod_eq_of_lt (by omega)
        rw [hp, hj'm]
        intro e
        have := (blkNumTxIdxKey_inj e).2
        omega
    · apply ne_of_keyTag
      rcases hTtag p hp with e | e <;> rw [e, keyTag_blkNumTxIdx] <;> decide
  · -- the entries
    intro p hp
    rw [hsF] at hp
    have hp' : p ∈ s ∨ p ∈ bL ++ tailBatch now (nextBlkNum prevBlock) txs.length fL := by
      rcases mem_dbWrite _ _ hp with hp | hp
      · rcases hmem p hp with hp | hp
        · exact Or.inl hp
        · exact Or.inr (List.mem_append_left _ hp)
      · exact Or.inr hp
    rcases hp' with hp' | hp'
    · exact Or.inl hp'
    · right
      have hnot : ∀ {k : String}, keyTag k ≠ "tx::bl".data →
          ∀ m, ¬ (txIdxPrefix m).data <+: k.data := fun hk m hpre => hk (prefix_keyTag hpre)
      rw [hbL] at hp'
      rcases List.mem_append.mp hp' with hp' | hp'
      · rcases List.mem_append.mp hp' with hp' | hp'
        · left
          apply hnot
          simp only [headerBatch, List.mem_cons, List.mem_singleton, List.not_mem_nil,
            or_false] at hp'
          rcases hp' with hp' | hp' | hp' | hp'
          · rw [hp', keyTag_merkle]; decide
          · rw [hp', keyTag_block]; decide
          · rw [hp', keyTag_block]; decide
          · rw [hp', keyTag_blockNum]; decide
        · rcases hclass p hp' with hk | hk
          · exact Or.inl (fun m => txSideKey_not_under hk m)
          · exact Or.inr hk
      · left
        apply hnot
        rcases hTtag p hp' with e | e <;> rw [e] <;> decide
  · -- the order
    intro ho
    rw [hsF]
    exact dbWrite_ordered _ _ (hord ho)
  · -- the other block keys
    intro K hK h1 h2 h3
    have hH : ∀ p ∈ headerBatch E prevBlock txs, p.1 ≠ K := by
      intro p hp
      simp only [headerBatch, List.mem_cons, List.mem_singleton, List.not_mem_nil,
        or_false] at hp
      rcases hp with hp | hp | hp | hp
      · rw [hp]
        apply ne_of_keyTag
        rcases hK with hK | hK <;> rw [hK, keyTag_merkle] <;> decide
      · rw [hp]; exact Ne.symm h1
      · rw [hp]; exact Ne.symm h2
      · rw [hp]; exact Ne.symm h3
    have hall : ∀ p ∈ headerBatch E prevBlock txs ++
        (X ++ tailBatch now (nextBlkNum prevBlock) txs.length fL), p.1 ≠ K := by
      intro p hp
      rcases List.mem_append.mp hp with hp | hp
      · exact hH p hp
      · exact hXT K hK p hp
    rw [hB, dbGet_dbWrite_of_avoids K _ _ hall]
    apply hframe
    intro p hp
    rw [hbL] at hp
    exact hall p (by
      rcases List.mem_append.mp hp with hp | hp
      · exact List.mem_append_left _ hp
      · exact List.mem_append_right _ (List.mem_append_left _ hp))

/-! ## Packaged transactions are found at their positions -/

/-- The block read at a height whose pointer leads to a stored block. -/
theorem BlockAtHeight_of_pointer {s : Store} {n : Nat} {key : String} {b : Block}
    (h1 : dbGet s (blockNumKey n) = some (Value.key key))
    (h2 : dbGet s key = some (Value.block b)) : BlockAtHeight s n = Except.ok b := by
  simp [BlockAtHeight, h1, dbGetRef, h2, decodeBlock]

/-- The transaction found at a position whose block can be read and whose entry is the
encoding of a transaction stamped with the position. -/
theorem Find_of_entry {s : Store} {n i : Nat} {b : Block} {tx : ConfirmedTransaction}
    (hb : BlockAtHeight s n = Except.ok b)
    (he : dbGet s (blkNumTxIdxKey n i) = some (encodeConfirmed (stampAt tx n i))) :
    FindTransactionByBlockNumTxIdx s n i = Except.ok (some (stampAt tx n i)) := by
  simp [FindTransactionByBlockNumTxIdx, findTransactionByBlockNumTxIdx, hb, bind, Except.bind,
    dbHas, he, encodeConfirmed, decodeConfirmed, pure, Except.pure, Except.map, stampAt]

/-- C13: let `packageBlock(txs)` succeed in a store whose latest block is `prevBlock`,
for a list of at most 2^32 transactions. The call reports the number `n` of the block
that follows `prevBlock`, and for every index `i` of the list,
`FindTransactionByBlockNumTxIdx(n, i)` returns, after the call, the transaction
`txs[i]` with `BlkNum = n` and `TxIdx = i` and every other field as it was. -/
theorem packaged_found_at_position (E : Ext) (now : Nat) (s : Store)
    (txs : List ConfirmedTransaction) (r : BlockResult) (sF : Store)
    (hpk : PackageBlock E now s txs = (Except.ok r, sF))
    (prevBlock : Option Block) (hlatest : LatestBlock s = Except.ok prevBlock)
    (hlen : txs.length ≤ 2 ^ 32) (i : Nat) (tx : ConfirmedTransaction)
    (hi : txs[i]? = some tx) :
    r.BlockNumber = toInt64 (nextBlkNum prevBlock) ∧
    FindTransactionByBlockNumTxIdx sF (nextBlkNum prevBlock) i =
      Except.ok (some (stampAt tx (nextBlkNum prevBlock) i)) := by
  obtain ⟨hr, _, hnum, hblk, hpos, _⟩ := doPackageBlock_written hpk hlatest
  exact ⟨hr, Find_of_entry (BlockAtHeight_of_pointer hnum hblk) (hpos hlen i tx hi)⟩

/-- Witness of C13: after the deposits of Alice and Bob, two spends are packaged into
block 3; the second is found at position (3, 1). -/
theorem packaged_found_at_position_witness :
    PackageBlock leafExt 0 storeTwoDeposits [aliceToBob, bobToCarol] =
      (Except.ok { MerkleRoot := [244, 244], NumberTransactions := 2, BlockFees := 1,
                   BlockNumber := 3 },
       (PackageBlock leafExt 0 storeTwoDeposits [aliceToBob, bobToCarol]).2) ∧
    FindTransactionByBlockNumTxIdx
        (PackageBlock leafExt 0 storeTwoDeposits [aliceToBob, bobToCarol]).2 3 1 =
      Except.ok (some (stampAt bobToCarol 3 1)) :=
  ⟨by decide,
   (packaged_found_at_position leafExt 0 storeTwoDeposits [aliceToBob, bobToCarol]
     { MerkleRoot := [244, 244], NumberTransactions := 2, BlockFees := 1, BlockNumber := 3 }
     (PackageBlock leafExt 0 storeTwoDeposits [aliceToBob, bobToCarol]).2 (by decide)
     (some { Header := { MerkleRoot := [244], RLPMerkleRoot := [], PrevHash := [1], Number := 2 },
             BlockHash := [2] })
     (by decide) (by decide) 1 bobToCarol (by decide)).2⟩

/-! ## Iterating over the positions of a block -/

/-- Every decimal digit is a digit character. -/
theorem digitChar_isDigit : ∀ m, m < 10 → (Nat.digitChar m).isDigit = true := by decide

/-- Every character of a decimal representation is a digit. -/
theorem toDigitsCore_isDigit (fuel : Nat) :
    ∀ (n : Nat) (ds : List Char), (∀ c ∈ ds, c.isDigit = true) →
      ∀ c ∈ Nat.toDigitsCore 10 fuel n ds, c.isDigit = true := by
  induction fuel with
  | zero => intro n ds h; simpa [Nat.toDigitsCore] using h
  | succ f ih =>
    intro n ds h
    simp only [Nat.toDigitsCore]
    have hd : ∀ c ∈ Nat.digitChar (n % 10) :: ds, c.isDigit = true := by
      intro c hc
      rcases List.mem_cons.mp hc with hc | hc
      · rw [hc]; exact digitChar_isDigit _ (Nat.mod_lt _ (by decide))
      · exact h c hc
    split
    · exact hd
    · exact ih _ _ hd

/-- The decimal representation of a number parses back to the number. -/
theorem parseDecimal_repr (j : Nat) : parseDecimal (toString j).data = some j := by
  have hne : (toString j).data ≠ [] := by
    intro e
    have h := digitsValue_repr j
    rw [e] at h
    have h0 : j = 0 := by simpa [digitsValue] using h.symm
    rw [h0] at e
    exact absurd e (by decide)
  have hall : (toString j).data.all Char.isDigit = true := by
    rw [List.all_eq_true]
    exact toDigitsCore_isDigit (j + 1) j [] (fun _ h => by cases h)
  simp only [parseDecimal, hne, hall, ne_eq, not_false_eq_true, and_self, if_true,
    digitsValue_repr]

/-- The suffix of the key of a position after the prefix of its block is the index,
in decimal. -/
theorem positionKey_suffix (n j : Nat) :
    String.mk ((blkNumTxIdxKey n j).data.drop (txIdxPrefix n).length) = toString j := by
  have hl : (txIdxPrefix n).length = (txIdxPrefix n).data.length := rfl
  rw [hl, blkNumTxIdxKey_split, List.drop_left]

/-- The index parsed from the key of a position below 2^32. -/
theorem Str2Uint32_positionKey (n j : Nat) (hj : j < 2 ^ 32) :
    Str2Uint32 (String.mk ((blkNumTxIdxKey n j).data.drop (txIdxPrefix n).length)) = some j := by
  rw [positionKey_suffix]
  simp only [Str2Uint32, parseDecimal_repr, hj, if_true]

/-- The key of a position is under the prefix of its block. -/
theorem positionKey_under (n j : Nat) :
    (txIdxPrefix n).data.isPrefixOf (blkNumTxIdxKey n j).data = true := by
  rw [List.isPrefixOf_iff_prefix, blkNumTxIdxKey_split]
  exact List.prefix_append _ _

/-- The first loop of `findBlockTransactions` over entries that are entries of positions
of block `n` holding transactions of `txs`: the buffer grows by one stamped
transaction per entry. -/
theorem collectBlockTransactions_positions (n : Nat) (txs : List ConfirmedTransaction) :
    ∀ (L : List (String × Value)) (buffer : List ConfirmedTransaction),
      (∀ p ∈ L, ∃ j tx, j < 2 ^ 32 ∧ txs[j]? = some tx ∧ p = positionEntry n j tx) →
      ∃ buf, collectBlockTransactions (txIdxPrefix n) n L buffer = Except.ok (buffer ++ buf) ∧
        buf.length = L.length ∧
        (∀ t ∈ buf, ∃ j tx, txs[j]? = some tx ∧ t = stampAt tx n j) ∧
        (∀ j tx, txs[j]? = some tx → positionEntry n j tx ∈ L → stampAt tx n j ∈ buf) := by
  intro L
  induction L with
  | nil =>
    intro buffer _
    exact ⟨[], (by simp [collectBlockTransactions]), rfl, (fun t ht => by cases ht),
      (fun j tx _ h => by cases h)⟩
  | cons p rest ih =>
    intro buffer hL
    obtain ⟨j0, tx0, hj0, htx0, hp⟩ := hL p (List.mem_cons_self _ _)
    obtain ⟨buf, hbuf, hlen, hall, hmem⟩ :=
      ih (buffer ++ [stampAt tx0 n j0]) (fun q hq => hL q (List.mem_cons_of_mem _ hq))
    refine ⟨stampAt tx0 n j0 :: buf, ?_, (by simp [hlen]), ?_, ?_⟩
    · subst hp
      simp only [collectBlockTransactions, positionEntry, Str2Uint32_positionKey n j0 hj0,
        encodeConfirmed, decodeConfirmed]
      rw [List.append_assoc] at hbuf
      exact hbuf
    · intro t ht
      rcases List.mem_cons.mp ht with ht | ht
      · exact ⟨j0, tx0, htx0, ht⟩
      · exact hall t ht
    · intro j tx hj hin
      rcases List.mem_cons.mp hin with hin | hin
      · rw [hp] at hin
        have hk : blkNumTxIdxKey n j = blkNumTxIdxKey n j0 := congrArg Prod.fst hin
        have hjj : j = j0 := (blkNumTxIdxKey_inj hk).2
        subst hjj
        rw [htx0] at hj
        simp only [Option.some.injEq] at hj
        subst hj
        exact List.mem_cons_self _ _
      · exact List.mem_cons_of_mem _ (hmem j tx hj hin)

/-- The second loop of `findBlockTransactions` when every index is inside the slice:
the slice keeps its length, and a slot whose index is held by one transaction of the
buffer only holds that transaction. -/
theorem placeBlockTransactions_spec :
    ∀ (buf : List ConfirmedTransaction) (slots : List (Option ConfirmedTransaction)),
      (∀ t ∈ buf, t.Transaction.TxIdx < slots.length) →
      ∃ res, placeBlockTransactions buf slots = Except.ok res ∧ res.length = slots.length ∧
        ∀ t0 : ConfirmedTransaction,
          (∀ t ∈ buf, t.Transaction.TxIdx = t0.Transaction.TxIdx → t = t0) →
          (t0 ∈ buf ∨ slots[t0.Transaction.TxIdx]? = some (some t0)) →
          res[t0.Transaction.TxIdx]? = some (some t0) := by
  intro buf
  induction buf with
  | nil =>
    intro slots _
    refine ⟨slots, rfl, rfl, ?_⟩
    intro t0 _ h
    rcases h with h | h
    · cases h
    · exact h
  | cons t rest ih =>
    intro slots hb
    have ht : t.Transaction.TxIdx < slots.length := hb t (List.mem_cons_self _ _)
    obtain ⟨res, hres, hlen, hget⟩ := ih (slots.set t.Transaction.TxIdx (some t))
      (fun q hq => by rw [List.length_set]; exact hb q (List.mem_cons_of_mem _ hq))
    refine ⟨res, ?_, (by rw [hlen, List.length_set]), ?_⟩
    · simp only [placeBlockTransactions, ht, if_true]
      exact hres
    · intro t0 huniq h0
      apply hget t0 (fun q hq => huniq q (List.mem_cons_of_mem _ hq))
      by_cases hi : t.Transaction.TxIdx = t0.Transaction.TxIdx
      · right
        have e : t = t0 := huniq t (List.mem_cons_self _ _) hi
        subst e
        simp [List.getElem?_set, ht]
      · rcases h0 with h0 | h0
        · rcases List.mem_cons.mp h0 with h0 | h0
          · exact absurd (by rw [h0]) hi
          · exact Or.inl h0
        · right
          rw [List.getElem?_set_ne hi]
          exact h0

/-- The entries under the prefix of the positions of the new block, after a successful
`doPackageBlock` in an ordered database that held no entry under the prefix: they are
the entries of the positions of the transactions, each once. -/
theorem dbIterate_packaged {E : Ext} {now : Nat} {s : Store} {txs : List ConfirmedTransaction}
    {r : BlockResult} {sF : Store} (h : doPackageBlock E now s txs = (Except.ok r, sF))
    {prevBlock : Option Block} (hl : LatestBlock s = Except.ok prevBlock)
    (hlen : txs.length ≤ 2 ^ 32) (hord : StoreOrdered s)
    (hfresh : dbIterate s (txIdxPrefix (nextBlkNum prevBlock)) = []) :
    (∀ p, p ∈ dbIterate sF (txIdxPrefix (nextBlkNum prevBlock)) ↔
      ∃ j tx, txs[j]? = some tx ∧ p = positionEntry (nextBlkNum prevBlock) j tx) ∧
    (dbIterate sF (txIdxPrefix (nextBlkNum prevBlock))).length = txs.length := by
  obtain ⟨_, _, _, _, hpos, hent, hordF, _⟩ := doPackageBlock_written h hl
  have hlt : ∀ {j : Nat} {tx : ConfirmedTransaction}, txs[j]? = some tx → j < txs.length := by
    intro j tx hj
    rcases List.getElem?_eq_some_iff.mp hj with ⟨hlt, _⟩
    exact hlt
  have hchar : ∀ p, p ∈ dbIterate sF (txIdxPrefix (nextBlkNum prevBlock)) ↔
      ∃ j tx, txs[j]? = some tx ∧ p = positionEntry (nextBlkNum prevBlock) j tx := by
    intro p
    constructor
    · intro hp
      simp only [dbIterate, List.mem_filter] at hp
      obtain ⟨hpF, hpre⟩ := hp
      rcases hent p hpF with hps | hno | ⟨j, tx, hj, hpe⟩
      · have : p ∈ dbIterate s (txIdxPrefix (nextBlkNum prevBlock)) := by
          simp only [dbIterate, List.mem_filter]
          exact ⟨hps, hpre⟩
        rw [hfresh] at this
        cases this
      · exact absurd (List.isPrefixOf_iff_prefix.mp hpre) (hno _)
      · have hjm : j % 2 ^ 32 = j := Nat.mod_eq_of_lt (by have := hlt hj; omega)
        rw [hjm] at hpe
        exact ⟨j, tx, hj, hpe⟩
    · rintro ⟨j, tx, hj, hpe⟩
      simp only [dbIterate, List.mem_filter]
      rw [hpe]
      exact ⟨mem_of_dbGet (hpos hlen j tx hj), positionKey_under _ _⟩
  refine ⟨hchar, ?_⟩
  -- the indices of the entries are the numbers below the length of the list, each once
  have hnd : (dbIterate sF (txIdxPrefix (nextBlkNum prevBlock))).Nodup :=
    (storeOrdered_nodup (hordF hord)).filter _
  have hidx : ∀ j tx, digitsValue
      ((positionEntry (nextBlkNum prevBlock) j tx).1.data.drop
        (txIdxPrefix (nextBlkNum prevBlock)).length) = j := by
    intro j tx
    have := congrArg String.data (positionKey_suffix (nextBlkNum prevBlock) j)
    simp only [positionEntry] at this ⊢
    rw [this, digitsValue_repr]
  have hK : ((dbIterate sF (txIdxPrefix (nextBlkNum prevBlock))).map fun p =>
      digitsValue (p.1.data.drop (txIdxPrefix (nextBlkNum prevBlock)).length)).Nodup := by
    apply List.Nodup.map_on _ hnd
    intro p hp q hq e
    obtain ⟨j, tx, hj, hpe⟩ := (hchar p).mp hp
    obtain ⟨j', tx', hj', hqe⟩ := (hchar q).mp hq
    rw [hpe, hqe, hidx, hidx] at e
    subst e
    rw [hj] at hj'
    simp only [Option.some.injEq] at hj'
    rw [hpe, hqe, hj']
  have hperm := (List.perm_ext_iff_of_nodup hK (List.nodup_range txs.length)).mpr (by
    intro a
    simp only [List.mem_map, List.mem_range]
    constructor
    · rintro ⟨p, hp, rfl⟩
      obtain ⟨j, tx, hj, hpe⟩ := (hchar p).mp hp
      rw [hpe, hidx]
      exact hlt hj
    · intro ha
      have hj : txs[a]? = some (txs[a]) := List.getElem?_eq_getElem ha
      exact ⟨positionEntry (nextBlkNum prevBlock) a txs[a],
        (hchar _).mpr ⟨a, txs[a], hj, rfl⟩, hidx a _⟩)
  have := hperm.length_eq
  simpa using this

/-- C16: let `packageBlock(txs)` succeed for a list of at most 2^32 transactions, in an
ordered database whose latest block is `prevBlock` and which holds no entry under the
prefix `tx::blkNum::<n>::txIdx::` of the block `n` that follows. After the call,
`FindTransactionsByBlockNum(n)` returns a list of the length of `txs` whose element at
every index `i` is `txs[i]` stamped with `BlkNum = n` and `TxIdx = i`. -/
theorem findTransactionsByBlockNum_packaged (E : Ext) (now : Nat) (s : Store)
    (txs : List ConfirmedTransaction) (r : BlockResult) (sF : Store)
    (hpk : PackageBlock E now s txs = (Except.ok r, sF))
    (prevBlock : Option Block) (hlatest : LatestBlock s = Except.ok prevBlock)
    (hlen : txs.length ≤ 2 ^ 32) (hord : StoreOrdered s)
    (hfresh : dbIterate s (txIdxPrefix (nextBlkNum prevBlock)) = []) :
    ∃ res, FindTransactionsByBlockNum sF (nextBlkNum prevBlock) = Except.ok res ∧
      res.length = txs.length ∧
      ∀ i tx, txs[i]? = some tx →
        res[i]? = some (some (stampAt tx (nextBlkNum prevBlock) i)) := by
  obtain ⟨hchar, hlenL⟩ := dbIterate_packaged hpk hlatest hlen hord hfresh
  have hlt : ∀ {j : Nat} {tx : ConfirmedTransaction}, txs[j]? = some tx → j < txs.length := by
    intro j tx hj
    rcases List.getElem?_eq_some_iff.mp hj with ⟨hlt, _⟩
    exact hlt
  obtain ⟨buf, hbuf, hblen, hball, hbmem⟩ :=
    collectBlockTransactions_positions (nextBlkNum prevBlock) txs
      (dbIterate sF (txIdxPrefix (nextBlkNum prevBlock))) [] (by
        intro p hp
        obtain ⟨j, tx, hj, hpe⟩ := (hchar p).mp hp
        exact ⟨j, tx, by have := hlt hj; omega, hj, hpe⟩)
  rw [List.nil_append] at hbuf
  have hbl : buf.length = txs.length := by rw [hblen, hlenL]
  obtain ⟨res, hres, hrlen, hget⟩ :=
    placeBlockTransactions_spec buf (List.replicate buf.length none) (by
      intro t ht
      obtain ⟨j, tx, hj, hte⟩ := hball t ht
      rw [List.length_replicate, hbl, hte]
      exact hlt hj)
  refine ⟨res, ?_, by rw [hrlen, List.length_replicate, hbl], ?_⟩
  · show findBlockTransactions (dbIterate sF (txIdxPrefix (nextBlkNum prevBlock)))
      (txIdxPrefix (nextBlkNum prevBlock)) (nextBlkNum prevBlock) = Except.ok res
    simp only [findBlockTransactions, hbuf]
    exact hres
  · intro i tx hi
    have := hget (stampAt tx (nextBlkNum prevBlock) i) (by
        intro t ht hidx
        obtain ⟨j, tx', hj, hte⟩ := hball t ht
        rw [hte] at hidx ⊢
        have hji : j = i := hidx
        subst hji
        rw [hi] at hj
        simp only [Option.some.injEq] at hj
        rw [hj])
      (Or.inl (hbmem i tx hi ((hchar _).mpr ⟨i, tx, hi, rfl⟩)))
    exact this

/-- Witness of C16: eleven deposits are packaged into block 1 of the empty database.
The iterator over `tx::blkNum::1::txIdx::` visits the key of index 10 before that of
index 2, and `FindTransactionsByBlockNum(1)` lists the eleven transactions by index. -/
theorem findTransactionsByBlockNum_packaged_witness :
    (PackageBlock demoExt 0 [] elevenDeposits).1 =
      Except.ok { MerkleRoot := [11], NumberTransactions := 11, BlockFees := 0,
                  BlockNumber := 1 } ∧
    (dbIterate storeElevenDeposits (txIdxPrefix 1)).map Prod.fst =
      ["tx::blkNum::1::txIdx::0", "tx::blkNum::1::txIdx::1", "tx::blkNum::1::txIdx::10",
       "tx::blkNum::1::txIdx::2", "tx::blkNum::1::txIdx::3", "tx::blkNum::1::txIdx::4",
       "tx::blkNum::1::txIdx::5", "tx::blkNum::1::txIdx::6", "tx::blkNum::1::txIdx::7",
       "tx::blkNum::1::txIdx::8", "tx::blkNum::1::txIdx::9"] ∧
    ∃ res, FindTransactionsByBlockNum storeElevenDeposits 1 = Except.ok res ∧
      res.length = 11 ∧
      ∀ i tx, elevenDeposits[i]? = some tx → res[i]? = some (some (stampAt tx 1 i)) :=
  ⟨by decide, by decide,
   findTransactionsByBlockNum_packaged demoExt 0 [] elevenDeposits
     { MerkleRoot := [11], NumberTransactions := 11, BlockFees := 0, BlockNumber := 1 }
     storeElevenDeposits
     (Prod.ext (by decide) rfl) none (by decide) (by decide) (by decide) (by decide)⟩

/-! ## Block numbers of a chain built from the empty database -/

/-- The latest block of a database whose pointer `block::latest` leads to a block. -/
theorem LatestBlock_of_pointer {s : Store} {key : String} {b : Block}
    (h1 : dbGet s (blockPrefixKey latestKey) = some (Value.key key))
    (h2 : dbGet s key = some (Value.block b)) : LatestBlock s = Except.ok (some b) := by
  simp [LatestBlock, dbHas, h1, dbGetRef, h2, decodeBlock, Except.map]

/-- The key `block::<part>` determines the part. -/
theorem blockPrefixKey_inj {a b : String} (h : blockPrefixKey a = blockPrefixKey b) : a = b := by
  have hd : ∀ x : String, (blockPrefixKey x).data = "block::".data ++ x.data := by
    intro x; simp [blockPrefixKey, prefixKey_data]
  have := hd a
  rw [h, hd b] at this
  exact String.ext (List.append_cancel_left this).symm

/-- The latest block of a database that holds the blocks 1 to `K`, and the number of
the block that follows. -/
theorem chain_latest {E : Ext} {K : Nat} {s : Store} (hinv : ChainInv E K s)
    (hK : K + 1 < 2 ^ 64) :
    ∃ prev, LatestBlock s = Except.ok prev ∧ nextBlkNum prev = K + 1 ∧
      (K = 0 → prev = none) ∧ (0 < K → ∃ b, prev = some b ∧ b.Header.Number = K) := by
  obtain ⟨h0, hlat, hnum, _, _⟩ := hinv
  rcases Nat.eq_zero_or_pos K with hz | hp
  · subst hz
    rw [h0 rfl]
    exact ⟨none, rfl, rfl, fun _ => rfl, fun h => absurd h (by decide)⟩
  · obtain ⟨hdr, bh, hn, hk, hb⟩ := hnum K hp (Nat.le_refl K)
    have hl := hlat hp
    rw [hk] at hl
    refine ⟨some { Header := hdr, BlockHash := bh }, LatestBlock_of_pointer hl hb, ?_,
      fun h => by omega, fun _ => ⟨_, rfl, hn⟩⟩
    simp only [nextBlkNum, hn]
    exact Nat.mod_eq_of_lt hK

/-- The block at a height of a database that holds the blocks 1 to `K`. -/
theorem chain_height {E : Ext} {K : Nat} {s : Store} (hinv : ChainInv E K s) (n : Nat)
    (h1 : 1 ≤ n) (h2 : n ≤ K) : ∃ b, BlockAtHeight s n = Except.ok b ∧ b.Header.Number = n := by
  obtain ⟨hdr, bh, hn, hk, hb⟩ := hinv.2.2.1 n h1 h2
  exact ⟨_, BlockAtHeight_of_pointer hk hb, hn⟩

/-- A successful `doPackageBlock` in a database that holds the blocks 1 to `K` leaves a
database that holds the blocks 1 to `K + 1`, provided the new block's hash key is not the
hash key of a block with another number. -/
theorem chain_step {E : Ext} {now : Nat} {s : Store} {txs : List ConfirmedTransaction}
    {r : BlockResult} {s' : Store} {K : Nat}
    (h : doPackageBlock E now s txs = (Except.ok r, s')) (hK : K + 1 < 2 ^ 64)
    (hdist : ∀ h1 h2 : BlockHeader, h1.Number ≤ K + 1 → h2.Number ≤ K + 1 →
      hexEncode (E.headerHash h1) = hexEncode (E.headerHash h2) → h1.Number = h2.Number)
    (hinv : ChainInv E K s) : ChainInv E (K + 1) s' := by
  obtain ⟨prev, hl, hnext, _, _⟩ := chain_latest hinv hK
  obtain ⟨_, hlat, hnum, hblk, _, hent, hord, hframe⟩ := doPackageBlock_written h hl
  rw [hnext] at hnum hent hframe
  have hnbn : (newBlock E prev txs).Header.Number = K + 1 := hnext
  refine ⟨fun h0 => absurd h0 (Nat.succ_ne_zero K), fun _ => by rw [hlat, hnum], ?_,
    hord hinv.2.2.2.1, ?_⟩
  · intro n h1 h2
    rcases Nat.eq_or_lt_of_le h2 with he | hlt
    · subst he
      exact ⟨(newBlock E prev txs).Header, (newBlock E prev txs).BlockHash, hnbn, hnum, hblk⟩
    · obtain ⟨hdr, bh, hn, hk, hb⟩ := hinv.2.2.1 n h1 (by omega)
      have hkey : blockPrefixKey (hexEncode (E.headerHash hdr)) ≠
          blockPrefixKey (hexEncode (newBlock E prev txs).BlockHash) := by
        intro e
        have := hdist hdr (newBlock E prev txs).Header (by omega) (by omega)
          (blockPrefixKey_inj e)
        omega
      refine ⟨hdr, bh, hn, ?_, ?_⟩
      · rw [hframe _ (Or.inr (keyTag_blockNum n))
          (ne_of_keyTag (by rw [keyTag_blockNum, keyTag_block]; decide))
          (ne_of_keyTag (by rw [keyTag_blockNum, keyTag_block]; decide))
          (fun e => by have := blockNumKey_inj e; omega)]
        exact hk
      · rw [hframe _ (Or.inl (keyTag_block _)) hkey (Ne.symm (latest_ne_blockHex _))
          (ne_of_keyTag (by rw [keyTag_blockNum, keyTag_block]; decide))]
        exact hb
  · intro p hp m hm
    rcases hent p hp with hps | hno | ⟨j, tx, _, hpe⟩
    · exact hinv.2.2.2.2 p hps m (by omega)
    · exact hno m
    · rw [hpe]
      intro hpre
      have := prefix_position hpre
      omega

/-- Every database built from the empty database by `K` successful calls holds the
blocks 1 to `K`, provided no two headers with different numbers up to `K` have the same
hash key. -/
theorem Built_inv {E : Ext} {K : Nat} {s : Store} (hb : Built E K s) :
    K < 2 ^ 64 →
    (∀ h1 h2 : BlockHeader, h1.Number ≤ K → h2.Number ≤ K →
      hexEncode (E.headerHash h1) = hexEncode (E.headerHash h2) → h1.Number = h2.Number) →
    ChainInv E K s := by
  induction hb with
  | empty =>
    intro _ _
    exact ⟨fun _ => rfl, fun h => absurd h (by decide), fun n h1 h2 => by omega,
      List.Pairwise.nil, fun p hp => by cases hp⟩
  | package now txs r s' _ hpk ih =>
    intro hK hdist
    exact chain_step hpk hK hdist
      (ih (by omega) (fun h1 h2 a b => hdist h1 h2 (by omega) (by omega)))
  | deposit now confirmed r s' _ hpd ih =>
    intro hK hdist
    unfold ProcessDeposit at hpd
    split at hpd
    · simp only [Prod.mk.injEq] at hpd
      exact absurd hpd.1 (by intro e; cases e)
    · exact chain_step hpd hK hdist
        (ih (by omega) (fun h1 h2 a b => hdist h1 h2 (by omega) (by omega)))

/-- A database built from the empty database by `K` successful calls is ordered, holds
no entry under the prefix of the positions of block `K + 1`, and has a latest block
that block `K + 1` follows: the conditions under which a packaged block is listed by
`FindTransactionsByBlockNum`. -/
theorem Built_fresh {E : Ext} {K : Nat} {s : Store} (hb : Built E K s) (hK : K + 1 < 2 ^ 64)
    (hdist : ∀ h1 h2 : BlockHeader, h1.Number ≤ K → h2.Number ≤ K →
      hexEncode (E.headerHash h1) = hexEncode (E.headerHash h2) → h1.Number = h2.Number) :
    StoreOrdered s ∧
    ∃ prev, LatestBlock s = Except.ok prev ∧ nextBlkNum prev = K + 1 ∧
      dbIterate s (txIdxPrefix (nextBlkNum prev)) = [] := by
  have hinv := Built_inv hb (by omega) hdist
  obtain ⟨prev, hl, hnext, _, _⟩ := chain_latest hinv hK
  refine ⟨hinv.2.2.2.1, prev, hl, hnext, ?_⟩
  rw [hnext, dbIterate, List.filter_eq_nil_iff]
  intro p hp hpre
  exact hinv.2.2.2.2 p hp (K + 1) (Nat.lt_succ_self K) (List.isPrefixOf_iff_prefix.mp hpre)

/-- C12: let a database be built from the empty database by `K` successful calls of
`PackageBlock` and `ProcessDeposit`, with `K + 1` below 2^63 and no two headers with
different numbers up to `K` sharing a hash key. Then `LatestBlock` returns no block when
`K` is 0 and a block with header number `K` otherwise; `BlockAtHeight(n)` returns a
block with header number `n` for every `n` from 1 to `K`; and the next successful call
of either kind reports the block number `K + 1`, so that the first block has
number 1 and each call reports the previous latest number plus one. -/
theorem built_block_numbers (E : Ext) (K : Nat) (s : Store) (hb : Built E K s)
    (hK : K + 1 < 2 ^ 63)
    (hdist : ∀ h1 h2 : BlockHeader, h1.Number ≤ K → h2.Number ≤ K →
      hexEncode (E.headerHash h1) = hexEncode (E.headerHash h2) → h1.Number = h2.Number) :
    (∃ prev, LatestBlock s = Except.ok prev ∧ (K = 0 → prev = none) ∧
      (0 < K → ∃ b, prev = some b ∧ b.Header.Number = K)) ∧
    (∀ n, 1 ≤ n → n ≤ K → ∃ b, BlockAtHeight s n = Except.ok b ∧ b.Header.Number = n) ∧
    (∀ now txs r s', PackageBlock E now s txs = (Except.ok r, s') →
      r.BlockNumber = ((K + 1 : Nat) : Int)) ∧
    (∀ now confirmed r s', ProcessDeposit E now s confirmed = (Except.ok r, s') →
      r.BlockNumber = ((K + 1 : Nat) : Int)) := by
  have hinv := Built_inv hb (by omega) hdist
  obtain ⟨prev, hl, hnext, hp0, hp1⟩ := chain_latest hinv (by omega)
  have hto : toInt64 (K + 1) = ((K + 1 : Nat) : Int) := by
    have hm : (K + 1) % 2 ^ 64 = K + 1 := Nat.mod_eq_of_lt (by omega)
    simp only [toInt64, hm, hK, if_true]
  have hnum : ∀ now txs r s', doPackageBlock E now s txs = (Except.ok r, s') →
      r.BlockNumber = ((K + 1 : Nat) : Int) := by
    intro now txs r s' h
    obtain ⟨_, _, _, _, _, hr⟩ := doPackageBlock_batch h hl
    rw [hr, hnext, hto]
  refine ⟨⟨prev, hl, hp0, hp1⟩, chain_height hinv, hnum, ?_⟩
  intro now confirmed r s' h
  unfold ProcessDeposit at h
  split at h
  · simp only [Prod.mk.injEq] at h
    exact absurd h.1 (by intro e; cases e)
  · exact hnum _ _ _ _ h

/-- Witness of C12: the database after Alice's deposit and her spend to Bob is built by
two successful calls; its latest block has number 2, the blocks at heights 1 and 2 have
these numbers, and packaging an empty list next reports block number 3. -/
theorem built_block_numbers_witness :
    Built demoExt 2 storeAfterSpend ∧
    (∃ b, LatestBlock storeAfterSpend = Except.ok (some b) ∧ b.Header.Number = 2) ∧
    (∃ b, BlockAtHeight storeAfterSpend 1 = Except.ok b ∧ b.Header.Number = 1) ∧
    (∃ b, BlockAtHeight storeAfterSpend 2 = Except.ok b ∧ b.Header.Number = 2) ∧
    (PackageBlock demoExt 0 storeAfterSpend []).1 =
      Except.ok { MerkleRoot := [0], NumberTransactions := 0, BlockFees := 0, BlockNumber := 3 } :=
  have hb : Built demoExt 2 storeAfterSpend :=
    Built.package 0 [aliceToBob]
      { MerkleRoot := [1], NumberTransactions := 1, BlockFees := 1, BlockNumber := 2 }
      storeAfterSpend
      (Built.deposit 0 aliceDeposit
        { MerkleRoot := [1], NumberTransactions := 1, BlockFees := 0, BlockNumber := 1 }
        storeAfterDeposit Built.empty (by decide))
      (by decide)
  have ht := built_block_numbers demoExt 2 storeAfterSpend hb (by decide) (by
    intro h1 h2 a b e
    have e' : hexEncode [h1.Number % 256] = hexEncode [h2.Number % 256] := e
    generalize h1.Number = x at a e' ⊢
    generalize h2.Number = y at b e' ⊢
    interval_cases x <;> interval_cases y <;> first | rfl | exact absurd e' (by decide))
  ⟨hb,
   (by
    obtain ⟨prev, hl, _, hp⟩ := ht.1
    obtain ⟨b, hpb, hn⟩ := hp (by decide)
    exact ⟨b, by rw [hl, hpb], hn⟩),
   ht.2.1 1 (by decide) (by decide), ht.2.1 2 (by decide) (by decide), by decide⟩

/-! ## Inputs, outputs and lookups at concrete inputs -/

/-- C26: an input that is not nil is the zero input exactly when its block number,
transaction index, output index and deposit nonce are all zero, whatever its owner;
the nil input is a zero input; and `ZeroInput()` is a zero input. -/
theorem isZeroInput_iff :
    (∀ i : Input, IsZeroInput (some i) = true ↔
      i.BlkNum = 0 ∧ i.TxIdx = 0 ∧ i.OutIdx = 0 ∧ i.DepositNonce = 0) ∧
    IsZeroInput none = true ∧ IsZeroInput (some ZeroInput) = true := by
  refine ⟨fun i => ?_, rfl, by decide⟩
  simp [IsZeroInput, Zero, and_assoc]

/-- C25 (the code at failing inputs): `NewOutput` keeps the owner, but an amount of
2^63 becomes the denomination -2^63, an amount of 2^255 becomes 0, and a deposit
nonce of 2^64 + 3 becomes 3; amounts below 2^63 are kept. -/
theorem newOutput_truncates :
    (NewOutput alice (2 ^ 63) 7).Owner = alice ∧
    (NewOutput alice (2 ^ 63) 7).Denom = -(2 ^ 63) ∧
    (NewOutput alice (2 ^ 255) 7).Denom = 0 ∧
    (NewOutput alice 5 (2 ^ 64 + 3)).DepositNonce = 3 ∧
    (NewOutput alice (2 ^ 63 - 1) 7).Denom = 2 ^ 63 - 1 := by
  decide

/-- C24 (the code at a failing input): Alice's deposit with deposit nonce 7 is stored at
position (1, 0) under the key `tx::deposit::7::1::0`, and
`findTransactionByDepositNonce(7)` returns an error: the key has five parts
between its separators, not four. -/
theorem findTransactionByDepositNonce_rejects_key :
    FindTransactionByBlockNumTxIdx storeAfterDeposit 1 0 = Except.ok (some depositAt1) ∧
    dbGet storeAfterDeposit "tx::deposit::7::1::0" = some (encodeConfirmed depositAt1) ∧
    (splitParts [] false "tx::deposit::7::1::0".data).map String.mk =
      ["tx", "deposit", "7", "1", "0"] ∧
    findTransactionByDepositNonce storeAfterDeposit 7 =
      Except.error
        (Err.msg "Failed to parse deposit transaction position from key tx::deposit::7::1::0") := by
  decide

/-- C29 (the code at a failing input): with a single entry under the prefix of block 1,
at index 5, `FindTransactionsByBlockNum(1)` makes a slice of one element and assigns
to its index 5, which is a panic. -/
theorem findTransactionsByBlockNum_sparse_panics :
    dbIterate storeSparse (txIdxPrefix 1) =
      [(blkNumTxIdxKey 1 5, encodeConfirmed aliceDeposit)] ∧
    FindTransactionsByBlockNum storeSparse 1 =
      Except.error (Err.panic "index out of range") := by
  decide

/-- C30 (the code at failing inputs): starting from the empty mempool, a request with
Alice's deposit is admitted and records the outpoint string `0:0:0` of its zero
input. After `FlushDeposit` both pools are empty and `poolSpends` still holds `0:0:0`.
And when the spend to Bob is admitted next to the deposit, `FlushSpends` empties
`poolSpends` while the deposit is still resident, and the following `FlushDeposit`
hands out the deposit. -/
theorem poolSpends_not_resident_set :
    poolAfterDeposit =
      { txPool := [], depositPool := [{ Tx := aliceDeposit, Response := 0 }],
        poolSpends := {"0:0:0"} } ∧
    residentOutpoints poolAfterDeposit = ∅ ∧
    (Mempool.FlushDeposit poolAfterDeposit).1 =
      { txPool := [], depositPool := [], poolSpends := {"0:0:0"} } ∧
    residentOutpoints (Mempool.FlushDeposit poolAfterDeposit).1 = ∅ ∧
    (Mempool.Append demoExt storeAfterDeposit poolAfterDeposit { tx := aliceToBob, res := 1 }).1 =
      { txPool := [{ Tx := aliceToBob, Response := 1 }],
        depositPool := [{ Tx := aliceDeposit, Response := 0 }],
        poolSpends := {"1:0:0", "0:0:0"} } ∧
    residentOutpoints
      (Mempool.Append demoExt storeAfterDeposit poolAfterDeposit
        { tx := aliceToBob, res := 1 }).1 = {"1:0:0"} ∧
    (Mempool.FlushSpends
      (Mempool.Append demoExt storeAfterDeposit poolAfterDeposit
        { tx := aliceToBob, res := 1 }).1).1 =
      { txPool := [], depositPool := [{ Tx := aliceDeposit, Response := 0 }],
        poolSpends := ∅ } := by
  decide

/-! ## Packaging: counts and fees -/

/-- The fees after a successful loop of `doPackageBlock`: the fees before plus the fees
of the transactions. -/
theorem packageLoop_fees (E : Ext) (n : Nat) :
    ∀ (txs : List ConfirmedTransaction) (i : Nat) (s : Store) (batch : Batch) (fees : Int)
      (bF : Batch) (fF : Int) (sF : Store),
      packageLoop E n txs i s batch fees = (Except.ok (bF, fF), sF) →
      fF = fees + (txs.map fun t => t.Transaction.Fee).sum := by
  intro txs
  induction txs with
  | nil =>
    intro i s batch fees bF fF sF h
    simp only [packageLoop, Prod.mk.injEq, Except.ok.injEq] at h
    simp [h.1.2]
  | cons tx rest ih =>
    intro i s batch fees bF fF sF h
    simp only [packageLoop] at h
    split at h
    · simp only [Prod.mk.injEq] at h
      exact absurd h.1 (by intro e; cases e)
    · rw [ih _ _ _ _ _ _ _ h]
      simp [add_assoc]

/-- The result of a successful `doPackageBlock`, and the database it leaves: the loop
started with the header batch, followed by the write of the batch extended with the
fee and metadata entries. -/
theorem doPackageBlock_result {E : Ext} {now : Nat} {s : Store}
    {txs : List ConfirmedTransaction} {r : BlockResult} {sF : Store}
    (h : doPackageBlock E now s txs = (Except.ok r, sF))
    {prevBlock : Option Block} (hl : LatestBlock s = Except.ok prevBlock) :
    ∃ (bL : Batch) (fL : Int) (sL : Store),
      packageLoop E (nextBlkNum prevBlock) txs 0 s (headerBatch E prevBlock txs) 0 =
        (Except.ok (bL, fL), sL) ∧
      sF = dbWrite sL (bL ++ tailBatch now (nextBlkNum prevBlock) txs.length fL) ∧
      r = { MerkleRoot := E.merkleRoot (packageHashables txs),
            NumberTransactions := txs.length % 2 ^ 32,
            BlockFees := fL,
            BlockNumber := toInt64 (nextBlkNum prevBlock) } := by
  unfold doPackageBlock at h
  rw [hl] at h
  simp only [batchPut, List.nil_append] at h
  split at h
  · simp only [Prod.mk.injEq] at h
    exact absurd h.1 (by intro e; cases e)
  · rename_i bL fL sL hloop
    simp only [Prod.mk.injEq, Except.ok.injEq] at h
    obtain ⟨hr, hsF⟩ := h
    refine ⟨bL, fL, sL, hloop, ?_, hr.symm⟩
    rw [← hsF]
    simp only [tailBatch, List.append_assoc, List.singleton_append]

/-- C23: let `packageBlock(txs)` succeed for a list of fewer than 2^32 transactions
with non-negative fees, in a database whose latest block is `prevBlock`, and let `n` be
the number of the block that follows. The result has `NumberTransactions = len(txs)`
and `BlockFees` the sum of the fees; the big-endian bytes of that sum are stored under
`blockFees::<n>`, and the metadata stored under `blockMeta::<n>` holds the count
`len(txs)` and the same sum. -/
theorem package_counts_and_fees (E : Ext) (now : Nat) (s : Store)
    (txs : List ConfirmedTransaction) (r : BlockResult) (sF : Store)
    (hpk : PackageBlock E now s txs = (Except.ok r, sF))
    (prevBlock : Option Block) (hlatest : LatestBlock s = Except.ok prevBlock)
    (hlen : txs.length < 2 ^ 32) (hfee : ∀ tx ∈ txs, 0 ≤ tx.Transaction.Fee) :
    r.NumberTransactions = txs.length ∧
    r.BlockFees = (txs.map fun t => t.Transaction.Fee).sum ∧
    (∃ total : Nat, (total : Int) = (txs.map fun t => t.Transaction.Fee).sum ∧
      dbGet sF (blockFeesKey (nextBlkNum prevBlock)) = some (Value.bigBytes total)) ∧
    dbGet sF (blockMetaPrefixKey (nextBlkNum prevBlock)) =
      some (Value.meta { CreatedAt := now, TransactionCount := txs.length,
                         Fees := (txs.map fun t => t.Transaction.Fee).sum }) := by
  obtain ⟨bL, fL, sL, hloop, hsF, hr⟩ := doPackageBlock_result hpk hlatest
  have hfL := packageLoop_fees E _ _ _ _ _ _ _ _ _ hloop
  rw [zero_add] at hfL
  have hmod : txs.length % 2 ^ 32 = txs.length := Nat.mod_eq_of_lt hlen
  have hnn : 0 ≤ (txs.map fun t => t.Transaction.Fee).sum := by
    apply List.sum_nonneg
    intro x hx
    obtain ⟨t, ht, rfl⟩ := List.mem_map.mp hx
    exact hfee t ht
  refine ⟨by rw [hr, hmod], by rw [hr, hfL], ⟨fL.natAbs, ?_, ?_⟩, ?_⟩
  · rw [hfL]
    exact Int.natAbs_of_nonneg hnn
  · rw [hsF]
    exact dbGet_dbWrite_last sL bL [_] _ _ (by
      intro p hp
      rw [List.mem_singleton.mp hp]
      exact ne_of_keyTag (by rw [keyTag_blockMeta, keyTag_blockFees]; decide))
  · rw [hsF]
    have e : bL ++ tailBatch now (nextBlkNum prevBlock) txs.length fL =
        (bL ++ [(blockFeesKey (nextBlkNum prevBlock), Value.bigBytes fL.natAbs)]) ++
          (blockMetaPrefixKey (nextBlkNum prevBlock),
            Value.meta { CreatedAt := now, TransactionCount := txs.length,
                         Fees := (txs.map fun t => t.Transaction.Fee).sum }) :: [] := by
      simp only [tailBatch, hmod, hfL, List.append_assoc, List.singleton_append]
    rw [e]
    exact dbGet_dbWrite_last sL _ [] _ _ (fun p hp => by cases hp)

/-- Witness of C23: after the deposits of Alice and Bob, two spends with fees 1 and 0
are packaged into block 3. -/
theorem package_counts_and_fees_witness :
    PackageBlock leafExt 0 storeTwoDeposits [aliceToBob, bobToCarol] =
      (Except.ok { MerkleRoot := [244, 244], NumberTransactions := 2, BlockFees := 1,
                   BlockNumber := 3 },
       (PackageBlock leafExt 0 storeTwoDeposits [aliceToBob, bobToCarol]).2) ∧
    dbGet (PackageBlock leafExt 0 storeTwoDeposits [aliceToBob, bobToCarol]).2
        (blockMetaPrefixKey 3) =
      some (Value.meta { CreatedAt := 0, TransactionCount := 2, Fees := 1 }) :=
  ⟨by decide,
   (package_counts_and_fees leafExt 0 storeTwoDeposits [aliceToBob, bobToCarol]
     { MerkleRoot := [244, 244], NumberTransactions := 2, BlockFees := 1, BlockNumber := 3 }
     (PackageBlock leafExt 0 storeTwoDeposits [aliceToBob, bobToCarol]).2 (by decide)
     (some ⟨⟨[244], [], [1], 2⟩, [2]⟩) (by decide) (by decide) (by decide)).2.2.2⟩

/-! ## Packaging: where the spend of an input is recorded -/

/-- The records appended by `recordEarns` are under the deposit key or an earn key. -/
theorem recordEarns_tags {c : ConfirmedTransaction} {txEnc : Value} {batch batch1 : Batch}
    (h : recordEarns c txEnc batch = Except.ok batch1) :
    ∃ extra, batch1 = batch ++ extra ∧
      ∀ p ∈ extra, keyTag p.1 = "tx::de".data ∨ keyTag p.1 = "earn::".data := by
  unfold recordEarns at h
  simp only [bind, Except.bind, pure, Except.pure, Transaction.OutputAt, batchPut, if_true,
    one_ne_zero, if_false] at h
  have key : ∀ (b0 : Batch) (ex0 : Batch), b0 = batch ++ ex0 →
      (∀ p ∈ ex0, keyTag p.1 = "tx::de".data ∨ keyTag p.1 = "earn::".data) →
      (if (!IsZeroOutput (some c.Transaction.Output1)) = true then
          Except.ok (b0 ++ [(earn c.Transaction.Output1.Owner c 1, Value.empty)])
        else (Except.ok b0 : Except Err Batch)) = Except.ok batch1 →
      ∃ extra, batch1 = batch ++ extra ∧
        ∀ p ∈ extra, keyTag p.1 = "tx::de".data ∨ keyTag p.1 = "earn::".data := by
    intro b0 ex0 hb0 hex0 h2
    split at h2
    · simp only [Except.ok.injEq] at h2
      refine ⟨ex0 ++ [(earn c.Transaction.Output1.Owner c 1, Value.empty)], ?_, ?_⟩
      · rw [← h2, hb0, List.append_assoc]
      · intro p hp
        rcases List.mem_append.mp hp with hp | hp
        · exact hex0 p hp
        · rw [List.mem_singleton.mp hp]; exact Or.inr (keyTag_earn _ _ _)
    · simp only [Except.ok.injEq] at h2
      exact ⟨ex0, by rw [← h2, hb0], hex0⟩
  by_cases hz0 : (!IsZeroOutput (some c.Transaction.Output0)) = true
  · simp only [hz0, if_true] at h
    by_cases hd : Output.IsDeposit (some c.Transaction.Output0) = true
    · simp only [hd, if_true] at h
      refine key _ [(depositKey c, txEnc), (earn c.Transaction.Output0.Owner c 0, Value.empty)]
        (by simp) ?_ h
      intro p hp
      simp only [List.mem_cons, List.mem_singleton, List.not_mem_nil, or_false] at hp
      rcases hp with hp | hp
      · rw [hp]; exact Or.inl (keyTag_deposit _)
      · rw [hp]; exact Or.inr (keyTag_earn _ _ _)
    · simp only [hd, if_false] at h
      refine key _ [(earn c.Transaction.Output0.Owner c 0, Value.empty)] (by simp) ?_ h
      intro p hp
      rw [List.mem_singleton.mp hp]; exact Or.inr (keyTag_earn _ _ _)
  · simp only [hz0, if_false] at h
    exact key _ [] (by simp) (fun p hp => by cases hp) h

/-- C28: let `saveTransaction` succeed at position `(n, i)` for a transaction whose
`input0` is not the zero input. The previous transaction of `input0` was found, and
with `out` the output that `input0` consumes: if `output0` is an exit output, the
spend identifier is put under the exit-spend key of `(out.Owner, input0)`, and the only
put under a spend key is the record of a non-zero `input1`; otherwise the identifier is
put under the spend key of `(out.Owner, input0)` and nothing is put under an
exit-spend key. A non-zero `input1` is recorded under the spend key of the owner of
the output it consumes. -/
theorem saveTransaction_spend_records (E : Ext) (s : Store) (n i : Nat)
    (tx : ConfirmedTransaction) (batch : Batch) (c : ConfirmedTransaction) (s1 : Store)
    (batch1 : Batch) (h : saveTransaction E s n i tx batch = Except.ok (c, s1, batch1))
    (hz0 : IsZeroInput (some tx.Transaction.Input0) = false) :
    ∃ prev bh out extra,
      findTransactionByBlockNumTxIdx s tx.Transaction.Input0.BlkNum
        tx.Transaction.Input0.TxIdx = Except.ok (some (prev, bh)) ∧
      prev.Transaction.OutputAt tx.Transaction.Input0.OutIdx = Except.ok out ∧
      batch1 = batch ++ extra ∧
      (IsExit E (some tx.Transaction.Output0) = true →
        (spendExit out.Owner tx.Transaction.Input0,
          Value.ident { BlockNumber := n, TransactionIndex := i, InputIndex := 1 }) ∈ extra ∧
        ∀ p ∈ extra, keyTag p.1 = "spend:".data →
          IsZeroInput (some tx.Transaction.Input1) = false ∧
          ∃ prev1 bh1 out1,
            findTransactionByBlockNumTxIdx s tx.Transaction.Input1.BlkNum
              tx.Transaction.Input1.TxIdx = Except.ok (some (prev1, bh1)) ∧
            prev1.Transaction.OutputAt tx.Transaction.Input1.OutIdx = Except.ok out1 ∧
            p.1 = spend out1.Owner tx.Transaction.Input1) ∧
      (IsExit E (some tx.Transaction.Output0) = false →
        (spend out.Owner tx.Transaction.Input0,
          Value.ident { BlockNumber := n, TransactionIndex := i, InputIndex := 1 }) ∈ extra ∧
        ∀ p ∈ extra, keyTag p.1 ≠ "spendE".data) ∧
      (IsZeroInput (some tx.Transaction.Input1) = false →
        ∃ prev1 bh1 out1,
          findTransactionByBlockNumTxIdx s tx.Transaction.Input1.BlkNum
            tx.Transaction.Input1.TxIdx = Except.ok (some (prev1, bh1)) ∧
          prev1.Transaction.OutputAt tx.Transaction.Input1.OutIdx = Except.ok out1 ∧
          (spend out1.Owner tx.Transaction.Input1,
            Value.ident { BlockNumber := n, TransactionIndex := i, InputIndex := 1 }) ∈
              extra) := by
  unfold saveTransaction at h
  simp only [bind, Except.bind, pure, Except.pure, batchPut] at h
  split at h
  · cases h
  · rename_i bA hA
    split at h
    · cases h
    · rename_i bB hB
      split at h
      · cases h
      · rename_i bC hC
        simp only [Except.ok.injEq, Prod.mk.injEq] at h
        obtain ⟨_, _, hb1⟩ := h
        subst hb1
        obtain ⟨exC, hexC, hCtag⟩ := recordEarns_tags hC
        obtain ⟨p1, p2, p3, hA2, hp1, hp2, hp3⟩ : ∃ p1 p2 p3 : String × Value,
            recordSpend0 E s n i (stampAt tx n i) (batch ++ [p1] ++ [p2] ++ [p3]) =
              Except.ok bA ∧
            keyTag p1.1 = "tx::ha".data ∧ keyTag p2.1 = "tx::bl".data ∧
            keyTag p3.1 = "tx::bl".data :=
          ⟨_, _, _, hA, keyTag_hash _, keyTag_blkNumHash _ _, keyTag_blkNumTxIdx _ _⟩
        rcases recordSpend0_ok hA2 with ⟨hz, _⟩ | ⟨_, prev, bh, out, hf, ho, eA⟩
        · rw [show IsZeroInput (some (stampAt tx n i).Transaction.Input0) =
            IsZeroInput (some tx.Transaction.Input0) from rfl, hz0] at hz
          cases hz
        · have hB' := recordSpend1_ok hB
          -- the record of `input1`, if any
          obtain ⟨rec1, hrec1, hcase1⟩ : ∃ rec1 : Batch, bB = bA ++ rec1 ∧
              ((IsZeroInput (some tx.Transaction.Input1) = true ∧ rec1 = []) ∨
               (IsZeroInput (some tx.Transaction.Input1) = false ∧ ∃ prev1 bh1 out1,
                  findTransactionByBlockNumTxIdx s tx.Transaction.Input1.BlkNum
                    tx.Transaction.Input1.TxIdx = Except.ok (some (prev1, bh1)) ∧
                  prev1.Transaction.OutputAt tx.Transaction.Input1.OutIdx = Except.ok out1 ∧
                  rec1 = [(spend out1.Owner tx.Transaction.Input1,
                    Value.ident { BlockNumber := n, TransactionIndex := i,
                                  InputIndex := 1 })])) := by
            rcases hB' with ⟨hz, e⟩ | ⟨hz, prev1, bh1, out1, hf1, ho1, e⟩
            · exact ⟨[], by rw [e, List.append_nil], Or.inl ⟨hz, rfl⟩⟩
            · exact ⟨_, e, Or.inr ⟨hz, prev1, bh1, out1, hf1, ho1, rfl⟩⟩
          refine ⟨prev, bh, out,
            [p1] ++ [p2] ++ [p3] ++
              [(if IsExit E (some tx.Transaction.Output0) then
                  spendExit out.Owner tx.Transaction.Input0
                else spend out.Owner tx.Transaction.Input0,
                Value.ident { BlockNumber := n, TransactionIndex := i, InputIndex := 1 })] ++
              rec1 ++ exC, hf, ho, ?_, ?_, ?_, ?_⟩
          · rw [hexC, hrec1, eA]
            simp only [List.append_assoc]
            rfl
          · intro hexit
            simp only [hexit, if_true]
            refine ⟨by simp, ?_⟩
            intro p hp htag
            simp only [List.mem_append, List.mem_singleton] at hp
            rcases hp with ((((hp | hp) | hp) | hp) | hp) | hp
            · rw [hp, hp1] at htag; exact absurd htag (by decide)
            · rw [hp, hp2] at htag; exact absurd htag (by decide)
            · rw [hp, hp3] at htag; exact absurd htag (by decide)
            · rw [hp, keyTag_spendExit] at htag; exact absurd htag (by decide)
            · rcases hcase1 with ⟨_, e⟩ | ⟨hz, prev1, bh1, out1, hf1, ho1, e⟩
              · rw [e] at hp; cases hp
              · rw [e, List.mem_singleton] at hp
                exact ⟨hz, prev1, bh1, out1, hf1, ho1, by rw [hp]⟩
            · rcases hCtag p hp with e | e <;> rw [e] at htag <;> exact absurd htag (by decide)
          · intro hexit
            simp only [hexit, Bool.false_eq_true, if_false]
            refine ⟨by simp, ?_⟩
            intro p hp
            simp only [List.mem_append, List.mem_singleton] at hp
            rcases hp with ((((hp | hp) | hp) | hp) | hp) | hp
            · rw [hp, hp1]; decide
            · rw [hp, hp2]; decide
            · rw [hp, hp3]; decide
            · rw [hp, keyTag_spend]; decide
            · rcases hcase1 with ⟨_, e⟩ | ⟨hz, prev1, bh1, out1, hf1, ho1, e⟩
              · rw [e] at hp; cases hp
              · rw [e, List.mem_singleton] at hp
                rw [hp, keyTag_spend]; decide
            · rcases hCtag p hp with e | e <;> rw [e] <;> decide
          · intro hz1
            rcases hcase1 with ⟨hz, _⟩ | ⟨_, prev1, bh1, out1, hf1, ho1, e⟩
            · rw [hz1] at hz; cases hz
            · exact ⟨prev1, bh1, out1, hf1, ho1, by rw [e]; simp⟩

/-- Witness of C28: the spend to Bob is saved at position (2, 0) in the database after
Alice's deposit. Its `output0` is not an exit output: the spend identifier is put under
the spend key of Alice and `input0`, and nothing is put under an exit-spend key. -/
theorem saveTransaction_spend_records_witness :
    saveTransaction demoExt storeAfterDeposit 2 0 aliceToBob [] = Except.ok savedSpend ∧
    (spend alice aliceToBob.Transaction.Input0,
      Value.ident { BlockNumber := 2, TransactionIndex := 0, InputIndex := 1 }) ∈
        savedSpend.2.2 ∧
    ∀ p ∈ savedSpend.2.2, keyTag p.1 ≠ "spendE".data := by
  have h : saveTransaction demoExt storeAfterDeposit 2 0 aliceToBob [] =
      Except.ok (savedSpend.1, savedSpend.2.1, savedSpend.2.2) := by decide
  obtain ⟨prev, bh, out, extra, hf, ho, hb, _, hnon, _⟩ :=
    saveTransaction_spend_records demoExt storeAfterDeposit 2 0 aliceToBob [] _ _ _ h
      (by decide)
  have e1 : Except.ok (some (prev, bh)) = Except.ok (some (depositAt1, [1])) :=
    hf.symm.trans (by decide)
  simp only [Except.ok.injEq, Option.some.injEq, Prod.mk.injEq] at e1
  obtain ⟨rfl, _⟩ := e1
  have e2 : Except.ok out =
      Except.ok ({ Owner := alice, Denom := 1000, DepositNonce := 7 } : Output) :=
    ho.symm.trans (by decide)
  simp only [Except.ok.injEq] at e2
  subst e2
  have hb' : savedSpend.2.2 = extra := by simpa using hb
  obtain ⟨hin, hno⟩ := hnon (by decide)
  exact ⟨h, hb' ▸ hin, fun p hp => hno p (hb' ▸ hp)⟩

/-! ## Confirmations and cursors -/

/-- The tag of a key `auth::...`. -/
theorem keyTag_auth (n i : Nat) : keyTag (blkNumTxIdxAuthSigKey n i) = "auth::".data := by
  simp [keyTag, blkNumTxIdxAuthSigKey, prefixKey_data]

/-- The key `auth::<n>::<i>` determines the position. -/
theorem blkNumTxIdxAuthSigKey_inj {n i a b : Nat}
    (h : blkNumTxIdxAuthSigKey n i = blkNumTxIdxAuthSigKey a b) : n = a ∧ i = b := by
  have hd : ∀ x y, (blkNumTxIdxAuthSigKey x y).data =
      'a' :: 'u' :: 't' :: 'h' :: ':' :: ':' ::
        ((toString x).data ++ ':' :: ':' :: (toString y).data) := by
    intro x y; simp [blkNumTxIdxAuthSigKey, prefixKey_data]
  have := hd n i
  rw [h, hd a b] at this
  simp only [List.cons.injEq, true_and] at this
  obtain ⟨h1, h2⟩ := colon_split _ _ _ _ (repr_no_colon a) (repr_no_colon n) this
  simp only [List.cons.injEq, true_and] at h2
  constructor
  · rw [← digitsValue_repr a, ← digitsValue_repr n, h1]
  · rw [← digitsValue_repr b, ← digitsValue_repr i, h2]

/-- The entries of the database after the loop of `doPackageBlock`, whether it
succeeded or failed: entries from before and entries under keys with the tags of
packaging; the batch of a successful loop holds such entries only. -/
theorem packageLoop_entries (E : Ext) (n : Nat) :
    ∀ (txs : List ConfirmedTransaction) (i : Nat) (s : Store) (batch : Batch) (fees : Int)
      (res : Except Err (Batch × Int)) (sF : Store),
      packageLoop E n txs i s batch fees = (res, sF) →
      (∀ p ∈ batch, keyTag p.1 ∈ packTags) →
      (∀ p ∈ sF, p ∈ s ∨ keyTag p.1 ∈ packTags) ∧
      (∀ bF fF, res = Except.ok (bF, fF) → ∀ p ∈ bF, keyTag p.1 ∈ packTags) := by
  intro txs
  induction txs with
  | nil =>
    intro i s batch fees res sF h hb
    simp only [packageLoop, Prod.mk.injEq] at h
    obtain ⟨hr, hs⟩ := h
    subst hs
    refine ⟨fun p hp => Or.inl hp, ?_⟩
    intro bF fF e
    rw [← hr] at e
    simp only [Except.ok.injEq, Prod.mk.injEq] at e
    rw [← e.1]
    exact hb
  | cons tx rest ih =>
    intro i s batch fees res sF h hb
    simp only [packageLoop] at h
    split at h
    · simp only [Prod.mk.injEq] at h
      obtain ⟨hr, hs⟩ := h
      subst hs
      refine ⟨fun p hp => Or.inl hp, ?_⟩
      intro bF fF e
      rw [← hr] at e
      cases e
    · rename_i c1 s1 batch1 hsave
      obtain ⟨_, hs1, pre, post, hb1, hpre, hpost⟩ := saveTransaction_shape hsave
      have hside : ∀ {k : String}, TxSideKey k → keyTag k ∈ packTags := by
        intro k hk
        have := txSideKey_tag hk
        revert this
        generalize keyTag k = t
        intro ht
        simp only [List.mem_cons, List.mem_singleton, List.not_mem_nil, or_false] at ht
        rcases ht with e | e | e | e | e | e <;> rw [e] <;> decide
      have hb1' : ∀ p ∈ batch1, keyTag p.1 ∈ packTags := by
        intro p hp
        rw [hb1] at hp
        rcases List.mem_append.mp hp with hp | hp
        · exact hb p hp
        · rcases List.mem_append.mp hp with hp | hp
          · exact hside (hpre p hp)
          · rcases List.mem_cons.mp hp with hp | hp
            · rw [hp, keyTag_positionEntry]; decide
            · exact hside (hpost p hp)
      obtain ⟨hmem, hres⟩ := ih _ _ _ _ _ _ h hb1'
      refine ⟨?_, hres⟩
      intro p hp
      rcases hmem p hp with hp | hp
      · rw [hs1] at hp
        rcases mem_dbWrite _ _ hp with hp | hp
        · exact Or.inl hp
        · exact Or.inr (hb1' p hp)
      · exact Or.inr hp

/-- The entries of the database after `doPackageBlock`, whether it succeeded or
failed: entries from before and entries under keys with the tags of packaging. -/
theorem doPackageBlock_entries (E : Ext) (now : Nat) (s : Store)
    (txs : List ConfirmedTransaction) :
    ∀ p ∈ (doPackageBlock E now s txs).2, p ∈ s ∨ keyTag p.1 ∈ packTags := by
  intro p hp
  unfold doPackageBlock at hp
  split at hp
  · exact Or.inl hp
  · rename_i prevBlock hl
    simp only [batchPut, List.nil_append] at hp
    have hH : ∀ q ∈ headerBatch E prevBlock txs, keyTag q.1 ∈ packTags := by
      intro q hq
      simp only [headerBatch, List.mem_cons, List.mem_singleton, List.not_mem_nil,
        or_false] at hq
      rcases hq with hq | hq | hq | hq
      · rw [hq, keyTag_merkle]; decide
      · rw [hq, keyTag_block]; decide
      · rw [hq, keyTag_block]; decide
      · rw [hq, keyTag_blockNum]; decide
    split at hp
    · rename_i e s1 hloop
      exact (packageLoop_entries E _ _ _ _ _ _ _ _ hloop hH).1 p hp
    · rename_i bL fL s1 hloop
      obtain ⟨hmem, hres⟩ := packageLoop_entries E _ _ _ _ _ _ _ _ hloop hH
      rcases mem_dbWrite _ _ hp with hp | hp
      · exact hmem p hp
      · right
        simp only [List.mem_append, List.mem_singleton] at hp
        rcases hp with (hp | hp) | hp
        · exact hres bL fL rfl p hp
        · rw [hp, keyTag_blockFees]; decide
        · rw [hp, keyTag_blockMeta]; decide

/-- The tag of the key of a cursor is not a tag of packaging and not the tag of the
`auth::` keys. -/
theorem keyTag_cursor (cur : Cursor) :
    keyTag cur.key ∉ packTags ∧ keyTag cur.key ≠ "auth::".data := by
  cases cur <;> decide

/-- The key of a cursor determines the cursor. -/
theorem cursorKey_inj {a b : Cursor} (h : a.key = b.key) : a = b := by
  revert h
  cases a <;> cases b <;> decide

/-- The entries of a database reached by the writing methods of the storage: each is
under a key with a tag of packaging, under the `auth::` key of a confirmed position,
or under the key of a saved cursor. -/
theorem Ledger_entries {E : Ext} {s : Store} {c : List (Nat × Nat)} {k : List Cursor}
    (h : Ledger E s c k) :
    ∀ p ∈ s, keyTag p.1 ∈ packTags ∨ (∃ q ∈ c, p.1 = blkNumTxIdxAuthSigKey q.1 q.2) ∨
      ∃ cur ∈ k, p.1 = cur.key := by
  induction h with
  | empty => intro p hp; cases hp
  | package now txs _ ih =>
    intro p hp
    rcases doPackageBlock_entries E now _ txs p hp with hp | hp
    · exact ih p hp
    · exact Or.inl hp
  | deposit now confirmed _ ih =>
    intro p hp
    unfold ProcessDeposit at hp
    split at hp
    · exact ih p hp
    · rcases doPackageBlock_entries E now _ _ p hp with hp | hp
      · exact ih p hp
      · exact Or.inl hp
  | confirm n i sigs r s' _ hc ih =>
    intro p hp
    unfold ConfirmTransaction at hc
    split at hc
    · simp only [Prod.mk.injEq] at hc
      exact absurd hc.1 (by intro e; cases e)
    · simp only [Prod.mk.injEq] at hc
      rw [← hc.2] at hp
      rcases mem_dbWrite _ _ hp with hp | hp
      · rcases ih p hp with h1 | ⟨q, hq, h2⟩ | h3
        · exact Or.inl h1
        · exact Or.inr (Or.inl ⟨q, List.mem_cons_of_mem _ hq, h2⟩)
        · exact Or.inr (Or.inr h3)
      · simp only [batchPut, List.nil_append, List.mem_singleton] at hp
        exact Or.inr (Or.inl ⟨(n, i), List.mem_cons_self _ _, by rw [hp]⟩)
  | @cursor s0 c0 k0 cur idx _ ih =>
    intro p hp
    have hp' : p ∈ dbPut s0 cur.key (uint64ToBytes idx) := by
      cases cur <;> exact hp
    rcases mem_dbPut hp' with hp' | hp'
    · exact Or.inr (Or.inr ⟨cur, List.mem_cons_self _ _, by rw [hp']⟩)
    · rcases ih p hp' with h1 | h2 | ⟨q, hq, h3⟩
      · exact Or.inl h1
      · exact Or.inr (Or.inl h2)
      · exact Or.inr (Or.inr ⟨q, List.mem_cons_of_mem _ hq, h3⟩)

/-- C21: after a successful `ConfirmTransaction(n, i, sigs)`, `AuthSigsFor(n, i)` returns
`sigs`; and in every database reached from the empty one by the writing methods of the
storage, `AuthSigsFor(n, i)` fails with "no auth sigs found" for every position
`(n, i)` that no successful `ConfirmTransaction` was called for. -/
theorem authSigsFor_confirmed (E : Ext) :
    (∀ (s : Store) (n i : Nat) (sigs : Signature × Signature)
        (r : Option ConfirmedTransaction) (s' : Store),
      ConfirmTransaction s n i sigs = (Except.ok r, s') →
        AuthSigsFor s' n i = Except.ok sigs) ∧
    (∀ (s : Store) (c : List (Nat × Nat)) (k : List Cursor) (n i : Nat),
      Ledger E s c k → (n, i) ∉ c →
        AuthSigsFor s n i = Except.error (Err.msg "no auth sigs found")) := by
  constructor
  · intro s n i sigs r s' h
    unfold ConfirmTransaction at h
    split at h
    · simp only [Prod.mk.injEq] at h
      exact absurd h.1 (by intro e; cases e)
    · simp only [Prod.mk.injEq] at h
      have hg : dbGet s' (blkNumTxIdxAuthSigKey n i) = some (Value.sigs sigs.1 sigs.2) := by
        rw [← h.2]
        exact dbGet_dbWrite_last s [] [] _ _ (fun p hp => by cases hp)
      simp [AuthSigsFor, dbHas, hg, decodeSigs]
  · intro s c k n i hL hn
    have hg : dbGet s (blkNumTxIdxAuthSigKey n i) = none := by
      cases hv : dbGet s (blkNumTxIdxAuthSigKey n i) with
      | none => rfl
      | some v =>
        exfalso
        rcases Ledger_entries hL _ (mem_of_dbGet hv) with h1 | ⟨q, hq, h2⟩ | ⟨cur, _, h3⟩
        · rw [keyTag_auth] at h1
          exact absurd h1 (by decide)
        · obtain ⟨e1, e2⟩ := blkNumTxIdxAuthSigKey_inj h2
          apply hn
          have : (n, i) = q := Prod.ext e1 e2
          rw [this]
          exact hq
        · have := (keyTag_cursor cur).2
          rw [← h3, keyTag_auth] at this
          exact this rfl
    simp [AuthSigsFor, dbHas, hg]

/-- Witness of C21: the database after Alice's deposit and her spend to Bob is reached
without a confirmation, so that `AuthSigsFor(2, 0)` fails; after
`ConfirmTransaction(2, 0, (alice, bob))` it returns the two signatures. -/
theorem authSigsFor_confirmed_witness :
    Ledger demoExt storeAfterSpend [] [] ∧
    AuthSigsFor storeAfterSpend 2 0 = Except.error (Err.msg "no auth sigs found") ∧
    (ConfirmTransaction storeAfterSpend 2 0 (alice, bob)).1 = Except.ok (some spendAt2) ∧
    AuthSigsFor (ConfirmTransaction storeAfterSpend 2 0 (alice, bob)).2 2 0 =
      Except.ok (alice, bob) :=
  have hL : Ledger demoExt storeAfterSpend [] [] :=
    Ledger.package 0 [aliceToBob] (Ledger.deposit 0 aliceDeposit Ledger.empty)
  ⟨hL, (authSigsFor_confirmed demoExt).2 storeAfterSpend [] [] 2 0 hL (by decide), by decide,
   (authSigsFor_confirmed demoExt).1 storeAfterSpend 2 0 (alice, bob) (some spendAt2)
     (ConfirmTransaction storeAfterSpend 2 0 (alice, bob)).2 (Prod.ext (by decide) rfl)⟩

/-- C22: the reader of a cursor returns 0 with no error in every database reached from
the empty one by the writing methods of the storage without a save of that cursor;
it returns `x` after `x` was saved, for every `x` below 2^64; and the save of one cursor
does not change what the reader of another cursor returns. -/
theorem cursor_read_after_save (E : Ext) :
    (∀ (s : Store) (c : List (Nat × Nat)) (k : List Cursor) (cur : Cursor),
      Ledger E s c k → cur ∉ k → readCursor s cur = Except.ok 0) ∧
    (∀ (s : Store) (cur : Cursor) (x : Nat), x < 2 ^ 64 →
      readCursor (saveCursor s x cur) cur = Except.ok x) ∧
    (∀ (s : Store) (cur other : Cursor) (x : Nat), other ≠ cur →
      readCursor (saveCursor s x cur) other = readCursor s other) := by
  have hread : ∀ (s : Store) (cur : Cursor),
      readCursor s cur = getMostRecentEventIdx s cur.key := by
    intro s cur
    cases cur
    · show LastDepositPoll s = getMostRecentEventIdx s latestDepositIdxKey
      have hnf : getMostRecentEventIdx s latestDepositIdxKey ≠ Except.error Err.notFound := by
        intro h
        unfold getMostRecentEventIdx at h
        dsimp only at h
        split at h
        · cases h
        · rename_i b _
          cases b <;> simp [bytesToUint64] at h
      unfold LastDepositPoll
      cases hgm : getMostRecentEventIdx s latestDepositIdxKey with
      | ok v => rfl
      | error e =>
        have he : e ≠ Err.notFound := fun h => hnf (by rw [hgm, h])
        simp [he]
    · rfl
    · rfl
    · rfl
  have hsave : ∀ (s : Store) (cur : Cursor) (x : Nat),
      saveCursor s x cur = dbPut s cur.key (uint64ToBytes x) := by
    intro s cur x
    cases cur <;> rfl
  have hkey : ∀ key : String, prefixKey key [] = key := fun _ => rfl
  refine ⟨?_, ?_, ?_⟩
  · intro s c k cur hL hn
    have hg : dbGet s cur.key = none := by
      cases hv : dbGet s cur.key with
      | none => rfl
      | some v =>
        exfalso
        rcases Ledger_entries hL _ (mem_of_dbGet hv) with h1 | ⟨q, _, h2⟩ | ⟨cur', hc, h3⟩
        · exact (keyTag_cursor cur).1 h1
        · have := (keyTag_cursor cur).2
          rw [show cur.key = blkNumTxIdxAuthSigKey q.1 q.2 from h2, keyTag_auth] at this
          exact this rfl
        · rw [cursorKey_inj h3] at hn
          exact hn hc
    rw [hread]
    simp [getMostRecentEventIdx, hkey, hg]
  · intro s cur x hx
    rw [hread, hsave]
    simp only [getMostRecentEventIdx, hkey, dbGet_dbPut, if_true, uint64ToBytes,
      Nat.mod_eq_of_lt hx, bytesToUint64]
  · intro s cur other x hne
    rw [hread, hread, hsave]
    have : other.key ≠ cur.key := fun e => hne (cursorKey_inj e)
    simp [getMostRecentEventIdx, hkey, dbGet_dbPut, this]

/-- Witness of C22: in the database after Alice's deposit and her spend to Bob no
cursor was saved, and the deposit poll cursor reads 0; after 41 was saved for it, it
reads 41 and the last submitted block still reads 0. -/
theorem cursor_read_after_save_witness :
    Ledger demoExt storeAfterSpend [] [] ∧
    LastDepositPoll storeAfterSpend = Except.ok 0 ∧
    LastDepositPoll (SaveDepositPoll storeAfterSpend 41) = Except.ok 41 ∧
    LastSubmittedBlock (SaveDepositPoll storeAfterSpend 41) =
      LastSubmittedBlock storeAfterSpend :=
  have hL : Ledger demoExt storeAfterSpend [] [] :=
    Ledger.package 0 [aliceToBob] (Ledger.deposit 0 aliceDeposit Ledger.empty)
  ⟨hL, (cursor_read_after_save demoExt).1 storeAfterSpend [] [] Cursor.depositPoll hL
      (by decide),
   (cursor_read_after_save demoExt).2.1 storeAfterSpend Cursor.depositPoll 41 (by decide),
   (cursor_read_after_save demoExt).2.2 storeAfterSpend Cursor.depositPoll
     Cursor.lastSubmittedBlock 41 (by decide)⟩

/-! ## Big integers on the wire -/

/-- Facts about the sixteen hexadecimal digit characters: each is among
`0123456789abcdef`, is kept by `ToLower`, has its digit as value, and is no sign. -/
theorem digitChar_hex : ∀ d, d < 16 →
    Nat.digitChar d ∈ "0123456789abcdef".data ∧ (Nat.digitChar d).toLower = Nat.digitChar d ∧
    hexDigitValue (Nat.digitChar d) = some d ∧ Nat.digitChar d ≠ '-' ∧ Nat.digitChar d ≠ '+' ∧
    (Nat.digitChar d = '0' → d = 0) := by
  decide

/-- The digits that `Nat.toDigitsCore` produces in base 16 in front of the digits it is
given: at least one, each below 16, denoting the number, and not starting with 0
for a positive number. -/
theorem toDigitsCore_hex (fuel : Nat) :
    ∀ (n : Nat) (acc : List Nat), n < fuel →
      ∃ ds : List Nat, (∀ d ∈ ds, d < 16) ∧ ds ≠ [] ∧
        Nat.toDigitsCore 16 fuel n (acc.map Nat.digitChar) = (ds ++ acc).map Nat.digitChar ∧
        ds.foldl (fun a d => a * 16 + d) 0 = n ∧ (0 < n → ds.head? ≠ some 0) := by
  induction fuel with
  | zero => intro n acc h; omega
  | succ f ih =>
    intro n acc h
    simp only [Nat.toDigitsCore]
    split
    · rename_i h0
      have hn : n % 16 = n := by omega
      refine ⟨[n % 16], ?_, by simp, by simp, by simp [hn], ?_⟩
      · intro d hd
        rw [List.mem_singleton.mp hd]
        exact Nat.mod_lt _ (by decide)
      · intro hpos
        simp only [List.head?_cons, ne_eq, Option.some.injEq]
        omega
    · rename_i h0
      obtain ⟨ds, hlt, hne, hds, hval, hhead⟩ := ih (n / 16) ((n % 16) :: acc) (by omega)
      refine ⟨ds ++ [n % 16], ?_, by simp, ?_, ?_, ?_⟩
      · intro d hd
        rcases List.mem_append.mp hd with hd | hd
        · exact hlt d hd
        · rw [List.mem_singleton.mp hd]
          exact Nat.mod_lt _ (by decide)
      · rw [List.map_cons] at hds
        rw [hds]
        simp
      · rw [List.foldl_append, hval]
        simp only [List.foldl_cons, List.foldl_nil]
        omega
      · intro _
        have := hhead (by omega)
        cases ds with
        | nil => exact absurd rfl hne
        | cons d rest => simpa using this

/-- The digits of `Nat.toDigits 16 n`. -/
theorem toDigits_hex (n : Nat) :
    ∃ ds : List Nat, (∀ d ∈ ds, d < 16) ∧ ds ≠ [] ∧
      Nat.toDigits 16 n = ds.map Nat.digitChar ∧
      ds.foldl (fun a d => a * 16 + d) 0 = n ∧ (0 < n → ds.head? ≠ some 0) := by
  obtain ⟨ds, h1, h2, h3, h4, h5⟩ := toDigitsCore_hex (n + 1) n [] (Nat.lt_succ_self n)
  refine ⟨ds, h1, h2, ?_, h4, h5⟩
  simpa [Nat.toDigits] using h3

/-- The number denoted by a string of hexadecimal digit characters. -/
theorem hexValue_digits (ds : List Nat) (h : ∀ d ∈ ds, d < 16) :
    ∀ a : Nat, (ds.map Nat.digitChar).foldl
      (fun acc c => acc * 16 + (hexDigitValue c).getD 0) a =
        ds.foldl (fun a d => a * 16 + d) a := by
  induction ds with
  | nil => intro a; rfl
  | cons d rest ih =>
    intro a
    have hd := (digitChar_hex d (h d (List.mem_cons_self _ _))).2.2.1
    simp only [List.map_cons, List.foldl_cons, hd, Option.getD_some]
    exact ih (fun x hx => h x (List.mem_cons_of_mem _ hx)) _

/-- Decoding an even number of hexadecimal digit characters into bytes and encoding the
bytes gives the characters back. -/
theorem hexEncode_hexDecode (k : Nat) :
    ∀ ds : List Nat, ds.length = 2 * k → (∀ d ∈ ds, d < 16) →
      (hexEncodeToString (hexDecode (ds.map Nat.digitChar))).data = ds.map Nat.digitChar := by
  induction k with
  | zero =>
    intro ds hl _
    have : ds = [] := List.length_eq_zero.mp (by omega)
    subst this
    rfl
  | succ k ih =>
    intro ds hl h
    match ds, hl, h with
    | d1 :: d2 :: rest, hl, h =>
      have h1 : d1 < 16 := h d1 (by simp)
      have h2 : d2 < 16 := h d2 (by simp)
      have hrest := ih rest (by simp at hl; omega)
        (fun x hx => h x (List.mem_cons_of_mem _ (List.mem_cons_of_mem _ hx)))
      simp only [hexEncodeToString] at hrest ⊢
      simp only [List.map_cons, hexDecode, (digitChar_hex d1 h1).2.2.1,
        (digitChar_hex d2 h2).2.2.1, List.flatMap_cons, List.cons_append, List.nil_append,
        hrest]
      have e1 : (d1 * 16 + d2) / 16 % 16 = d1 := by omega
      have e2 : (d1 * 16 + d2) % 16 = d2 := by omega
      rw [e1, e2]

/-- C27: for every natural number `n`, `SerializeBig(n)` is `0x` followed by the digits
of `n` in base 16: characters among `0123456789abcdef` that denote `n`, without a
leading zero when `n` is positive; and `DeserializeBig(SerializeBig(n))` is `n`. -/
theorem serializeBig_roundtrip (n : Nat) :
    SerializeBig (n : Int) = "0x" ++ String.mk (Nat.toDigits 16 n) ∧
    (∀ c ∈ Nat.toDigits 16 n, c ∈ "0123456789abcdef".data) ∧
    hexValue (Nat.toDigits 16 n) = n ∧
    (0 < n → (Nat.toDigits 16 n).head? ≠ some '0') ∧
    DeserializeBig (SerializeBig (n : Int)) = some (n : Int) := by
  obtain ⟨ds, hlt, hne, hds, hval, hhead⟩ := toDigits_hex n
  have hser : SerializeBig (n : Int) = "0x" ++ String.mk (Nat.toDigits 16 n) := by
    have hlow : (Nat.toDigits 16 n).map Char.toLower = Nat.toDigits 16 n := by
      rw [hds, List.map_map]
      apply List.map_congr_left
      intro d hd
      exact (digitChar_hex d (hlt d hd)).2.1
    have hneg : ¬ ((n : Int) < 0) := by omega
    simp [SerializeBig, bigText16, toLowerString, hlow, hneg]
  refine ⟨hser, ?_, ?_, ?_, ?_⟩
  · intro c hc
    rw [hds] at hc
    obtain ⟨d, hd, rfl⟩ := List.mem_map.mp hc
    exact (digitChar_hex d (hlt d hd)).1
  · rw [hds, hexValue, hexValue_digits ds hlt, hval]
  · intro hpos hz
    apply hhead hpos
    rw [hds] at hz
    cases ds with
    | nil => exact absurd rfl hne
    | cons d rest =>
      simp only [List.map_cons, List.head?_cons, Option.some.injEq] at hz ⊢
      exact (digitChar_hex d (hlt d (List.mem_cons_self _ _))).2.2.2.2.2 hz
  · -- the digits handed to `Hex2Bytes`: padded to an even number
    obtain ⟨ps, hplt, hpne, hpeven, hpval, hfrom⟩ : ∃ ps : List Nat, (∀ d ∈ ps, d < 16) ∧
        ps ≠ [] ∧ ps.length % 2 = 0 ∧ ps.foldl (fun a d => a * 16 + d) 0 = n ∧
        FromHex (SerializeBig (n : Int)) = hexDecode (ps.map Nat.digitChar) := by
      have hdata : (SerializeBig (n : Int)).data = '0' :: 'x' :: ds.map Nat.digitChar := by
        rw [hser, hds]; rfl
      by_cases hodd : ds.length % 2 = 1
      · refine ⟨0 :: ds, ?_, by simp, by simp; omega, by simpa using hval, ?_⟩
        · intro d hd
          rcases List.mem_cons.mp hd with hd | hd
          · rw [hd]; decide
          · exact hlt d hd
        · simp [FromHex, hdata, hodd]
          rfl
      · refine ⟨ds, hlt, hne, by omega, hval, ?_⟩
        simp [FromHex, hdata, hodd]
    obtain ⟨k, hk⟩ : ∃ k, ps.length = 2 * k := ⟨ps.length / 2, by omega⟩
    have hround := hexEncode_hexDecode k ps hk hplt
    have hs : hexEncodeToString (FromHex (SerializeBig (n : Int))) =
        String.mk (ps.map Nat.digitChar) := by
      rw [hfrom]
      exact String.ext hround
    unfold DeserializeBig
    rw [hs]
    cases ps with
    | nil => exact absurd rfl hpne
    | cons d rest =>
      have hd := digitChar_hex d (hplt d (List.mem_cons_self _ _))
      have hall : ((d :: rest).map Nat.digitChar).all (fun c => (hexDigitValue c).isSome) =
          true := by
        rw [List.all_eq_true]
        intro c hc
        obtain ⟨x, hx, rfl⟩ := List.mem_map.mp hc
        rw [(digitChar_hex x (hplt x hx)).2.2.1]
        rfl
      have hv : hexValue ((d :: rest).map Nat.digitChar) = n := by
        rw [hexValue, hexValue_digits _ hplt, hpval]
      simp only [bigSetString16, String.length, List.map_cons, List.length_cons,
        List.head?_cons, Option.some.injEq, hd.2.2.2.1, hd.2.2.2.2.1, false_or, if_false,
        Nat.succ_ne_zero, Nat.add_one_ne_zero]
      rw [List.map_cons] at hall hv
      simp [hall, hv]

/-- The wire form of 0, of a number with an odd number of hex digits and of a number
with an even number of them, and what `DeserializeBig` reads from a negative number's
wire form. -/
theorem serializeBig_examples :
    SerializeBig 0 = "0x0" ∧ DeserializeBig "0x0" = some 0 ∧
    SerializeBig 2748 = "0xabc" ∧ DeserializeBig "0xabc" = some 2748 ∧
    SerializeBig 255 = "0xff" ∧ DeserializeBig "0xff" = some 255 ∧
    SerializeBig (-255) = "0x-ff" ∧ DeserializeBig "0x-ff" = some 0 := by
  decide

/-! ## One outpoint in both inputs -/

/-- C31 (the code at a failing input): in the database after Alice's deposit of 1000,
the transaction `aliceTwice` names outpoint (1, 0, 0) in `input0` and in its non-zero
`input1` and pays 2000 to Bob. `VerifySpendTransaction` looks the deposit up once for
each input, adds its 1000 twice and returns valid; the mempool parks the
transaction, and packaging it succeeds. -/
theorem verify_accepts_same_outpoint_twice :
    IsZeroInput (some aliceTwice.Transaction.Input1) = false ∧
    aliceTwice.Transaction.Input0.BlkNum = aliceTwice.Transaction.Input1.BlkNum ∧
    aliceTwice.Transaction.Input0.TxIdx = aliceTwice.Transaction.Input1.TxIdx ∧
    aliceTwice.Transaction.Input0.OutIdx = aliceTwice.Transaction.Input1.OutIdx ∧
    FindTransactionByBlockNumTxIdx storeAfterDeposit 1 0 = Except.ok (some depositAt1) ∧
    depositAt1.Transaction.Output0.Denom = 1000 ∧
    VerifySpendTransaction demoExt storeAfterDeposit aliceTwice = Except.ok true ∧
    Mempool.Append demoExt storeAfterDeposit NewMempool { tx := aliceTwice, res := 0 } =
      ({ txPool := [{ Tx := aliceTwice, Response := 0 }], depositPool := [],
         poolSpends := {"1:0:0"} }, Reply.pending) ∧
    (PackageBlock demoExt 0 storeAfterDeposit [aliceTwice]).1 =
      Except.ok { MerkleRoot := [1], NumberTransactions := 1, BlockFees := 0,
                  BlockNumber := 2 } := by
  decide

/-! ## The prefix of a block and the keys of other blocks -/

/-- A put under a key that the prefix does not match leaves the iterator over the prefix
as it was. -/
theorem dbIterate_dbPut_of_not_under (pfx : String) (k : String) (v : Value)
    (h : pfx.data.isPrefixOf k.data = false) :
    ∀ s : Store, dbIterate (dbPut s k v) pfx = dbIterate s pfx := by
  intro s
  induction s with
  | nil => simp [dbPut, dbIterate, h]
  | cons hd tl ih =>
    obtain ⟨k0, v0⟩ := hd
    simp only [dbPut]
    split
    · rename_i e
      subst e
      simp [dbIterate, h]
    · split
      · simp [dbIterate, h]
      · simp only [dbIterate, List.filter_cons] at ih ⊢
        rw [ih]

/-- C33: for block numbers `n ≠ m` and every index `i`, the prefix
`tx::blkNum::<n>::txIdx::` over which `FindTransactionsByBlockNum(n)` iterates is not a
prefix of the key `tx::blkNum::<m>::txIdx::<i>`: no entry under that key is visited,
and putting a value under that key does not change what
`FindTransactionsByBlockNum(n)` returns. -/
theorem other_block_not_under (n m i : Nat) (h : n ≠ m) :
    (txPrefixKey ["blkNum", toString n, "txIdx"] ++ "::").data.isPrefixOf
      (blkNumTxIdxKey m i).data = false ∧
    (∀ s : Store, FindTransactionsByBlockNum s n =
      findBlockTransactions (dbIterate s (txPrefixKey ["blkNum", toString n, "txIdx"] ++ "::"))
        (txPrefixKey ["blkNum", toString n, "txIdx"] ++ "::") n) ∧
    (∀ (s : Store) (v : Value), (blkNumTxIdxKey m i, v) ∉
      dbIterate s (txPrefixKey ["blkNum", toString n, "txIdx"] ++ "::")) ∧
    (∀ (s : Store) (v : Value),
      FindTransactionsByBlockNum (dbPut s (blkNumTxIdxKey m i) v) n =
        FindTransactionsByBlockNum s n) := by
  have hno : (txIdxPrefix n).data.isPrefixOf (blkNumTxIdxKey m i).data = false := by
    cases hp : (txIdxPrefix n).data.isPrefixOf (blkNumTxIdxKey m i).data with
    | false => rfl
    | true => exact absurd (prefix_position (List.isPrefixOf_iff_prefix.mp hp)).symm h
  refine ⟨hno, fun s => rfl, ?_, ?_⟩
  · intro s v hmem
    have hmem' : (blkNumTxIdxKey m i, v) ∈ dbIterate s (txIdxPrefix n) := hmem
    simp only [dbIterate, List.mem_filter] at hmem'
    rw [hno] at hmem'
    exact absurd hmem'.2 (by decide)
  · intro s v
    show findBlockTransactions (dbIterate (dbPut s (blkNumTxIdxKey m i) v) (txIdxPrefix n))
        (txIdxPrefix n) n =
      findBlockTransactions (dbIterate s (txIdxPrefix n)) (txIdxPrefix n) n
    rw [dbIterate_dbPut_of_not_under _ _ _ hno]

/-- Witness of C33: the prefix of block 1 is not a prefix of the key of position
(10, 0), and an entry put under that key does not show in the transactions of
block 1. -/
theorem other_block_not_under_witness :
    "tx::blkNum::1::txIdx::".data.isPrefixOf "tx::blkNum::10::txIdx::0".data = false ∧
    FindTransactionsByBlockNum
        (dbPut storeAfterDeposit (blkNumTxIdxKey 10 0) (encodeConfirmed aliceToBob)) 1 =
      FindTransactionsByBlockNum storeAfterDeposit 1 :=
  ⟨(other_block_not_under 1 10 0 (by decide)).1,
   (other_block_not_under 1 10 0 (by decide)).2.2.2 storeAfterDeposit
     (encodeConfirmed aliceToBob)⟩

/-! ## Lists of confirmed transactions on the wire -/

/-- The result of `SerializeConfirmedTxs` has the length of its argument. -/
theorem serializeConfirmedTxs_length (txs : List ConfirmedTransaction) :
    (SerializeConfirmedTxs txs).length = txs.length := by
  unfold SerializeConfirmedTxs
  cases h : txs.getLast? with
  | none =>
    have : txs = [] := by simpa using h
    simp [this]
  | some last => simp

/-- Apart from `Sig0` and `Sig1`, element `i` of `SerializeConfirmedTxs(txs)` is
`SerializeConfirmedTx(txs[i])`. -/
theorem serializeConfirmedTxs_other_fields (txs : List ConfirmedTransaction) (z : Signature) :
    (SerializeConfirmedTxs txs).map
        (fun m => { m with Transaction := { m.Transaction with Sig0 := z, Sig1 := z } }) =
      txs.map (fun c => { SerializeConfirmedTx c with
        Transaction := { (SerializeConfirmedTx c).Transaction with Sig0 := z, Sig1 := z } }) := by
  unfold SerializeConfirmedTxs
  cases h : txs.getLast? with
  | none =>
    have : txs = [] := by simpa using h
    simp [this]
  | some last => simp [readAliased, Function.comp_def]

/-- C32 (the code at a failing input): `SerializeConfirmedTxs` of the two transactions
`wireFirst` (bytes 1 in `Sig0`, 2 in `Sig1`) and `wireSecond` (bytes 5 and 6) has
length 2, but both elements carry the `Sig0` and `Sig1` of `wireSecond`, while
`SerializeConfirmedTx(wireFirst)` carries those of `wireFirst`: element 0 is not
`SerializeConfirmedTx(txs[0])`. The inputs, outputs, fee, position and `Signatures`
of element 0 are those of `wireFirst`. -/
theorem serializeConfirmedTxs_shares_sigs :
    (SerializeConfirmedTxs [wireFirst, wireSecond]).length = 2 ∧
    (SerializeConfirmedTxs [wireFirst, wireSecond]).map (fun m => m.Transaction.Sig0) =
      [List.replicate 65 5, List.replicate 65 5] ∧
    (SerializeConfirmedTxs [wireFirst, wireSecond]).map (fun m => m.Transaction.Sig1) =
      [List.replicate 65 6, List.replicate 65 6] ∧
    (SerializeConfirmedTx wireFirst).Transaction.Sig0 = List.replicate 65 1 ∧
    (SerializeConfirmedTx wireFirst).Transaction.Sig1 = List.replicate 65 2 ∧
    (SerializeConfirmedTxs [wireFirst, wireSecond]).head? ≠
      some (SerializeConfirmedTx wireFirst) ∧
    (SerializeConfirmedTxs [wireFirst, wireSecond]).head? =
      some { SerializeConfirmedTx wireFirst with
        Transaction := { (SerializeConfirmedTx wireFirst).Transaction with
          Sig0 := List.replicate 65 5, Sig1 := List.replicate 65 6 } } ∧
    (SerializeConfirmedTxs [wireFirst, wireSecond]).getLast? =
      some (SerializeConfirmedTx wireSecond) ∧
    SerializeConfirmedTxs [wireFirst] = [SerializeConfirmedTx wireFirst] := by
  decide

end Plasma
